import Mathlib

/-!
# Navigation core of the Oz ground robot: clustering engine and maneuver state machine

A shallow embedding of `EpitechClient/Algorithm/Algorithm.cpp`.

Modelling conventions.

* A `double` is the rational number it denotes (`ℚ`); the finite binary64 values are the
  rationals `m * 2 ^ q` with `|m| < 2 ^ 53` and `-1074 ≤ q`. Every operation of the
  program that produces a `double` (`+`, `-`, `*`, `/`, `std::sqrt`, `std::pow(x, 2)`, the
  conversion of an integer, a decimal literal) is the exact operation followed by one
  rounding to the nearest binary64 value, ties to even (`binary64.round`): each operation
  is rounded on its own, without fused multiply-add and without extended precision.
  Comparisons and `std::abs` are exact. Infinities, NaN and the sign of zero are not
  represented: the exponent is not bounded above, so the model is that of the program as
  long as no operation overflows.
* A `point &` into `_world` (the `point_reference` held in the neighbour lists) is the
  index of the point in `_world`; a `point` stored by value is a copy.
* Undefined behaviour (an access outside a container, a call through the null
  `_next`) and exhaustion of the iteration budget of a loop are the result `none`.
* What the facade `Oz` returns during a tick (lidar, odometer, motor read-back) is an
  input of the tick; what the program commands is returned as a list of `Effect`s.
  Console output and wall-clock measurements are left out.
-/

set_option linter.dupNamespace false

namespace Algorithm

/-! ## Binary64 arithmetic -/

/-- The power `2 ^ e` of an integer exponent `e`. -/
def binary64.two_pow (e : Int) : ℚ :=
  if 0 ≤ e then ((2 ^ e.toNat : Nat) : ℚ) else 1 / ((2 ^ (-e).toNat : Nat) : ℚ)

/-- The loop that finds a width for the binary logarithm: the first `k`, from the given
one on, with `n < 2 ^ 2 ^ k`. -/
def binary64.width_loop (n : Nat) : Nat → Nat → Nat
  | 0, k => k
  | fuel + 1, k => if n < 2 ^ 2 ^ k then k else binary64.width_loop n fuel (k + 1)

/-- The loop of the binary logarithm: the binary digits of the logarithm are decided from
bit `k - 1` down to bit 0, `e` being the part of the logarithm decided so far. -/
def binary64.log2_loop (n : Nat) : Nat → Nat → Nat
  | 0, e => e
  | k + 1, e =>
    if 2 ^ (e + 2 ^ k) ≤ n then binary64.log2_loop n k (e + 2 ^ k)
    else binary64.log2_loop n k e

/-- The binary logarithm of a natural number, rounded down (0 at 0). -/
def binary64.log2 (n : Nat) : Nat :=
  binary64.log2_loop n (binary64.width_loop n n 0) 0

/-- The binary exponent of a rational: for `x ≠ 0`, the integer `e` with
`2 ^ e ≤ |x| < 2 ^ (e + 1)` (`binary64.exponent_spec`). -/
def binary64.exponent (x : ℚ) : Int :=
  let e : Int := (binary64.log2 x.num.natAbs : Int) - (binary64.log2 x.den : Int)
  if |x| < binary64.two_pow e then e - 1 else e

/-- The exponent of the spacing of the binary64 values around `x`: 52 below the exponent
of `x` (a significand of 53 bits), and -1074 in the subnormal range. -/
def binary64.quantum (x : ℚ) : Int :=
  max (binary64.exponent x - 52) (-1074)

/-- The integer nearest to a rational, a tie going to the even one. -/
def binary64.nearest_even (y : ℚ) : Int :=
  let n : Int := ⌊y⌋
  let r : ℚ := y - n
  if r < 1 / 2 then n
  else if 1 / 2 < r then n + 1
  else if n % 2 = 0 then n
  else n + 1

/-- Rounding to binary64: the multiple `m * 2 ^ q` of the spacing around `x` nearest to
`x`, ties to even, with `|m| ≤ 2 ^ 53` (`binary64.round_nearest`, `binary64.round_grid`).
A decimal literal `c` of the program is the value `binary64.round c`. -/
def binary64.round (x : ℚ) : ℚ :=
  (binary64.nearest_even (x / binary64.two_pow (binary64.quantum x)) : ℚ) *
    binary64.two_pow (binary64.quantum x)

/-- The conversion `double(n)` of an integer. -/
def binary64.of_int (n : Int) : ℚ := binary64.round (n : ℚ)

/-- The sum `x + y` of two doubles. -/
def binary64.add (x y : ℚ) : ℚ := binary64.round (x + y)

/-- The difference `x - y` of two doubles. -/
def binary64.sub (x y : ℚ) : ℚ := binary64.round (x - y)

/-- The product `x * y` of two doubles. -/
def binary64.mul (x y : ℚ) : ℚ := binary64.round (x * y)

/-- The quotient `x / y` of two doubles. -/
def binary64.div (x y : ℚ) : ℚ := binary64.round (x / y)

/-- The call `std::pow(x, 2)`: the square, rounded once. -/
def binary64.sq (x : ℚ) : ℚ := binary64.round (x * x)

/-- The loop of the integer square root: the binary digits of the root are decided from
bit `k - 1` down to bit 0, `r` being the part of the root decided so far. -/
def binary64.isqrt_loop (n : Nat) : Nat → Nat → Nat
  | 0, r => r
  | k + 1, r =>
    if (r + 2 ^ k) * (r + 2 ^ k) ≤ n then binary64.isqrt_loop n k (r + 2 ^ k)
    else binary64.isqrt_loop n k r

/-- The integer square root: the largest `r` with `r * r ≤ n`. -/
def binary64.isqrt (n : Nat) : Nat :=
  binary64.isqrt_loop n (binary64.log2 n / 2 + 1) 0

/-- The call `std::sqrt(x)`: the binary64 value nearest to the square root of `x`, ties
to even. With `q` the exponent of the spacing around the root, `n` is the root of
`x / 4 ^ q` rounded down, and the root lies below or above `n + 1/2` as `4 * (x / 4 ^ q)`
lies below or above `(2 * n + 1) ^ 2` (`binary64.sqrt_grid`, `binary64.sqrt_nearest`). The
value at `x ≤ 0` is 0: the program takes square roots of sums of squares only. -/
def binary64.sqrt (x : ℚ) : ℚ :=
  if x ≤ 0 then 0
  else
    let q : Int := binary64.exponent x / 2 - 52
    let y : ℚ := x / binary64.two_pow (2 * q)
    let n : Nat := binary64.isqrt ⌊y⌋₊
    let m : Nat :=
      if 4 * y < (((2 * n + 1) * (2 * n + 1) : Nat) : ℚ) then n
      else if (((2 * n + 1) * (2 * n + 1) : Nat) : ℚ) < 4 * y then n + 1
      else if n % 2 = 0 then n
      else n + 1
    (m : ℚ) * binary64.two_pow q

/-! ## Geometric primitives -/

/-- Modelled from the spec: the cluster tag of a point. The constants `point::unbound`
and `point::noise` are declared in `Algorithm.hh`, which is not among the sources; the
data model gives `ClusterTag ∈ {Unbound, Noise, Id(non-negative integer)}`. -/
inductive ClusterTag where
  | unbound : ClusterTag
  | noise : ClusterTag
  | id (n : Nat) : ClusterTag
  deriving DecidableEq

/-- The 2D point type with its cluster tag. -/
structure point where
  x : ℚ
  y : ℚ
  cluster : ClusterTag
  deriving DecidableEq

/-- The member `point::tie`: the pair `(y, x)`. -/
def point.tie (p : point) : ℚ × ℚ := (p.y, p.x)

/-- The difference `lhs - rhs` of two points (`operator-`). -/
def point.sub (lhs rhs : point) : point :=
  ⟨binary64.sub lhs.x rhs.x, binary64.sub lhs.y rhs.y, ClusterTag.unbound⟩

/-- The order `lhs < rhs` on points (`operator<`): lexicographic on `(|y|, |x|)`,
written out as `std::tuple` compares (`a0 < b0 || (!(b0 < a0) && a1 < b1)`). -/
def point.lt (lhs rhs : point) : Bool :=
  let lx := |lhs.x|
  let ly := |lhs.y|
  let rx := |rhs.x|
  let ry := |rhs.y|
  decide (ly < ry ∨ (¬ ry < ly ∧ lx < rx))

/-- The equality `lhs == rhs` on points (`operator==`): equality of the `tie` pairs. -/
def point.eq (lhs rhs : point) : Bool :=
  decide (lhs.tie = rhs.tie)

/-- The distance between two points (`euclidean_distance`), as the program computes it:
two differences, two products, a sum and a square root, each rounded. -/
def euclidean_distance (p q : point) : ℚ :=
  binary64.sqrt
    (binary64.add (binary64.mul (binary64.sub q.x p.x) (binary64.sub q.x p.x))
      (binary64.mul (binary64.sub q.y p.y) (binary64.sub q.y p.y)))

/-- The length of a vector (`vector_length`), as the program computes it. -/
def vector_length (p : point) : ℚ :=
  binary64.sqrt (binary64.add (binary64.mul p.x p.x) (binary64.mul p.y p.y))

/-! ## Platform parameters -/

/-- What the clustering engine takes from outside `Algorithm.cpp`: the constant
`LIDAR_BEGIN_ANGLE` (of `constants.hh`), the polar-to-Cartesian helper
`sf_vec2_from_polar` and `std::sort` on points, of which only the contract is used:
the result is a permutation of the argument, in non-descending `operator<` order. -/
structure Platform where
  LIDAR_BEGIN_ANGLE : Int
  sf_vec2_from_polar : Nat → Int → ℚ × ℚ
  sort : List point → List point
  sort_perm : ∀ l : List point, (sort l).Perm l
  sort_sorted : ∀ l : List point, (sort l).Pairwise (fun a b => point.lt b a = false)

/-! ## Scanner -/

/-- The clustering engine (`class Scanner`). -/
structure Scanner where
  _epsilon : ℚ
  _iterations_count : Nat
  _world_buffer : List point
  _world : List point
  _sub_lines : List (List point)

/-- Modelled from the spec: the cluster under construction. `cluster_info` is declared
in `Algorithm.hh`, which is not among the sources; it pairs the cluster's point sequence
(a reference to the last element of `sub_lines_buffer`) with the cluster's integer id. -/
structure cluster_info where
  points : List point
  id : Nat

/-- The constructor `Scanner::Scanner`. -/
def Scanner.new : Scanner :=
  { _epsilon := 0, _iterations_count := 0, _world_buffer := [], _world := [], _sub_lines := [] }

/-- The setter `Scanner::set_epsilon`. -/
def Scanner.set_epsilon (s : Scanner) (e : ℚ) : Scanner :=
  { s with _epsilon := e }

/-- The getter `Scanner::get_epsilon`. -/
def Scanner.get_epsilon (s : Scanner) : ℚ := s._epsilon

/-- The getter `Scanner::get_iterations_count`. -/
def Scanner.get_iterations_count (s : Scanner) : Nat := s._iterations_count

/-- The getter `Scanner::get_sub_lines`. -/
def Scanner.get_sub_lines (s : Scanner) : List (List point) := s._sub_lines

/-- The loop of `Scanner::agglomerate` over the samples of the sweep: `angle` is the
running angle, `buffer` is `_world_buffer`. -/
def Scanner.agglomerate_loop (P : Platform) : List Nat → Int → List point → List point
  | [], _, buffer => buffer
  | dist :: rest, angle, buffer =>
    if dist > 0 then
      let vec := P.sf_vec2_from_polar dist angle
      Scanner.agglomerate_loop P rest (angle + 1) (buffer ++ [⟨vec.1, vec.2, ClusterTag.unbound⟩])
    else
      Scanner.agglomerate_loop P rest (angle + 1) buffer

/-- The method `Scanner::agglomerate`: the buffer is cleared, filled from the sweep,
sorted and swapped with `_world`. -/
def Scanner.agglomerate (P : Platform) (s : Scanner) (capture : List Nat) : Scanner :=
  let buffer := Scanner.agglomerate_loop P capture P.LIDAR_BEGIN_ANGLE []
  let buffer := P.sort buffer
  { s with _world_buffer := s._world, _world := buffer }

/-- The method `Scanner::neighbors_of`: references to the unbound points of `_world` at
distance less than `_epsilon` from `origin`, in `_world` order. -/
def Scanner.neighbors_of (s : Scanner) (origin : point) : List Nat :=
  (List.range s._world.length).filter fun i =>
    match s._world[i]? with
    | none => false
    | some candidate =>
      if candidate.cluster ≠ ClusterTag.unbound then false
      else decide (euclidean_distance origin candidate < s._epsilon)

/-- The loop of `Scanner::expand`. The last argument is the part of the list `neighbors`
from the iterator `it` to the end; each iteration takes one unit of the budget. -/
def Scanner.expand_loop : Nat → Scanner → cluster_info → List Nat → Option (Scanner × cluster_info)
  | _, s, cluster, [] => some (s, cluster)
  | 0, _, _, _ :: _ => none
  | budget + 1, s, cluster, it :: rest =>
    let s := { s with _iterations_count := s._iterations_count + 1 }
    match s._world[it]? with
    | none => none
    | some pt_n =>
      if pt_n.cluster ≠ ClusterTag.unbound then
        Scanner.expand_loop budget s cluster rest
      else
        let pt_n := { pt_n with cluster := ClusterTag.id cluster.id }
        let s := { s with _world := s._world.set it pt_n }
        let cluster := { cluster with points := cluster.points ++ [pt_n] }
        let new_neighbors := s.neighbors_of pt_n
        match s._world[(it :: rest).getLast (List.cons_ne_nil it rest)]? with
        | none => none
        | some last =>
          let new_neighbors := new_neighbors.dropWhile fun current =>
            match s._world[current]? with
            | none => true
            | some c => !(point.lt last c)
          Scanner.expand_loop budget s cluster (rest ++ new_neighbors)

/-- The number of unbound points of a world. -/
def unbound_count (world : List point) : Nat :=
  (world.filter fun p => decide (p.cluster = ClusterTag.unbound)).length

/-- An iteration budget that `Scanner::expand` cannot exhaust: every iteration either
consumes a pending reference or binds an unbound point, and binding a point appends at
most `_world.size()` references. -/
def Scanner.expand_budget (s : Scanner) (neighbors : List Nat) : Nat :=
  neighbors.length + unbound_count s._world * (s._world.length + 1)

/-- The method `Scanner::expand`. -/
def Scanner.expand (s : Scanner) (cluster : cluster_info) (neighbors : List Nat) :
    Option (Scanner × cluster_info) :=
  Scanner.expand_loop (s.expand_budget neighbors) s cluster neighbors

/-- The local state of `Scanner::scan_sub_lines` while it walks `_world`. -/
structure scan_state where
  self : Scanner
  sub_lines_buffer : List (List point)
  current_id : Nat

/-- The part of the body of the loop of `Scanner::scan_sub_lines` that opens the cluster
`current_id` at the point `pt = _world[i]`: the neighbours of `pt` are collected, `pt` is
tagged and pushed, and the cluster is expanded. -/
def Scanner.open_cluster (s : Scanner) (i : Nat) (pt : point) (current_id : Nat) :
    Option (Scanner × cluster_info) :=
  let neighbors := s.neighbors_of pt
  let pt := { pt with cluster := ClusterTag.id current_id }
  let s := { s with _world := s._world.set i pt }
  let cluster : cluster_info := { points := [pt], id := current_id }
  s.expand cluster neighbors

/-- The body of the loop of `Scanner::scan_sub_lines` at the point `_world[i]`. -/
def Scanner.scan_body (st : scan_state) (i : Nat) : Option scan_state :=
  match st.self._world[i]? with
  | none => none
  | some pt =>
    if pt.cluster ≠ ClusterTag.unbound ∨ euclidean_distance ⟨0, 0, ClusterTag.unbound⟩ pt > 1000 then
      some st
    else
      match st.self.open_cluster i pt st.current_id with
      | none => none
      | some (s, cluster) =>
        some
          { self := s
            sub_lines_buffer :=
              if cluster.points.length < 3 then st.sub_lines_buffer
              else st.sub_lines_buffer ++ [cluster.points]
            current_id := st.current_id + 1 }

/-- The loop of `Scanner::scan_sub_lines` over the given positions of `_world`. -/
def Scanner.scan_loop : List Nat → scan_state → Option scan_state
  | [], st => some st
  | i :: rest, st =>
    match Scanner.scan_body st i with
    | none => none
    | some st => Scanner.scan_loop rest st

/-- The method `Scanner::scan_sub_lines`. -/
def Scanner.scan_sub_lines (s : Scanner) : Option Scanner :=
  let st : scan_state :=
    { self := { s with _iterations_count := 0 }, sub_lines_buffer := [], current_id := 0 }
  match Scanner.scan_loop (List.range s._world.length) st with
  | none => none
  | some st => some { st.self with _sub_lines := st.sub_lines_buffer }

/-- The method `Scanner::update`. -/
def Scanner.update (P : Platform) (s : Scanner) (capture : List Nat) : Option Scanner :=
  (s.agglomerate P capture).scan_sub_lines

/-! ## Navigation state machine -/

/-- The member functions `_next` can point to. -/
inductive Handler where
  | wait : Handler
  | goStraightForPlow : Handler
  | endPlow : Handler
  | turnOnNextLigne : Handler
  deriving DecidableEq

/-- A command issued to a collaborator behind the facade `Oz`. -/
inductive Effect where
  | motor_setSpeed (v : Int) : Effect
  | motor_setAngle (v : Int) : Effect
  | gyro_reset : Effect
  | camera_enable_compression (b : Bool) : Effect
  | camera_enable_raw (b : Bool) : Effect
  deriving DecidableEq

/-- What the facade `Oz` returns during one tick: the sweep `getLidar().get_distances()`,
the count `getLidar().detect()`, the read-back `getMotor().getSpeed()`, and the odometer
values `getODO().getSpeed()` and `getODO().getDistance()`. -/
structure Oz where
  lidar_distances : List Nat
  lidar_detect : Int
  motor_speed : ℚ
  odo_speed : ℚ
  odo_distance : ℚ

/-- The navigation core (`class Algorithm`); `_next = none` is the null member pointer. -/
structure Algorithm where
  _next : Option Handler
  _scanner : Scanner
  _run_distance : ℚ
  _startTurn : ℚ

/-- The constructor `Algorithm::Algorithm`. The member `_startTurn` is not initialised by
it: its indeterminate value is the argument. -/
def Algorithm.new (startTurn : ℚ) : Algorithm :=
  { _next := none
    _scanner := Scanner.new.set_epsilon 500.0
    _run_distance := 0
    _startTurn := startTurn }

/-- The method `Algorithm::init`. -/
def Algorithm.init (a : Algorithm) : Algorithm × List Effect :=
  ({ a with _next := some Handler.wait },
    [Effect.camera_enable_compression false, Effect.camera_enable_raw true])

/-- The getter `Algorithm::get_run_distance`. -/
def Algorithm.get_run_distance (a : Algorithm) : ℚ := a._run_distance

/-- The getter `Algorithm::get_scanner`. -/
def Algorithm.get_scanner (a : Algorithm) : Scanner := a._scanner

/-- The method `Algorithm::update_run_distance`; `delta_time` is the count of milliseconds. -/
def Algorithm.update_run_distance (a : Algorithm) (ground_speed : ℚ) (delta_time : Int) :
    Algorithm :=
  { a with
    _run_distance :=
      binary64.add a._run_distance
        (binary64.mul ground_speed (binary64.div (binary64.of_int delta_time) 1000.0)) }

/-- The method `Algorithm::wait`. -/
def Algorithm.wait (a : Algorithm) (oz : Oz) : Option (Algorithm × List Effect) :=
  if oz.lidar_detect > 1 then
    some ({ a with _next := some Handler.goStraightForPlow }, [])
  else
    some (a, [])

/-- The method `Algorithm::goStraightForPlow`. -/
def Algorithm.goStraightForPlow (a : Algorithm) (oz : Oz) : Option (Algorithm × List Effect) :=
  let effects :=
    if oz.lidar_detect > 0 then [Effect.motor_setSpeed 60, Effect.motor_setAngle 0]
    else []
  some ({ a with _next := some Handler.endPlow }, effects)

/-- The loop of `Algorithm::get_near_point`; the accumulator is
`(pointa, pointb, dista, distb)`. An empty line, or a line without a second point
where one is read, is an access outside the line. -/
def get_near_point_loop :
    List (List point) → point × point × ℚ × ℚ → Option (point × point × ℚ × ℚ)
  | [], acc => some acc
  | sub_line :: rest, (pointa, pointb, dista, distb) =>
    match sub_line.head? with
    | none => none
    | some candidate =>
      let d := euclidean_distance ⟨0, 0, ClusterTag.unbound⟩ candidate
      if d < dista then
        match sub_line[1]? with
        | none => none
        | some second => get_near_point_loop rest (second, pointb, d, distb)
      else if d < distb then
        match sub_line[1]? with
        | none => none
        | some second => get_near_point_loop rest (pointa, second, dista, d)
      else
        get_near_point_loop rest (pointa, pointb, dista, distb)

/-- The method `Algorithm::get_near_point`. -/
def get_near_point (points : List (List point)) : Option (point × point) :=
  let pointa : point := ⟨0, 0, ClusterTag.unbound⟩
  let pointb : point := ⟨0, 0, ClusterTag.unbound⟩
  let dista : ℚ := 4000
  let distb : ℚ := 4000
  match get_near_point_loop points (pointa, pointb, dista, distb) with
  | none => none
  | some (pointa, pointb, _, _) => some (pointa, pointb)

/-- The method `Algorithm::adjust`: four successive `if`s, the last one with an `else`. -/
def Algorithm.adjust (a : Algorithm) (_oz : Oz) : Option (Algorithm × List Effect) :=
  let sub_lines := a._scanner.get_sub_lines
  match get_near_point sub_lines with
  | none => none
  | some nearpoint =>
    let distance1 : ℚ :=
      binary64.sqrt (binary64.add (binary64.sq nearpoint.1.x) (binary64.sq nearpoint.1.y))
    let distance2 : ℚ :=
      binary64.sqrt (binary64.add (binary64.sq nearpoint.2.x) (binary64.sq nearpoint.2.y))
    let first :=
      if binary64.sub distance1 distance2 < 300 ∧ binary64.sub distance1 distance2 > 0
          ∧ nearpoint.1.x < 0 then
        [Effect.motor_setAngle (-60)]
      else []
    let second :=
      if binary64.sub distance1 distance2 < 300 ∧ binary64.sub distance1 distance2 > 0
          ∧ nearpoint.1.x > 0 then
        [Effect.motor_setAngle 60]
      else []
    let third :=
      if binary64.sub distance1 distance2 < 0 ∧ nearpoint.2.x < 0 then
        [Effect.motor_setAngle 60]
      else []
    let fourth :=
      if binary64.sub distance1 distance2 < 0 ∧ nearpoint.2.x > 0 then
        [Effect.motor_setAngle (-60)]
      else
        [Effect.motor_setAngle 0]
    some (a, first ++ second ++ third ++ fourth)

/-- The method `Algorithm::endPlow`. -/
def Algorithm.endPlow (a : Algorithm) (oz : Oz) : Option (Algorithm × List Effect) :=
  if oz.lidar_detect = 0 then
    let effects := [Effect.motor_setSpeed 0, Effect.motor_setAngle 0]
    if oz.motor_speed ≤ 0 then
      some ({ a with _startTurn := -1, _next := some Handler.turnOnNextLigne }, effects)
    else
      some (a, effects)
  else
    a.adjust oz

/-- The method `Algorithm::turnOnNextLigne`. -/
def Algorithm.turnOnNextLigne (a : Algorithm) (oz : Oz) : Option (Algorithm × List Effect) :=
  let distance := oz.odo_distance
  if a._startTurn = -1 then
    some ({ a with _startTurn := distance }, [Effect.gyro_reset])
  else if binary64.sub distance a._startTurn < binary64.mul (binary64.round 6.645) 2.0 then
    some (a, [Effect.motor_setSpeed 125])
  else if binary64.sub distance a._startTurn < binary64.mul (binary64.round 6.645) 4.0 then
    some (a, [Effect.motor_setAngle 125, Effect.motor_setSpeed 125])
  else if binary64.sub distance a._startTurn < binary64.mul (binary64.round 6.465) 11.0 then
    some (a, [Effect.motor_setAngle (-125), Effect.motor_setSpeed (-125)])
  else if binary64.sub distance a._startTurn < binary64.mul (binary64.round 6.465) 16.0 then
    some (a, [Effect.motor_setAngle 125, Effect.motor_setSpeed 125])
  else
    some ({ a with _next := some Handler.endPlow }, [])

/-- The call `(this->*_next)()`: one dispatch to the active handler. -/
def Algorithm.dispatch (a : Algorithm) (oz : Oz) : Option (Algorithm × List Effect) :=
  match a._next with
  | none => none
  | some Handler.wait => a.wait oz
  | some Handler.goStraightForPlow => a.goStraightForPlow oz
  | some Handler.endPlow => a.endPlow oz
  | some Handler.turnOnNextLigne => a.turnOnNextLigne oz

/-- The method `Algorithm::update`, one tick: scan, integrate the run distance over the
`delta_time` milliseconds since the last tick, dispatch once. -/
def Algorithm.update (P : Platform) (a : Algorithm) (oz : Oz) (delta_time : Int) :
    Option (Algorithm × List Effect) :=
  match a._scanner.update P oz.lidar_distances with
  | none => none
  | some scanner =>
    let a := { a with _scanner := scanner }
    let a := a.update_run_distance oz.odo_speed delta_time
    a.dispatch oz

/-- The method `Algorithm::getNextFunctionName`. -/
def Algorithm.getNextFunctionName (a : Algorithm) : String :=
  if a._next = some Handler.wait then "wait"
  else if a._next = some Handler.goStraightForPlow then "goStraightForPlow"
  else if a._next = some Handler.endPlow then "endPlow"
  else if a._next = some Handler.turnOnNextLigne then "turnOnNextLigne"
  else "unknown"

/-- Successive ticks of `Algorithm::update`, one per element of `ticks` (the facade
snapshot and the milliseconds elapsed); the commands of all ticks are concatenated. -/
def Algorithm.run (P : Platform) : Algorithm → List (Oz × Int) → Option (Algorithm × List Effect)
  | a, [] => some (a, [])
  | a, (oz, delta_time) :: rest =>
    match a.update P oz delta_time with
    | none => none
    | some (a, effects) =>
      match Algorithm.run P a rest with
      | none => none
      | some (a, later) => some (a, effects ++ later)

/-- Successive dispatches to the active handler, one per facade snapshot; the commands
of each dispatch are kept apart. -/
def Algorithm.dispatch_all : Algorithm → List Oz → Option (Algorithm × List (List Effect))
  | a, [] => some (a, [])
  | a, oz :: rest =>
    match a.dispatch oz with
    | none => none
    | some (a, effects) =>
      match Algorithm.dispatch_all a rest with
      | none => none
      | some (a, later) => some (a, effects :: later)

/-! ## A concrete platform -/

/-- A rational stand-in for the sine of an angle given in whole degrees (exact at the
multiples of 30 degrees). -/
def sample_sin (deg : Int) : ℚ :=
  let d := deg % 360
  let h := if d < 180 then d else d - 180
  let v : ℚ := ((4 * h * (180 - h) : Int) : ℚ) / ((40500 - h * (180 - h) : Int) : ℚ)
  if d < 180 then v else -v

/-- Modelled from the spec: values of the helper `sf_vec2_from_polar<double>(dist, angle)`,
which is not among the sources, at the returns of the sweeps used in the statements: the
doubles `x = dist * cos(angle * π / 180)` and `y = dist * sin(angle * π / 180)`, written
as the decimal literals that denote them, one entry `((dist, angle), (x, y))` per return. -/
def recorded_polar : List ((Nat × Int) × (ℚ × ℚ)) :=
  [((100, 0), (100, 0)),
    ((110, 5), (109.581416790092, 9.587131702242399)),
    ((120, 10), (118.17693036146497, 20.837781320031638)),
    ((200, 90), (1.2246467991473532e-14, 200)),
    ((300, 96), (-31.358538980296, 298.35656861048204)),
    ((2000, 98), (-278.3462019201307, 1980.5361374831407)),
    ((300, 0), (300, 0)),
    ((300, 1), (299.9543085469174, 5.235721931185053)),
    ((300, 2), (299.8172481057287, 10.469849010750291)),
    ((200, 89), (3.4904812874566753, 199.96953903127826)),
    ((200, 91), (-3.4904812874566953, 199.96953903127826)),
    ((900, 0), (900, 0)),
    ((900, 1), (899.8629256407521, 15.707165793555161)),
    ((900, 2), (899.4517443171862, 31.409547032250874)),
    ((1000, 1), (999.8476951563913, 17.45240643728351)),
    ((1100, 2), (1099.3299097210054, 38.38944637275107)),
    ((1100, 88), (38.38944637275119, 1099.3299097210054)),
    ((1000, 90), (6.123233995736766e-14, 1000)),
    ((1100, 92), (-38.389446372750804, 1099.3299097210054)),
    ((250, -45), (176.7766952966369, -176.77669529663686)),
    ((300, -37), (239.59065301418784, -180.54450694561447)),
    ((400, 53), (240.72600926081935, 319.45420401891715)),
    ((800, -45), (565.685424949238, -565.6854249492379)),
    ((800, -44), (575.471840270921, -555.7266963671977)),
    ((800, -43), (585.0829612953364, -545.5986880499988)),
    ((800, 5), (796.9557584733965, 69.72459419812654)),
    ((800, 6), (795.6175162946187, 83.62277061412277)),
    ((800, 7), (794.0369213130576, 97.49547472411798))]

/-- A stand-in for `sf_vec2_from_polar`: the recorded doubles at the recorded returns,
and elsewhere the doubles nearest to the coordinates given by the rational sine. -/
def sample_polar (dist : Nat) (angle : Int) : ℚ × ℚ :=
  match recorded_polar.lookup (dist, angle) with
  | some v => (binary64.round v.1, binary64.round v.2)
  | none =>
    (binary64.round ((dist : ℚ) * sample_sin (angle + 90)),
      binary64.round ((dist : ℚ) * sample_sin angle))

/-- The sort key of `operator<`: the pair `(|y|, |x|)` in lexicographic order. -/
def point.key (p : point) : Lex (ℚ × ℚ) := toLex (|p.y|, |p.x|)

/-- An insertion sort by the key of `operator<`. -/
def sample_sort (l : List point) : List point :=
  List.insertionSort (fun a b => a.key ≤ b.key) l

/-- A concrete platform: the sweep starts at -45 degrees, one sample per degree, with the
stand-ins above. -/
def sample_platform : Platform where
  LIDAR_BEGIN_ANGLE := -45
  sf_vec2_from_polar := sample_polar
  sort := sample_sort
  sort_perm := fun l => List.perm_insertionSort _ l
  sort_sorted := fun l => by
    haveI : IsTotal point (fun a b => a.key ≤ b.key) := ⟨fun a b => le_total a.key b.key⟩
    haveI : IsTrans point (fun a b => a.key ≤ b.key) := ⟨fun a b c h1 h2 => le_trans h1 h2⟩
    refine List.Pairwise.imp ?_ (List.sorted_insertionSort (fun a b : point => a.key ≤ b.key) l)
    intro a b hab
    have hk : |a.y| < |b.y| ∨ |a.y| = |b.y| ∧ |a.x| ≤ |b.x| := by
      simpa [point.key, Prod.Lex.le_iff] using hab
    simp only [point.lt, decide_eq_false_iff_not]
    rintro (h | ⟨_, h⟩)
    · rcases hk with hk | ⟨hk, _⟩
      · exact absurd h (not_lt.mpr hk.le)
      · exact absurd h (not_lt.mpr hk.le)
    · rcases hk with hk | ⟨_, hk⟩
      · exact absurd hk (by assumption)
      · exact absurd h (not_lt.mpr hk)

/-! ## Vocabulary of the statements -/

/-- A point carries a cluster tag other than unbound. -/
def point.bound (p : point) : Bool := decide (p.cluster ≠ ClusterTag.unbound)

/-- A point carries the tag of the cluster k. -/
def point.tagged (k : Nat) (p : point) : Bool := decide (p.cluster = ClusterTag.id k)

/-- The world w2 comes from the world w1 by tag writes: every position keeps its point,
or holds an unbound point of w1 that received one id k with lo ≤ k < hi. -/
def tags_written (lo hi : Nat) (w1 w2 : List point) : Prop :=
  w2.length = w1.length ∧
  ∀ (i : Nat) (p : point), w1[i]? = some p →
    w2[i]? = some p ∨
      (p.cluster = ClusterTag.unbound ∧
        ∃ k, lo ≤ k ∧ k < hi ∧ w2[i]? = some { p with cluster := ClusterTag.id k })

/-- What a run of the loop of expand for the cluster k changes in a scanner; added is the
sequence of points appended to the cluster. -/
structure expand_rel (k : Nat) (s s2 : Scanner) (added : List point) : Prop where
  epsilon : s2._epsilon = s._epsilon
  sub_lines : s2._sub_lines = s._sub_lines
  world_buffer : s2._world_buffer = s._world_buffer
  world : tags_written k (k + 1) s._world s2._world
  added_tagged : ∀ p ∈ added, p.cluster = ClusterTag.id k
  bound_perm : (s2._world.filter point.bound).Perm (s._world.filter point.bound ++ added)
  iterations : s._iterations_count ≤ s2._iterations_count

/-- What a part of the loop of scan_sub_lines changes in its state. -/
structure scan_rel (st st2 : scan_state) : Prop where
  epsilon : st2.self._epsilon = st.self._epsilon
  sub_lines : st2.self._sub_lines = st.self._sub_lines
  world_buffer : st2.self._world_buffer = st.self._world_buffer
  ids : st.current_id ≤ st2.current_id
  world : tags_written st.current_id st2.current_id st.self._world st2.self._world
  iterations : st.self._iterations_count ≤ st2.self._iterations_count

/-- The invariant of the loop of scan_sub_lines. -/
structure scan_inv (st : scan_state) : Prop where
  long : ∀ sl ∈ st.sub_lines_buffer, 3 ≤ sl.length
  fresh : ∀ p ∈ st.self._world, ∀ k, p.cluster = ClusterTag.id k → k < st.current_id
  ids : ∃ ids : List Nat, ids.Pairwise (fun a b => a < b) ∧ (∀ k ∈ ids, k < st.current_id) ∧
    List.Forall₂ (fun sl k => k < st.current_id ∧
      sl.Perm (st.self._world.filter (point.tagged k))) st.sub_lines_buffer ids
  copies : st.sub_lines_buffer.flatten.Subperm (st.self._world.filter point.bound)

/-- The scanner s with its members _world_buffer and _sub_lines replaced. -/
def Scanner.with_rest (s : Scanner) (world_buffer : List point) (sub_lines : List (List point)) :
    Scanner :=
  { s with _world_buffer := world_buffer, _sub_lines := sub_lines }

/-- A sweep of 271 samples with six returns: at 0, 5 and 10 degrees (distances 100, 110,
120) and at 90, 96 and 98 degrees (distances 200, 300, 2000). -/
def sample_sweep : List Nat :=
  List.replicate 45 0 ++ [100, 0, 0, 0, 0, 110, 0, 0, 0, 0, 120] ++ List.replicate 79 0 ++
    [200, 0, 0, 0, 0, 0, 300, 0, 2000] ++ List.replicate 127 0

/-- A facade snapshot: the sample sweep, with the given detection count and odometer
distance, the motor at rest and a ground speed of 1/2. -/
def sample_oz (detect : Int) (distance : ℚ) : Oz :=
  { lidar_distances := sample_sweep, lidar_detect := detect, motor_speed := 0,
    odo_speed := 1 / 2, odo_distance := distance }

/-- A navigation core in the Turn state whose turn reference distance is r. -/
def sample_turning (r : ℚ) : Algorithm :=
  { Algorithm.new r with _next := some Handler.turnOnNextLigne }

/-- A navigation core in the StopAndEvaluate state whose scanner holds two sub-lines: one
starting at (0, 100), one starting at (50, 300). -/
def sample_evaluating : Algorithm :=
  { Algorithm.new 0 with
    _next := some Handler.endPlow
    _scanner :=
      { Scanner.new with
        _sub_lines :=
          [[⟨0, 100, ClusterTag.id 0⟩, ⟨0, 110, ClusterTag.id 0⟩, ⟨0, 120, ClusterTag.id 0⟩],
            [⟨50, 300, ClusterTag.id 1⟩, ⟨50, 310, ClusterTag.id 1⟩,
              ⟨50, 320, ClusterTag.id 1⟩]] } }

/-- A sweep of 271 samples with two rows of returns: distance 300 at 0, 1 and 2 degrees,
and distance 200 at 89, 90 and 91 degrees. -/
def sample_sweep_rows : List Nat :=
  List.replicate 45 0 ++ [300, 300, 300] ++ List.replicate 86 0 ++ [200, 200, 200] ++
    List.replicate 134 0

/-- A sweep of 271 samples with three returns: distances 900, 1000 and 1100 at 0, 1 and 2
degrees. -/
def sample_sweep_far : List Nat :=
  List.replicate 45 0 ++ [900, 1000, 1100] ++ List.replicate 223 0

/-- A sweep of 271 samples with three returns: distance 1000 at 90 degrees, and distance
1100 at 88 and 92 degrees. -/
def sample_sweep_edge : List Nat :=
  List.replicate 133 0 ++ [1100, 0, 1000, 0, 1100] ++ List.replicate 133 0

/-- A sweep of 271 samples with three returns: distance 250 at -45 degrees, distance 300
at -37 degrees and distance 400 at 53 degrees. -/
def sample_sweep_chain : List Nat :=
  [250, 0, 0, 0, 0, 0, 0, 0, 300] ++ List.replicate 89 0 ++ [400] ++ List.replicate 172 0

/-- A sweep of 271 samples with two rows of returns: distance 900 at 0, 1 and 2 degrees,
and distance 200 at 89, 90 and 91 degrees. -/
def sample_sweep_rows_far : List Nat :=
  List.replicate 45 0 ++ [900, 900, 900] ++ List.replicate 86 0 ++ [200, 200, 200] ++
    List.replicate 134 0

/-- The run distance accumulated from `start` over a sequence of calls
`update_run_distance(speed, dt)`, from left to right; the quotient, the product and the
sum of each call are rounded. -/
def accumulated (start : ℚ) (calls : List (ℚ × Int)) : ℚ :=
  calls.foldl
    (fun acc c =>
      binary64.add acc (binary64.mul c.1 (binary64.div (binary64.of_int c.2) 1000.0)))
    start

/-- One iteration of the loop of `Scanner::expand`, at the reference `it` followed by
`rest`: the scanner, the cluster and the part of the list `neighbors` left to iterate. -/
def Scanner.expand_next (s : Scanner) (cluster : cluster_info) (it : Nat) (rest : List Nat) :
    Option (Scanner × cluster_info × List Nat) :=
  let s := { s with _iterations_count := s._iterations_count + 1 }
  match s._world[it]? with
  | none => none
  | some pt_n =>
    if pt_n.cluster ≠ ClusterTag.unbound then
      some (s, cluster, rest)
    else
      let pt_n := { pt_n with cluster := ClusterTag.id cluster.id }
      let s := { s with _world := s._world.set it pt_n }
      let cluster := { cluster with points := cluster.points ++ [pt_n] }
      let new_neighbors := s.neighbors_of pt_n
      match s._world[(it :: rest).getLast (List.cons_ne_nil it rest)]? with
      | none => none
      | some last =>
        let new_neighbors := new_neighbors.dropWhile fun current =>
          match s._world[current]? with
          | none => true
          | some c => !(point.lt last c)
        some (s, cluster, rest ++ new_neighbors)

/-- The number of references of a list that point to a bound point of the world. -/
def bound_refs (world : List point) (refs : List Nat) : Nat :=
  (refs.filter fun i =>
    match world[i]? with
    | none => false
    | some p => p.bound).length

/-- The coordinates of a point, without its tag. -/
def point.coords (p : point) : ℚ × ℚ := (p.x, p.y)

/-- The points of a sequence are chained for the radius epsilon: every point but the first
is at a computed distance less than epsilon from a point before it. -/
def chained (epsilon : ℚ) (points : List point) : Prop :=
  ∀ (i : Nat) (q : point), 1 ≤ i → points[i]? = some q →
    ∃ (j : Nat) (p : point), j < i ∧ points[j]? = some p ∧
      euclidean_distance p q < epsilon

/-- The invariant of the loop of `Scanner::expand` on a sorted world: the references left
to iterate are in strictly increasing world position, and the iteration count, the number
of unbound points and the number of references to bound points add up to K. -/
structure worklist_inv (K : Nat) (s : Scanner) (wl : List Nat) : Prop where
  sorted : s._world.Pairwise (fun a b => point.lt b a = false)
  increasing : wl.Pairwise (fun a b => a < b)
  valid : ∀ i ∈ wl, i < s._world.length
  count : s._iterations_count + unbound_count s._world + bound_refs s._world wl = K

/-- The square of the Euclidean distance between two points, in exact arithmetic. -/
def exact_distance_sq (p q : point) : ℚ :=
  (q.x - p.x) ^ 2 + (q.y - p.y) ^ 2

/-! ## Auxiliary lemmas -/

theorem binary64.two_pow_pos (e : Int) : 0 < binary64.two_pow e := by
  unfold binary64.two_pow
  split
  · positivity
  · positivity

theorem binary64.round_zero : binary64.round 0 = 0 := by
  simp [binary64.round, binary64.nearest_even]

theorem binary64.sqrt_nonneg (x : ℚ) : 0 ≤ binary64.sqrt x := by
  unfold binary64.sqrt
  split
  · exact le_refl 0
  · exact mul_nonneg (Nat.cast_nonneg _) (binary64.two_pow_pos _).le

theorem binary64.sqrt_zero : binary64.sqrt 0 = 0 := by
  simp [binary64.sqrt]

theorem binary64.sub_self (x : ℚ) : binary64.sub x x = 0 := by
  simp [binary64.sub, binary64.round_zero]

theorem binary64.two_pow_eq (e : Int) : binary64.two_pow e = (2 : ℚ) ^ e := by
  unfold binary64.two_pow
  split
  · rename_i h
    push_cast
    rw [← zpow_natCast, Int.toNat_of_nonneg h]
  · rename_i h
    have h2 : 0 ≤ -e := by omega
    push_cast
    rw [← zpow_natCast, Int.toNat_of_nonneg h2, zpow_neg, one_div, inv_inv]

theorem binary64.width_loop_spec (n : Nat) : ∀ (fuel k : Nat), n < 2 ^ 2 ^ (k + fuel) →
    n < 2 ^ 2 ^ binary64.width_loop n fuel k := by
  intro fuel
  induction fuel with
  | zero =>
    intro k h
    simpa [binary64.width_loop] using h
  | succ fuel ih =>
    intro k h
    simp only [binary64.width_loop]
    split
    · assumption
    · apply ih
      rw [show k + 1 + fuel = k + (fuel + 1) by omega]
      exact h

theorem binary64.log2_loop_spec (n : Nat) : ∀ (k e : Nat), 2 ^ e ≤ n → n < 2 ^ (e + 2 ^ k) →
    2 ^ binary64.log2_loop n k e ≤ n ∧ n < 2 ^ (binary64.log2_loop n k e + 1) := by
  intro k
  induction k with
  | zero =>
    intro e h1 h2
    simpa [binary64.log2_loop] using And.intro h1 h2
  | succ k ih =>
    intro e h1 h2
    simp only [binary64.log2_loop]
    split
    · rename_i h
      apply ih _ h
      rw [show e + 2 ^ k + 2 ^ k = e + 2 ^ (k + 1) by rw [pow_succ]; omega]
      exact h2
    · rename_i h
      exact ih _ h1 (not_le.mp h)

theorem binary64.log2_spec (n : Nat) (h : 0 < n) :
    2 ^ binary64.log2 n ≤ n ∧ n < 2 ^ (binary64.log2 n + 1) := by
  unfold binary64.log2
  apply binary64.log2_loop_spec
  · simpa using h
  · rw [Nat.zero_add]
    apply binary64.width_loop_spec
    rw [Nat.zero_add]
    calc n < 2 ^ n := Nat.lt_two_pow n
      _ ≤ 2 ^ 2 ^ n := Nat.pow_le_pow_right (by norm_num) (Nat.lt_two_pow n).le

theorem binary64.abs_eq_div (x : ℚ) : |x| = (x.num.natAbs : ℚ) / (x.den : ℚ) := by
  rw [Rat.abs_def, Rat.divInt_eq_div]
  simp only [Int.cast_natCast]

theorem binary64.exponent_spec (x : ℚ) (hx : x ≠ 0) :
    (2 : ℚ) ^ binary64.exponent x ≤ |x| ∧ |x| < (2 : ℚ) ^ (binary64.exponent x + 1) := by
  have hA : 0 < x.num.natAbs := Int.natAbs_pos.mpr (Rat.num_ne_zero.mpr hx)
  have hD : 0 < x.den := x.den_pos
  obtain ⟨a1, a2⟩ := binary64.log2_spec _ hA
  obtain ⟨b1, b2⟩ := binary64.log2_spec _ hD
  have a1q : (2 : ℚ) ^ binary64.log2 x.num.natAbs ≤ (x.num.natAbs : ℚ) := by exact_mod_cast a1
  have a2q : (x.num.natAbs : ℚ) < (2 : ℚ) ^ (binary64.log2 x.num.natAbs + 1) := by
    exact_mod_cast a2
  have b1q : (2 : ℚ) ^ binary64.log2 x.den ≤ (x.den : ℚ) := by exact_mod_cast b1
  have b2q : (x.den : ℚ) < (2 : ℚ) ^ (binary64.log2 x.den + 1) := by exact_mod_cast b2
  have hDq : (0 : ℚ) < (x.den : ℚ) := by exact_mod_cast hD
  have hAq : (0 : ℚ) < (x.num.natAbs : ℚ) := by exact_mod_cast hA
  have hp : ∀ n : Nat, (0 : ℚ) < 2 ^ n := fun n => by positivity
  have lower : (2 : ℚ) ^ ((binary64.log2 x.num.natAbs : Int) - (binary64.log2 x.den : Int) - 1) <
      |x| := by
    rw [binary64.abs_eq_div, show ((binary64.log2 x.num.natAbs : Int) - (binary64.log2 x.den : Int) - 1)
      = (binary64.log2 x.num.natAbs : Int) - ((binary64.log2 x.den + 1 : Nat) : Int) by push_cast; ring,
      zpow_sub₀ (two_ne_zero), zpow_natCast, zpow_natCast, div_lt_div_iff₀ (hp _) hDq]
    calc (2 : ℚ) ^ binary64.log2 x.num.natAbs * (x.den : ℚ)
        < (2 : ℚ) ^ binary64.log2 x.num.natAbs * 2 ^ (binary64.log2 x.den + 1) :=
          mul_lt_mul_of_pos_left b2q (hp _)
      _ ≤ (x.num.natAbs : ℚ) * 2 ^ (binary64.log2 x.den + 1) :=
          mul_le_mul_of_nonneg_right a1q (hp _).le
  have upper : |x| <
      (2 : ℚ) ^ ((binary64.log2 x.num.natAbs : Int) - (binary64.log2 x.den : Int) + 1) := by
    rw [binary64.abs_eq_div, show ((binary64.log2 x.num.natAbs : Int) - (binary64.log2 x.den : Int) + 1)
      = ((binary64.log2 x.num.natAbs + 1 : Nat) : Int) - (binary64.log2 x.den : Int) by push_cast; ring,
      zpow_sub₀ (two_ne_zero), zpow_natCast, zpow_natCast, div_lt_div_iff₀ hDq (hp _)]
    calc (x.num.natAbs : ℚ) * 2 ^ binary64.log2 x.den
        ≤ (x.num.natAbs : ℚ) * (x.den : ℚ) := mul_le_mul_of_nonneg_left b1q hAq.le
      _ < (2 : ℚ) ^ (binary64.log2 x.num.natAbs + 1) * (x.den : ℚ) :=
          mul_lt_mul_of_pos_right a2q hDq
  unfold binary64.exponent
  simp only [binary64.two_pow_eq]
  split
  · rename_i h
    refine ⟨lower.le, ?_⟩
    rw [sub_add_cancel]
    exact h
  · rename_i h
    exact ⟨not_lt.mp h, upper⟩

theorem binary64.nearest_even_spec (y : ℚ) : |(binary64.nearest_even y : ℚ) - y| ≤ 1 / 2 := by
  have h1 := Int.floor_le y
  have h2 := Int.lt_floor_add_one y
  unfold binary64.nearest_even
  simp only
  rw [abs_le]
  split
  · constructor <;> linarith
  · split
    · push_cast
      constructor <;> linarith
    · rename_i h3 h4
      split
      · constructor <;> linarith
      · push_cast
        constructor <;> linarith

theorem binary64.round_nearest (x : ℚ) (k : Int) :
    |x - binary64.round x| ≤ |x - (k : ℚ) * binary64.two_pow (binary64.quantum x)| := by
  have hu := binary64.two_pow_pos (binary64.quantum x)
  have hm := binary64.nearest_even_spec (x / binary64.two_pow (binary64.quantum x))
  generalize hy : x / binary64.two_pow (binary64.quantum x) = y at hm
  have hx : x = y * binary64.two_pow (binary64.quantum x) := by
    rw [← hy, div_mul_cancel₀ _ hu.ne']
  unfold binary64.round
  rw [hy]
  generalize binary64.two_pow (binary64.quantum x) = u at hu hx
  generalize binary64.nearest_even y = m at hm
  subst hx
  rw [← sub_mul, ← sub_mul, abs_mul, abs_mul]
  apply mul_le_mul_of_nonneg_right _ (abs_nonneg u)
  rw [abs_sub_comm] at hm
  by_cases hkm : k = m
  · rw [hkm]
  · have h1 : (1 : ℚ) ≤ |(k : ℚ) - (m : ℚ)| := by
      have : (1 : Int) ≤ |k - m| := Int.one_le_abs (sub_ne_zero.mpr hkm)
      exact_mod_cast this
    have h2 : |(k : ℚ) - (m : ℚ)| ≤ |y - (m : ℚ)| + |y - (k : ℚ)| := by
      have := abs_sub_le (k : ℚ) y (m : ℚ)
      rw [abs_sub_comm (k : ℚ) y] at this
      linarith
    linarith

theorem binary64.round_grid (x : ℚ) :
    ∃ m : Int, binary64.round x = (m : ℚ) * binary64.two_pow (binary64.quantum x) ∧
      |m| ≤ 2 ^ 53 ∧ -1074 ≤ binary64.quantum x ∧
      (x ≠ 0 → -1074 < binary64.quantum x → 2 ^ 52 ≤ |m|) := by
  have hu := binary64.two_pow_pos (binary64.quantum x)
  have hm := binary64.nearest_even_spec (x / binary64.two_pow (binary64.quantum x))
  refine ⟨binary64.nearest_even (x / binary64.two_pow (binary64.quantum x)), rfl, ?_,
    le_max_right _ _, ?_⟩
  · have hy : |x / binary64.two_pow (binary64.quantum x)| < 2 ^ 53 := by
      by_cases hx : x = 0
      · simp [hx]
      · have he := (binary64.exponent_spec x hx).2
        rw [abs_div, abs_of_pos hu, div_lt_iff₀ hu, binary64.two_pow_eq]
        have hq : binary64.exponent x - 52 ≤ binary64.quantum x := le_max_left _ _
        calc |x| < (2 : ℚ) ^ (binary64.exponent x + 1) := he
          _ = 2 ^ 53 * (2 : ℚ) ^ (binary64.exponent x - 52) := by
            rw [show binary64.exponent x + 1 = (53 : Int) + (binary64.exponent x - 52) by ring,
              zpow_add₀ two_ne_zero]
            norm_num
          _ ≤ 2 ^ 53 * (2 : ℚ) ^ binary64.quantum x :=
            mul_le_mul_of_nonneg_left (zpow_le_zpow_right₀ (by norm_num) hq) (by positivity)
    generalize x / binary64.two_pow (binary64.quantum x) = y at hm hy
    generalize binary64.nearest_even y = m at hm
    rw [abs_le] at hm ⊢
    rw [abs_lt] at hy
    constructor
    · have : (-(2 : ℚ) ^ 53 - 1 : ℚ) < (m : ℚ) := by linarith [hm.1, hy.1]
      have : (-(2 : Int) ^ 53 - 1 : Int) < m := by exact_mod_cast this
      omega
    · have : (m : ℚ) < (2 : ℚ) ^ 53 + 1 := by linarith [hm.2, hy.2]
      have : m < (2 : Int) ^ 53 + 1 := by exact_mod_cast this
      omega
  · intro hx hq
    have hqe : binary64.quantum x = binary64.exponent x - 52 := by
      unfold binary64.quantum at hq ⊢
      rcases max_cases (binary64.exponent x - 52) (-1074) with ⟨h1, _⟩ | ⟨h1, _⟩
      · exact h1
      · rw [h1] at hq
        exact absurd hq (lt_irrefl _)
    have he := (binary64.exponent_spec x hx).1
    have hy : (2 : ℚ) ^ 52 ≤ |x / binary64.two_pow (binary64.quantum x)| := by
      rw [abs_div, abs_of_pos hu, le_div_iff₀ hu, binary64.two_pow_eq, hqe]
      calc (2 : ℚ) ^ 52 * (2 : ℚ) ^ (binary64.exponent x - 52)
          = (2 : ℚ) ^ binary64.exponent x := by
            rw [show binary64.exponent x = (52 : Int) + (binary64.exponent x - 52) by ring,
              zpow_add₀ two_ne_zero]
            norm_num
        _ ≤ |x| := he
    generalize x / binary64.two_pow (binary64.quantum x) = y at hm hy
    generalize binary64.nearest_even y = m at hm
    rw [abs_le] at hm
    rw [le_abs] at hy ⊢
    rcases hy with hy | hy
    · left
      have : ((2 : ℚ) ^ 52 - 1 : ℚ) < (m : ℚ) := by linarith [hm.1]
      have : ((2 : Int) ^ 52 - 1 : Int) < m := by exact_mod_cast this
      omega
    · right
      have : (m : ℚ) < -(2 : ℚ) ^ 52 + 1 := by linarith [hm.2]
      have : m < -(2 : Int) ^ 52 + 1 := by exact_mod_cast this
      omega

theorem binary64.isqrt_loop_spec (n : Nat) : ∀ (k r : Nat), r * r ≤ n →
    n < (r + 2 ^ k) * (r + 2 ^ k) →
    binary64.isqrt_loop n k r * binary64.isqrt_loop n k r ≤ n ∧
      n < (binary64.isqrt_loop n k r + 1) * (binary64.isqrt_loop n k r + 1) := by
  intro k
  induction k with
  | zero =>
    intro r h1 h2
    simpa [binary64.isqrt_loop] using And.intro h1 h2
  | succ k ih =>
    intro r h1 h2
    simp only [binary64.isqrt_loop]
    split
    · rename_i h
      apply ih _ h
      rw [show r + 2 ^ k + 2 ^ k = r + 2 ^ (k + 1) by rw [pow_succ]; omega]
      exact h2
    · rename_i h
      exact ih _ h1 (not_le.mp h)

theorem binary64.isqrt_spec (n : Nat) :
    binary64.isqrt n * binary64.isqrt n ≤ n ∧
      n < (binary64.isqrt n + 1) * (binary64.isqrt n + 1) := by
  unfold binary64.isqrt
  apply binary64.isqrt_loop_spec
  · exact Nat.zero_le _
  · rw [Nat.zero_add, ← pow_add]
    rcases Nat.eq_zero_or_pos n with h0 | hpos
    · rw [h0]
      positivity
    · calc n < 2 ^ (binary64.log2 n + 1) := (binary64.log2_spec n hpos).2
        _ ≤ 2 ^ (binary64.log2 n / 2 + 1 + (binary64.log2 n / 2 + 1)) :=
          Nat.pow_le_pow_right (by norm_num) (by omega)

theorem binary64.sqrt_grid (x : ℚ) (hx : 0 < x) :
    ∃ m : Nat, binary64.sqrt x = (m : ℚ) * binary64.two_pow (binary64.exponent x / 2 - 52) ∧
      2 ^ 52 ≤ m ∧ m ≤ 2 ^ 53 ∧
      (2 * (m : ℚ) - 1) ^ 2 * binary64.two_pow (2 * (binary64.exponent x / 2 - 52)) ≤ 4 * x ∧
      4 * x ≤ (2 * (m : ℚ) + 1) ^ 2 * binary64.two_pow (2 * (binary64.exponent x / 2 - 52)) := by
  obtain ⟨he1, he2⟩ := binary64.exponent_spec x hx.ne'
  rw [abs_of_pos hx] at he1 he2
  have hq1 : (104 : Int) + 2 * (binary64.exponent x / 2 - 52) ≤ binary64.exponent x := by omega
  have hq2 : binary64.exponent x + 1 ≤ (106 : Int) + 2 * (binary64.exponent x / 2 - 52) := by
    omega
  unfold binary64.sqrt
  rw [if_neg (not_le.mpr hx)]
  simp only []
  generalize binary64.exponent x / 2 - 52 = q at hq1 hq2 ⊢
  have hu := binary64.two_pow_pos (2 * q)
  have hylo : (2 : ℚ) ^ 104 ≤ x / binary64.two_pow (2 * q) := by
    rw [le_div_iff₀ hu, binary64.two_pow_eq]
    calc (2 : ℚ) ^ 104 * (2 : ℚ) ^ (2 * q)
        = (2 : ℚ) ^ ((104 : Int) + 2 * q) := by
          rw [zpow_add₀ two_ne_zero]
          norm_num
      _ ≤ (2 : ℚ) ^ binary64.exponent x := zpow_le_zpow_right₀ (by norm_num) hq1
      _ ≤ x := he1
  have hyhi : x / binary64.two_pow (2 * q) < (2 : ℚ) ^ 106 := by
    rw [div_lt_iff₀ hu, binary64.two_pow_eq]
    calc x < (2 : ℚ) ^ (binary64.exponent x + 1) := he2
      _ ≤ (2 : ℚ) ^ ((106 : Int) + 2 * q) := zpow_le_zpow_right₀ (by norm_num) hq2
      _ = (2 : ℚ) ^ 106 * (2 : ℚ) ^ (2 * q) := by
          rw [zpow_add₀ two_ne_zero]
          norm_num
  have hxy : x = x / binary64.two_pow (2 * q) * binary64.two_pow (2 * q) := by
    rw [div_mul_cancel₀ _ hu.ne']
  generalize x / binary64.two_pow (2 * q) = y at hylo hyhi hxy ⊢
  generalize binary64.two_pow (2 * q) = u at hu hxy ⊢
  clear he1 he2 hq1 hq2
  subst hxy
  have hy0 : 0 ≤ y := le_trans (by positivity) hylo
  obtain ⟨hn1, hn2⟩ := binary64.isqrt_spec ⌊y⌋₊
  generalize binary64.isqrt ⌊y⌋₊ = n at hn1 hn2 ⊢
  have hn1q : (n : ℚ) * n ≤ y := by
    have h1 : ((n * n : Nat) : ℚ) ≤ (⌊y⌋₊ : ℚ) := by exact_mod_cast hn1
    have h2 := Nat.floor_le hy0
    push_cast at h1
    linarith
  have hn2q : y < ((n : ℚ) + 1) * ((n : ℚ) + 1) := by
    have := Nat.lt_of_floor_lt hn2
    push_cast at this
    exact this
  have hnlo : (2 : ℚ) ^ 52 ≤ (n : ℚ) := by
    by_contra hlt
    have h1 : (n : ℚ) + 1 ≤ (2 : ℚ) ^ 52 := by
      have h0 : n < 2 ^ 52 := by exact_mod_cast not_le.mp hlt
      have h1 : n + 1 ≤ 2 ^ 52 := h0
      exact_mod_cast h1
    have h2 : ((n : ℚ) + 1) * ((n : ℚ) + 1) ≤ (2 : ℚ) ^ 52 * (2 : ℚ) ^ 52 :=
      mul_le_mul h1 h1 (add_nonneg (Nat.cast_nonneg n) zero_le_one) (pow_nonneg zero_le_two 52)
    have h3 : (2 : ℚ) ^ 52 * (2 : ℚ) ^ 52 = (2 : ℚ) ^ 104 := by norm_num
    linarith
  have hnhi : (n : ℚ) < (2 : ℚ) ^ 53 := by
    by_contra hge
    have h1 : (2 : ℚ) ^ 53 ≤ (n : ℚ) := not_lt.mp hge
    have h2 : (2 : ℚ) ^ 53 * (2 : ℚ) ^ 53 ≤ (n : ℚ) * (n : ℚ) :=
      mul_le_mul h1 h1 (pow_nonneg zero_le_two 53) (Nat.cast_nonneg n)
    have h3 : (2 : ℚ) ^ 53 * (2 : ℚ) ^ 53 = (2 : ℚ) ^ 106 := by norm_num
    linarith
  have hnloN : 2 ^ 52 ≤ n := by exact_mod_cast hnlo
  have hnhiN : n < 2 ^ 53 := by exact_mod_cast hnhi
  have hn1' : (1 : ℚ) ≤ (n : ℚ) := le_trans (by norm_num) hnlo
  have key : ∀ m : Nat, (m = n ∧ 4 * y ≤ (((2 * n + 1) * (2 * n + 1) : Nat) : ℚ)) ∨
      (m = n + 1 ∧ (((2 * n + 1) * (2 * n + 1) : Nat) : ℚ) ≤ 4 * y) →
      2 ^ 52 ≤ m ∧ m ≤ 2 ^ 53 ∧
      (2 * (m : ℚ) - 1) ^ 2 * u ≤ 4 * (y * u) ∧ 4 * (y * u) ≤ (2 * (m : ℚ) + 1) ^ 2 * u := by
    intro m hm
    rw [← mul_assoc]
    rcases hm with ⟨rfl, h⟩ | ⟨rfl, h⟩
    · push_cast at h
      refine ⟨hnloN, hnhiN.le, mul_le_mul_of_nonneg_right ?_ hu.le,
        mul_le_mul_of_nonneg_right ?_ hu.le⟩
      · nlinarith
      · nlinarith
    · push_cast at h
      refine ⟨Nat.le_succ_of_le hnloN, hnhiN, mul_le_mul_of_nonneg_right ?_ hu.le,
        mul_le_mul_of_nonneg_right ?_ hu.le⟩
      · push_cast
        nlinarith
      · push_cast
        nlinarith
  split
  · rename_i h
    exact ⟨n, rfl, key n (Or.inl ⟨rfl, h.le⟩)⟩
  · split
    · rename_i h
      exact ⟨n + 1, rfl, key (n + 1) (Or.inr ⟨rfl, h.le⟩)⟩
    · rename_i h1 h2
      have heq : 4 * y = (((2 * n + 1) * (2 * n + 1) : Nat) : ℚ) :=
        le_antisymm (not_lt.mp h2) (not_lt.mp h1)
      split
      · exact ⟨n, rfl, key n (Or.inl ⟨rfl, heq.le⟩)⟩
      · exact ⟨n + 1, rfl, key (n + 1) (Or.inr ⟨rfl, heq.ge⟩)⟩

theorem binary64.two_pow_double (q : Int) :
    binary64.two_pow (2 * q) = binary64.two_pow q ^ 2 := by
  rw [binary64.two_pow_eq, binary64.two_pow_eq, mul_comm, zpow_mul, zpow_ofNat]

theorem binary64.sqrt_nearest (x : ℚ) (hx : 0 < x) :
    |Real.sqrt (x : ℝ) - ((binary64.sqrt x : ℚ) : ℝ)| ≤
      ((binary64.two_pow (binary64.exponent x / 2 - 52) : ℚ) : ℝ) / 2 := by
  obtain ⟨m, hm, hlo, _, h1, h2⟩ := binary64.sqrt_grid x hx
  rw [binary64.two_pow_double] at h1 h2
  have hu := binary64.two_pow_pos (binary64.exponent x / 2 - 52)
  rw [hm]
  generalize binary64.two_pow (binary64.exponent x / 2 - 52) = u at hu h1 h2
  have hs0 := Real.sqrt_nonneg (x : ℝ)
  have hs : Real.sqrt (x : ℝ) * Real.sqrt (x : ℝ) = (x : ℝ) :=
    Real.mul_self_sqrt (by exact_mod_cast hx.le)
  generalize Real.sqrt (x : ℝ) = s at hs0 hs
  have hur : (0 : ℝ) < (u : ℝ) := by exact_mod_cast hu
  have hmr : (1 : ℝ) ≤ (m : ℝ) := by
    have : 1 ≤ m := le_trans (by norm_num) hlo
    exact_mod_cast this
  have h1r : (2 * (m : ℝ) - 1) ^ 2 * (u : ℝ) ^ 2 ≤ 4 * (x : ℝ) := by exact_mod_cast h1
  have h2r : 4 * (x : ℝ) ≤ (2 * (m : ℝ) + 1) ^ 2 * (u : ℝ) ^ 2 := by exact_mod_cast h2
  rw [← hs] at h1r h2r
  have lower : (2 * (m : ℝ) - 1) * (u : ℝ) ≤ 2 * s := by
    by_contra h
    push_neg at h
    have hpos : (0 : ℝ) ≤ (2 * (m : ℝ) - 1) * (u : ℝ) := by
      apply mul_nonneg _ hur.le
      linarith
    nlinarith
  have upper : 2 * s ≤ (2 * (m : ℝ) + 1) * (u : ℝ) := by
    by_contra h
    push_neg at h
    have hpos : (0 : ℝ) ≤ (2 * (m : ℝ) + 1) * (u : ℝ) := by
      apply mul_nonneg _ hur.le
      linarith
    nlinarith
  push_cast
  rw [abs_le]
  constructor <;> linarith

theorem binary64.round_tenth :
    binary64.round 0.1 = 3602879701896397 / 36028797018963968 := by
  decide!

theorem binary64.sqrt_two : binary64.sqrt 2 = 6369051672525773 / 4503599627370496 := by
  decide!

theorem euclidean_distance_nonneg (p q : point) : 0 ≤ euclidean_distance p q :=
  binary64.sqrt_nonneg _

theorem euclidean_distance_self (p : point) : euclidean_distance p p = 0 := by
  simp [euclidean_distance, binary64.sub_self, binary64.mul, binary64.add, binary64.round_zero,
    binary64.sqrt_zero]

theorem tags_written_refl (lo hi : Nat) (w : List point) : tags_written lo hi w w :=
  ⟨rfl, fun _ _ h => Or.inl h⟩

theorem tags_written_trans {lo hi : Nat} {w1 w2 w3 : List point}
    (h12 : tags_written lo hi w1 w2) (h23 : tags_written lo hi w2 w3) :
    tags_written lo hi w1 w3 := by
  refine ⟨h23.1.trans h12.1, fun i p hp => ?_⟩
  rcases h12.2 i p hp with h | ⟨hu, k, hk1, hk2, h⟩
  · exact h23.2 i p h
  · rcases h23.2 i _ h with h2 | ⟨hu2, _⟩
    · exact Or.inr ⟨hu, k, hk1, hk2, h2⟩
    · simp at hu2

theorem tags_written_mono {lo hi lo2 hi2 : Nat} {w1 w2 : List point}
    (h : tags_written lo hi w1 w2) (hlo : lo2 ≤ lo) (hhi : hi ≤ hi2) :
    tags_written lo2 hi2 w1 w2 := by
  refine ⟨h.1, fun i p hp => ?_⟩
  rcases h.2 i p hp with h | ⟨hu, k, hk1, hk2, h⟩
  · exact Or.inl h
  · exact Or.inr ⟨hu, k, by omega, by omega, h⟩

theorem tags_written_set {w : List point} {i : Nat} {p : point} (k : Nat)
    (hp : w[i]? = some p) (hu : p.cluster = ClusterTag.unbound) :
    tags_written k (k + 1) w (w.set i { p with cluster := ClusterTag.id k }) := by
  refine ⟨by simp, fun j q hq => ?_⟩
  by_cases hij : i = j
  · subst hij
    have hpq : p = q := by rw [hp] at hq; exact Option.some.inj hq
    subst hpq
    refine Or.inr ⟨hu, k, le_refl k, Nat.lt_succ_self k, ?_⟩
    have hlt : i < w.length := by
      rcases List.getElem?_eq_some_iff.mp hp with ⟨h, _⟩
      exact h
    simp [List.getElem?_set, hlt]
  · left
    simp [List.getElem?_set, hij, hq]

theorem filter_bound_set {w : List point} {i : Nat} {p q : point}
    (hp : w[i]? = some p) (hu : p.cluster = ClusterTag.unbound) (hq : q.bound = true) :
    ((w.set i q).filter point.bound).Perm (w.filter point.bound ++ [q]) := by
  induction w generalizing i with
  | nil => simp at hp
  | cons a w ih =>
    cases i with
    | zero =>
      simp only [List.getElem?_cons_zero, Option.some.injEq] at hp
      subst hp
      have ha : point.bound a = false := by simp [point.bound, hu]
      simp only [List.set_cons_zero, List.filter_cons, hq, ha, if_true]
      simpa using (List.perm_append_singleton q (List.filter point.bound w)).symm
    | succ i =>
      simp only [List.getElem?_cons_succ] at hp
      have := ih hp
      simp only [List.set_cons_succ, List.filter_cons]
      split
      · simpa using this
      · exact this

theorem unbound_count_set {w : List point} {i : Nat} {p q : point}
    (hp : w[i]? = some p) (hu : p.cluster = ClusterTag.unbound) (hq : q.cluster ≠ ClusterTag.unbound) :
    unbound_count (w.set i q) + 1 = unbound_count w := by
  induction w generalizing i with
  | nil => simp at hp
  | cons a w ih =>
    cases i with
    | zero =>
      simp only [List.getElem?_cons_zero, Option.some.injEq] at hp
      subst hp
      simp [unbound_count, List.filter_cons, hu, hq]
    | succ i =>
      simp only [List.getElem?_cons_succ] at hp
      have := ih hp
      simp only [unbound_count, List.set_cons_succ, List.filter_cons] at this ⊢
      split
      · simp only [List.length_cons]; omega
      · exact this

theorem neighbors_of_lt (s : Scanner) (origin : point) {i : Nat}
    (h : i ∈ s.neighbors_of origin) : i < s._world.length := by
  have := (List.mem_filter.mp h).1
  simpa using this

theorem neighbors_of_length_le (s : Scanner) (origin : point) :
    (s.neighbors_of origin).length ≤ s._world.length := by
  have := List.length_filter_le (fun i =>
    match s._world[i]? with
    | none => false
    | some candidate =>
      if candidate.cluster ≠ ClusterTag.unbound then false
      else decide (euclidean_distance origin candidate < s._epsilon)) (List.range s._world.length)
  simpa [Scanner.neighbors_of] using this

theorem expand_loop_rel (budget : Nat) : ∀ (s : Scanner) (cluster : cluster_info) (wl : List Nat)
    (s2 : Scanner) (c2 : cluster_info),
    Scanner.expand_loop budget s cluster wl = some (s2, c2) →
    ∃ added, c2 = ⟨cluster.points ++ added, cluster.id⟩ ∧ expand_rel cluster.id s s2 added := by
  induction budget with
  | zero =>
    intro s cluster wl s2 c2 h
    cases wl with
    | nil =>
      simp only [Scanner.expand_loop, Option.some.injEq, Prod.mk.injEq] at h
      obtain ⟨rfl, rfl⟩ := h
      exact ⟨[], by simp, ⟨rfl, rfl, rfl, tags_written_refl _ _ _, by simp, by simp, le_refl _⟩⟩
    | cons it rest => simp [Scanner.expand_loop] at h
  | succ budget ih =>
    intro s cluster wl s2 c2 h
    cases wl with
    | nil =>
      simp only [Scanner.expand_loop, Option.some.injEq, Prod.mk.injEq] at h
      obtain ⟨rfl, rfl⟩ := h
      exact ⟨[], by simp, ⟨rfl, rfl, rfl, tags_written_refl _ _ _, by simp, by simp, le_refl _⟩⟩
    | cons it rest =>
      simp only [Scanner.expand_loop] at h
      cases hpt : s._world[it]? with
      | none => simp [hpt] at h
      | some pt_n =>
        simp only [hpt] at h
        by_cases hb : pt_n.cluster = ClusterTag.unbound
        · simp only [hb, ne_eq, not_true_eq_false, if_false] at h
          split at h
          · simp at h
          · obtain ⟨added, hc, hr⟩ := ih _ _ _ _ _ h
            refine ⟨{ pt_n with cluster := ClusterTag.id cluster.id } :: added, ?_, ?_⟩
            · simpa using hc
            · have hw := tags_written_set cluster.id hpt hb
              have hperm := filter_bound_set (q := { pt_n with cluster := ClusterTag.id cluster.id })
                hpt hb (by simp [point.bound])
              refine ⟨hr.epsilon, hr.sub_lines, hr.world_buffer, ?_, ?_, ?_, ?_⟩
              · exact tags_written_trans hw hr.world
              · intro p hp
                rcases List.mem_cons.mp hp with rfl | hp
                · rfl
                · exact hr.added_tagged p hp
              · refine hr.bound_perm.trans ?_
                simp only at hperm ⊢
                have := hperm.append_right added
                simpa using this
              · have := hr.iterations
                simp only at this
                omega
        · simp only [ne_eq, hb, not_false_eq_true, if_true] at h
          obtain ⟨added, hc, hr⟩ := ih _ _ _ _ _ h
          refine ⟨added, hc, ⟨hr.epsilon, hr.sub_lines, hr.world_buffer, hr.world, hr.added_tagged,
            hr.bound_perm, ?_⟩⟩
          have := hr.iterations
          simp only at this
          omega

theorem expand_budget_step {L U U2 r n d b : Nat} (hc : U2 + 1 = U) (hn : n ≤ L) (hd : d ≤ n)
    (hb : r + 1 + U * (L + 1) ≤ b + 1) : r + d + U2 * (L + 1) ≤ b := by
  subst hc
  have : (U2 + 1) * (L + 1) = U2 * (L + 1) + L + 1 := by ring
  omega

theorem expand_loop_isSome (budget : Nat) : ∀ (s : Scanner) (cluster : cluster_info)
    (wl : List Nat), (∀ i ∈ wl, i < s._world.length) →
    wl.length + unbound_count s._world * (s._world.length + 1) ≤ budget →
    (Scanner.expand_loop budget s cluster wl).isSome = true := by
  induction budget with
  | zero =>
    intro s cluster wl _ hb
    cases wl with
    | nil => simp [Scanner.expand_loop]
    | cons it rest => simp at hb
  | succ budget ih =>
    intro s cluster wl hwl hb
    cases wl with
    | nil => simp [Scanner.expand_loop]
    | cons it rest =>
      have hit : it < s._world.length := hwl it (List.mem_cons_self _ _)
      have hrest : ∀ i ∈ rest, i < s._world.length := fun i hi => hwl i (List.mem_cons_of_mem _ hi)
      have hlast : (it :: rest).getLast (List.cons_ne_nil it rest) < s._world.length :=
        hwl _ (List.getLast_mem _)
      simp only [Scanner.expand_loop]
      cases hpt : s._world[it]? with
      | none =>
        have := List.getElem?_eq_none_iff.mp hpt
        omega
      | some pt_n =>
        simp only []
        by_cases hu : pt_n.cluster = ClusterTag.unbound
        · simp only [hu, ne_eq, not_true_eq_false, if_false]
          generalize hq : ({ x := pt_n.x, y := pt_n.y, cluster := ClusterTag.id cluster.id } : point) = q
          have hqb : q.cluster ≠ ClusterTag.unbound := by rw [← hq]; simp
          have hL : (s._world.set it q).length = s._world.length := List.length_set _ _ _
          split
          · rename_i hnone
            have := List.getElem?_eq_none_iff.mp hnone
            omega
          · apply ih
            · intro i hi
              rcases List.mem_append.mp hi with hi | hi
              · simpa using hrest i hi
              · exact neighbors_of_lt _ _ ((List.dropWhile_sublist _).subset hi)
            · rw [← hL] at hb
              simp only [List.length_append, List.length_cons] at hb ⊢
              exact expand_budget_step (unbound_count_set hpt hu hqb)
                (neighbors_of_length_le _ _) (List.dropWhile_sublist _).length_le hb
        · simp only [ne_eq, hu, not_false_eq_true, if_true]
          apply ih
          · exact hrest
          · simp only [List.length_cons] at hb
            show rest.length + unbound_count s._world * (s._world.length + 1) ≤ budget
            omega

theorem expand_rel_trans {k : Nat} {s1 s2 s3 : Scanner} {a1 a2 : List point}
    (h12 : expand_rel k s1 s2 a1) (h23 : expand_rel k s2 s3 a2) :
    expand_rel k s1 s3 (a1 ++ a2) := by
  refine ⟨h23.epsilon.trans h12.epsilon, h23.sub_lines.trans h12.sub_lines,
    h23.world_buffer.trans h12.world_buffer, tags_written_trans h12.world h23.world, ?_, ?_,
    le_trans h12.iterations h23.iterations⟩
  · intro p hp
    rcases List.mem_append.mp hp with hp | hp
    · exact h12.added_tagged p hp
    · exact h23.added_tagged p hp
  · refine h23.bound_perm.trans ?_
    have := h12.bound_perm.append_right a2
    simpa using this

theorem filter_tagged_bound (k : Nat) (l : List point) :
    (l.filter point.bound).filter (point.tagged k) = l.filter (point.tagged k) := by
  rw [List.filter_filter]
  apply List.filter_congr
  intro p _
  by_cases h : p.cluster = ClusterTag.id k
  · simp [point.tagged, point.bound, h]
  · simp [point.tagged, h]

theorem filter_tagged_of_tagged {k : Nat} {l : List point}
    (h : ∀ p ∈ l, p.cluster = ClusterTag.id k) : l.filter (point.tagged k) = l := by
  apply List.filter_eq_self.mpr
  intro p hp
  simp [point.tagged, h p hp]

theorem filter_tagged_of_ne {k j : Nat} {l : List point} (hkj : j ≠ k)
    (h : ∀ p ∈ l, p.cluster = ClusterTag.id k) : l.filter (point.tagged j) = [] := by
  apply List.filter_eq_nil_iff.mpr
  intro p hp
  simp [point.tagged, h p hp, hkj.symm]

theorem expand_rel_tagged {k j : Nat} {s s2 : Scanner} {added : List point}
    (h : expand_rel k s s2 added) :
    (s2._world.filter (point.tagged j)).Perm
      (s._world.filter (point.tagged j) ++ added.filter (point.tagged j)) := by
  have := h.bound_perm.filter (point.tagged j)
  rw [filter_tagged_bound, List.filter_append, filter_tagged_bound] at this
  exact this

theorem open_cluster_rel {s s2 : Scanner} {i : Nat} {pt : point} {k : Nat} {c : cluster_info}
    (hpt : s._world[i]? = some pt) (hu : pt.cluster = ClusterTag.unbound)
    (h : s.open_cluster i pt k = some (s2, c)) :
    ∃ added, c = ⟨{ pt with cluster := ClusterTag.id k } :: added, k⟩ ∧
      expand_rel k s s2 ({ pt with cluster := ClusterTag.id k } :: added) := by
  simp only [Scanner.open_cluster, Scanner.expand] at h
  obtain ⟨added, hc, hr⟩ := expand_loop_rel _ _ _ _ _ _ h
  refine ⟨added, by simpa using hc, ?_⟩
  have h1 : expand_rel k s { s with _world := s._world.set i { pt with cluster := ClusterTag.id k } }
      [{ pt with cluster := ClusterTag.id k }] :=
    ⟨rfl, rfl, rfl, tags_written_set k hpt hu, by simp,
      filter_bound_set hpt hu (by simp [point.bound]), le_refl _⟩
  exact expand_rel_trans h1 hr

theorem open_cluster_isSome {s : Scanner} {i : Nat} {pt : point} (k : Nat)
    (_hpt : s._world[i]? = some pt) : (s.open_cluster i pt k).isSome = true := by
  simp only [Scanner.open_cluster, Scanner.expand]
  apply expand_loop_isSome
  · intro j hj
    have := neighbors_of_lt _ _ hj
    simpa using this
  · exact le_refl _

theorem scan_body_rel {st st2 : scan_state} {i : Nat} (h : Scanner.scan_body st i = some st2) :
    scan_rel st st2 := by
  simp only [Scanner.scan_body] at h
  cases hpt : st.self._world[i]? with
  | none => simp [hpt] at h
  | some pt =>
    simp only [hpt] at h
    split at h
    · obtain rfl := Option.some.inj h
      exact ⟨rfl, rfl, rfl, le_refl _, tags_written_refl _ _ _, le_refl _⟩
    · rename_i hcond
      have hu : pt.cluster = ClusterTag.unbound := by
        by_contra hne
        exact hcond (Or.inl hne)
      cases hoc : st.self.open_cluster i pt st.current_id with
      | none => simp [hoc] at h
      | some r =>
        obtain ⟨s2, c⟩ := r
        simp only [hoc, Option.some.injEq] at h
        obtain ⟨added, _, hr⟩ := open_cluster_rel hpt hu hoc
        subst h
        exact ⟨hr.epsilon, hr.sub_lines, hr.world_buffer, Nat.le_succ _, hr.world, hr.iterations⟩

theorem scan_body_isSome {st : scan_state} {i : Nat} (hi : i < st.self._world.length) :
    (Scanner.scan_body st i).isSome = true := by
  simp only [Scanner.scan_body]
  cases hpt : st.self._world[i]? with
  | none =>
    have := List.getElem?_eq_none_iff.mp hpt
    omega
  | some pt =>
    simp only []
    split
    · rfl
    · cases hoc : st.self.open_cluster i pt st.current_id with
      | none =>
        have := open_cluster_isSome st.current_id hpt
        simp [hoc] at this
      | some r => rfl

theorem tags_written_mem {lo hi : Nat} {w1 w2 : List point} (h : tags_written lo hi w1 w2)
    {q : point} (hq : q ∈ w2) :
    q ∈ w1 ∨ ∃ p ∈ w1, p.cluster = ClusterTag.unbound ∧
      ∃ k, lo ≤ k ∧ k < hi ∧ q = { p with cluster := ClusterTag.id k } := by
  obtain ⟨i, hi2⟩ := List.mem_iff_getElem?.mp hq
  have hlt : i < w1.length := by
    have := (List.getElem?_eq_some_iff.mp hi2).1
    rw [h.1] at this
    exact this
  have hp : w1[i]? = some (w1.get ⟨i, hlt⟩) := List.getElem?_eq_getElem hlt
  have hmem : w1.get ⟨i, hlt⟩ ∈ w1 := List.get_mem _ _ _
  rcases h.2 i _ hp with h2 | ⟨hu, k, hk1, hk2, h2⟩
  · left
    rw [hi2] at h2
    rw [Option.some.inj h2]
    exact hmem
  · right
    rw [hi2] at h2
    exact ⟨_, hmem, hu, k, hk1, hk2, Option.some.inj h2⟩

theorem scan_body_inv {st st2 : scan_state} {i : Nat} (hinv : scan_inv st)
    (h : Scanner.scan_body st i = some st2) : scan_inv st2 := by
  simp only [Scanner.scan_body] at h
  cases hpt : st.self._world[i]? with
  | none => simp [hpt] at h
  | some pt =>
    simp only [hpt] at h
    split at h
    · obtain rfl := Option.some.inj h
      exact hinv
    · rename_i hcond
      have hu : pt.cluster = ClusterTag.unbound := by
        by_contra hne
        exact hcond (Or.inl hne)
      cases hoc : st.self.open_cluster i pt st.current_id with
      | none => simp [hoc] at h
      | some r =>
        obtain ⟨s2, c⟩ := r
        simp only [hoc, Option.some.injEq] at h
        obtain ⟨added, hc, hr⟩ := open_cluster_rel hpt hu hoc
        generalize hpts : ({ pt with cluster := ClusterTag.id st.current_id } :: added) = pts at hc hr
        subst hc
        have hold : ∀ k, k < st.current_id →
            (s2._world.filter (point.tagged k)).Perm (st.self._world.filter (point.tagged k)) := by
          intro k hk
          have := expand_rel_tagged (j := k) hr
          rw [filter_tagged_of_ne (Nat.ne_of_lt hk) hr.added_tagged, List.append_nil] at this
          exact this
        have hnew : pts.Perm (s2._world.filter (point.tagged st.current_id)) := by
          have := expand_rel_tagged (j := st.current_id) hr
          rw [filter_tagged_of_tagged hr.added_tagged] at this
          have hnil : st.self._world.filter (point.tagged st.current_id) = [] := by
            apply List.filter_eq_nil_iff.mpr
            intro p hp htag
            have := hinv.fresh p hp st.current_id (by simpa [point.tagged] using htag)
            omega
          rw [hnil, List.nil_append] at this
          exact this.symm
        obtain ⟨ids, hsorted, hlt, hforall⟩ := hinv.ids
        have hforall2 : List.Forall₂ (fun sl k => k < st.current_id + 1 ∧
            sl.Perm (s2._world.filter (point.tagged k))) st.sub_lines_buffer ids := by
          refine hforall.imp ?_
          rintro sl k ⟨hk, hperm⟩
          exact ⟨Nat.lt_succ_of_lt hk, hperm.trans (hold k hk).symm⟩
        have hcopies : st.sub_lines_buffer.flatten.Subperm (s2._world.filter point.bound) := by
          refine hinv.copies.trans ?_
          exact (List.sublist_append_left _ _).subperm.trans hr.bound_perm.symm.subperm
        subst h
        refine ⟨?_, ?_, ?_, ?_⟩
        · intro sl hsl
          simp only at hsl
          split at hsl
          · exact hinv.long sl hsl
          · rcases List.mem_append.mp hsl with hsl | hsl
            · exact hinv.long sl hsl
            · rw [List.mem_singleton.mp hsl]
              omega
        · intro q hq k hk
          simp only at hq ⊢
          rcases tags_written_mem hr.world hq with hq | ⟨p, _, _, j, hj1, hj2, rfl⟩
          · exact Nat.lt_succ_of_lt (hinv.fresh q hq k hk)
          · simp only [ClusterTag.id.injEq] at hk
            omega
        · simp only
          split
          · exact ⟨ids, hsorted, fun k hk => Nat.lt_succ_of_lt (hlt k hk), hforall2⟩
          · refine ⟨ids ++ [st.current_id], ?_, ?_, ?_⟩
            · rw [List.pairwise_append]
              refine ⟨hsorted, by simp, ?_⟩
              intro a ha b hb
              rw [List.mem_singleton.mp hb]
              exact hlt a ha
            · intro k hk
              rcases List.mem_append.mp hk with hk | hk
              · exact Nat.lt_succ_of_lt (hlt k hk)
              · rw [List.mem_singleton.mp hk]
                exact Nat.lt_succ_self _
            · exact List.rel_append hforall2
                (List.Forall₂.cons ⟨Nat.lt_succ_self _, hnew⟩ List.Forall₂.nil)
        · simp only
          split
          · exact hcopies
          · rw [List.flatten_append]
            simp only [List.flatten_cons, List.flatten_nil, List.append_nil]
            refine List.Subperm.trans ?_ hr.bound_perm.symm.subperm
            exact (List.subperm_append_right _).mpr hinv.copies

theorem scan_rel_refl (st : scan_state) : scan_rel st st :=
  ⟨rfl, rfl, rfl, le_refl _, tags_written_refl _ _ _, le_refl _⟩

theorem scan_rel_trans {st1 st2 st3 : scan_state} (h12 : scan_rel st1 st2)
    (h23 : scan_rel st2 st3) : scan_rel st1 st3 :=
  ⟨h23.epsilon.trans h12.epsilon, h23.sub_lines.trans h12.sub_lines,
    h23.world_buffer.trans h12.world_buffer, le_trans h12.ids h23.ids,
    tags_written_trans (tags_written_mono h12.world (le_refl _) h23.ids)
      (tags_written_mono h23.world h12.ids (le_refl _)),
    le_trans h12.iterations h23.iterations⟩

theorem scan_loop_rel (idxs : List Nat) : ∀ (st st2 : scan_state),
    Scanner.scan_loop idxs st = some st2 → scan_rel st st2 := by
  induction idxs with
  | nil =>
    intro st st2 h
    simp only [Scanner.scan_loop, Option.some.injEq] at h
    subst h
    exact scan_rel_refl _
  | cons i rest ih =>
    intro st st2 h
    simp only [Scanner.scan_loop] at h
    cases hb : Scanner.scan_body st i with
    | none => simp [hb] at h
    | some st1 =>
      simp only [hb] at h
      exact scan_rel_trans (scan_body_rel hb) (ih _ _ h)

theorem scan_loop_inv (idxs : List Nat) : ∀ (st st2 : scan_state), scan_inv st →
    Scanner.scan_loop idxs st = some st2 → scan_inv st2 := by
  induction idxs with
  | nil =>
    intro st st2 hinv h
    simp only [Scanner.scan_loop, Option.some.injEq] at h
    subst h
    exact hinv
  | cons i rest ih =>
    intro st st2 hinv h
    simp only [Scanner.scan_loop] at h
    cases hb : Scanner.scan_body st i with
    | none => simp [hb] at h
    | some st1 =>
      simp only [hb] at h
      exact ih _ _ (scan_body_inv hinv hb) h

theorem scan_loop_isSome (idxs : List Nat) : ∀ (st : scan_state),
    (∀ i ∈ idxs, i < st.self._world.length) → (Scanner.scan_loop idxs st).isSome = true := by
  induction idxs with
  | nil =>
    intro st _
    rfl
  | cons i rest ih =>
    intro st hidx
    simp only [Scanner.scan_loop]
    cases hb : Scanner.scan_body st i with
    | none =>
      have := @scan_body_isSome st i (hidx i (List.mem_cons_self _ _))
      simp [hb] at this
    | some st1 =>
      simp only []
      apply ih
      intro j hj
      rw [(scan_body_rel hb).world.1]
      exact hidx j (List.mem_cons_of_mem _ hj)

theorem agglomerate_loop_unbound (P : Platform) (capture : List Nat) : ∀ (angle : Int)
    (buffer : List point), (∀ p ∈ buffer, p.cluster = ClusterTag.unbound) →
    ∀ p ∈ Scanner.agglomerate_loop P capture angle buffer, p.cluster = ClusterTag.unbound := by
  induction capture with
  | nil =>
    intro angle buffer hb
    simpa [Scanner.agglomerate_loop] using hb
  | cons dist rest ih =>
    intro angle buffer hb
    simp only [Scanner.agglomerate_loop]
    split
    · apply ih
      intro p hp
      rcases List.mem_append.mp hp with hp | hp
      · exact hb p hp
      · rw [List.mem_singleton.mp hp]
    · exact ih _ _ hb

theorem agglomerate_loop_length (P : Platform) (capture : List Nat) : ∀ (angle : Int)
    (buffer : List point), (Scanner.agglomerate_loop P capture angle buffer).length =
      buffer.length + (capture.filter fun dist => decide (dist > 0)).length := by
  induction capture with
  | nil =>
    intro angle buffer
    simp [Scanner.agglomerate_loop]
  | cons dist rest ih =>
    intro angle buffer
    simp only [Scanner.agglomerate_loop, List.filter_cons]
    split
    · rename_i h
      rw [ih]
      simp [h]
      omega
    · rename_i h
      rw [ih]
      simp [h]

theorem agglomerate_unbound (P : Platform) (s : Scanner) (capture : List Nat) :
    ∀ p ∈ (s.agglomerate P capture)._world, p.cluster = ClusterTag.unbound := by
  intro p hp
  simp only [Scanner.agglomerate] at hp
  have := (P.sort_perm _).subset hp
  exact agglomerate_loop_unbound P capture _ [] (by simp) p this

theorem agglomerate_length (P : Platform) (s : Scanner) (capture : List Nat) :
    (s.agglomerate P capture)._world.length =
      (capture.filter fun dist => decide (dist > 0)).length := by
  simp only [Scanner.agglomerate]
  rw [(P.sort_perm _).length_eq, agglomerate_loop_length]
  simp

theorem scan_inv_init (s : Scanner) (h : ∀ p ∈ s._world, p.cluster = ClusterTag.unbound) :
    scan_inv { self := { s with _iterations_count := 0 }, sub_lines_buffer := [], current_id := 0 } := by
  refine ⟨by simp, ?_, ⟨[], by simp, by simp, List.Forall₂.nil⟩, by simp⟩
  intro p hp k hk
  have := h p hp
  rw [this] at hk
  simp at hk

theorem scan_sub_lines_spec (s : Scanner) (h : ∀ p ∈ s._world, p.cluster = ClusterTag.unbound) :
    ∃ st : scan_state,
      s.scan_sub_lines = some { st.self with _sub_lines := st.sub_lines_buffer } ∧
      scan_inv st ∧
      scan_rel { self := { s with _iterations_count := 0 }, sub_lines_buffer := [], current_id := 0 } st := by
  have hsome := scan_loop_isSome (List.range s._world.length)
    { self := { s with _iterations_count := 0 }, sub_lines_buffer := [], current_id := 0 }
    (fun i hi => by simpa using hi)
  cases hl : Scanner.scan_loop (List.range s._world.length)
    { self := { s with _iterations_count := 0 }, sub_lines_buffer := [], current_id := 0 } with
  | none => simp [hl] at hsome
  | some st =>
    refine ⟨st, ?_, scan_loop_inv _ _ _ (scan_inv_init s h) hl, scan_loop_rel _ _ _ hl⟩
    simp only [Scanner.scan_sub_lines, hl]

theorem update_spec (P : Platform) (s : Scanner) (capture : List Nat) :
    ∃ st : scan_state,
      s.update P capture = some { st.self with _sub_lines := st.sub_lines_buffer } ∧
      scan_inv st ∧
      scan_rel { self := { s.agglomerate P capture with _iterations_count := 0 },
                 sub_lines_buffer := [], current_id := 0 } st :=
  scan_sub_lines_spec _ (agglomerate_unbound P s capture)

theorem expand_loop_with_rest (wb : List point) (sls : List (List point)) (budget : Nat) :
    ∀ (s : Scanner) (cluster : cluster_info) (wl : List Nat),
    Scanner.expand_loop budget (s.with_rest wb sls) cluster wl =
      (Scanner.expand_loop budget s cluster wl).map fun r => (r.1.with_rest wb sls, r.2) := by
  induction budget with
  | zero =>
    intro s cluster wl
    cases wl with
    | nil => simp [Scanner.expand_loop]
    | cons it rest => simp [Scanner.expand_loop]
  | succ budget ih =>
    intro s cluster wl
    cases wl with
    | nil => simp [Scanner.expand_loop]
    | cons it rest =>
      simp only [Scanner.expand_loop]
      show (match s._world[it]? with
        | none => none
        | some pt_n => _) = _
      cases hpt : s._world[it]? with
      | none => simp
      | some pt_n =>
        simp only []
        split
        · exact ih { s with _iterations_count := s._iterations_count + 1 } cluster rest
        · show (match (s._world.set it _)[(it :: rest).getLast _]? with
            | none => none
            | some last => _) = _
          split
          · simp
          · exact ih ⟨s._epsilon, s._iterations_count + 1, s._world_buffer,
              s._world.set it { pt_n with cluster := ClusterTag.id cluster.id }, s._sub_lines⟩ _ _

theorem scan_body_with_rest (wb : List point) (sls : List (List point)) (st : scan_state)
    (i : Nat) :
    Scanner.scan_body { st with self := st.self.with_rest wb sls } i =
      (Scanner.scan_body st i).map fun r => { r with self := r.self.with_rest wb sls } := by
  simp only [Scanner.scan_body]
  show (match st.self._world[i]? with
    | none => none
    | some pt => _) = _
  cases hpt : st.self._world[i]? with
  | none => simp
  | some pt =>
    simp only []
    split
    · simp
    · have h := expand_loop_with_rest wb sls
        (Scanner.expand_budget
          ⟨st.self._epsilon, st.self._iterations_count, st.self._world_buffer,
            st.self._world.set i { pt with cluster := ClusterTag.id st.current_id },
            st.self._sub_lines⟩ (st.self.neighbors_of pt))
        ⟨st.self._epsilon, st.self._iterations_count, st.self._world_buffer,
            st.self._world.set i { pt with cluster := ClusterTag.id st.current_id },
            st.self._sub_lines⟩
        ⟨[{ pt with cluster := ClusterTag.id st.current_id }], st.current_id⟩
        (st.self.neighbors_of pt)
      have h2 : (st.self.with_rest wb sls).open_cluster i pt st.current_id =
          (st.self.open_cluster i pt st.current_id).map fun r => (r.1.with_rest wb sls, r.2) := h
      rw [h2]
      cases st.self.open_cluster i pt st.current_id with
      | none => simp
      | some r => simp

theorem scan_loop_with_rest (wb : List point) (sls : List (List point)) (idxs : List Nat) :
    ∀ st : scan_state,
    Scanner.scan_loop idxs { st with self := st.self.with_rest wb sls } =
      (Scanner.scan_loop idxs st).map fun r => { r with self := r.self.with_rest wb sls } := by
  induction idxs with
  | nil =>
    intro st
    simp [Scanner.scan_loop]
  | cons i rest ih =>
    intro st
    simp only [Scanner.scan_loop]
    rw [scan_body_with_rest]
    cases Scanner.scan_body st i with
    | none => simp
    | some st1 => exact ih st1

theorem update_congr (P : Platform) (s t : Scanner) (capture : List Nat)
    (h : s._epsilon = t._epsilon) :
    t.update P capture =
      (s.update P capture).map fun r => { r with _world_buffer := t._world } := by
  have hl := scan_loop_with_rest t._world t._sub_lines
    (List.range (s.agglomerate P capture)._world.length)
    { self := { s.agglomerate P capture with _iterations_count := 0 },
      sub_lines_buffer := [], current_id := 0 }
  have hl2 : Scanner.scan_loop (List.range (t.agglomerate P capture)._world.length)
      { self := { t.agglomerate P capture with _iterations_count := 0 },
        sub_lines_buffer := [], current_id := 0 } =
      (Scanner.scan_loop (List.range (s.agglomerate P capture)._world.length)
        { self := { s.agglomerate P capture with _iterations_count := 0 },
          sub_lines_buffer := [], current_id := 0 }).map
        fun r => { r with self := r.self.with_rest t._world t._sub_lines } := by
    rw [← hl]
    simp only [Scanner.agglomerate, Scanner.with_rest, h]
  simp only [Scanner.update, Scanner.scan_sub_lines]
  rw [hl2]
  cases Scanner.scan_loop (List.range (s.agglomerate P capture)._world.length)
      { self := { s.agglomerate P capture with _iterations_count := 0 },
        sub_lines_buffer := [], current_id := 0 } with
  | none => simp
  | some st =>
    simp [Scanner.with_rest]

theorem update_epsilon (P : Platform) (s s1 : Scanner) (capture : List Nat)
    (h : s.update P capture = some s1) : s1._epsilon = s._epsilon := by
  obtain ⟨st, hup, _, hrel⟩ := update_spec P s capture
  rw [hup] at h
  rw [← Option.some.inj h]
  exact hrel.epsilon

theorem update_returns (P : Platform) (s : Scanner) (capture : List Nat) :
    ∃ s1 : Scanner, s.update P capture = some s1 := by
  obtain ⟨st, hup, _, _⟩ := update_spec P s capture
  exact ⟨_, hup⟩

theorem neighbors_of_nonpos (t : Scanner) (origin : point) (h : t._epsilon ≤ 0) :
    t.neighbors_of origin = [] := by
  simp only [Scanner.neighbors_of]
  apply List.filter_eq_nil_iff.mpr
  intro i _
  cases t._world[i]? with
  | none => simp
  | some candidate =>
    simp only []
    split
    · simp
    · simp only [Bool.not_eq_true, decide_eq_false_iff_not, not_lt]
      exact le_trans h (euclidean_distance_nonneg _ _)

theorem open_cluster_nonpos (t : Scanner) (i : Nat) (pt : point) (k : Nat)
    (h : t._epsilon ≤ 0) :
    t.open_cluster i pt k =
      some ({ t with _world := t._world.set i { pt with cluster := ClusterTag.id k } },
        { points := [{ pt with cluster := ClusterTag.id k }], id := k }) := by
  simp only [Scanner.open_cluster, Scanner.expand, neighbors_of_nonpos t pt h,
    Scanner.expand_loop]

theorem scan_body_nonpos {st st2 : scan_state} {i : Nat} (h : st.self._epsilon ≤ 0)
    (hb : st.sub_lines_buffer = []) (hi : st.self._iterations_count = 0)
    (hs : Scanner.scan_body st i = some st2) :
    st2.self._epsilon ≤ 0 ∧ st2.sub_lines_buffer = [] ∧ st2.self._iterations_count = 0 := by
  simp only [Scanner.scan_body] at hs
  cases hpt : st.self._world[i]? with
  | none => simp [hpt] at hs
  | some pt =>
    simp only [hpt] at hs
    split at hs
    · obtain rfl := Option.some.inj hs
      exact ⟨h, hb, hi⟩
    · rw [open_cluster_nonpos _ _ _ _ h] at hs
      simp only [Option.some.injEq] at hs
      subst hs
      exact ⟨h, by simpa using hb, hi⟩

theorem scan_loop_nonpos (idxs : List Nat) : ∀ (st st2 : scan_state), st.self._epsilon ≤ 0 →
    st.sub_lines_buffer = [] → st.self._iterations_count = 0 →
    Scanner.scan_loop idxs st = some st2 →
    st2.sub_lines_buffer = [] ∧ st2.self._iterations_count = 0 := by
  induction idxs with
  | nil =>
    intro st st2 _ hb hi hs
    simp only [Scanner.scan_loop, Option.some.injEq] at hs
    subst hs
    exact ⟨hb, hi⟩
  | cons i rest ih =>
    intro st st2 h hb hi hs
    simp only [Scanner.scan_loop] at hs
    cases hbody : Scanner.scan_body st i with
    | none => simp [hbody] at hs
    | some st1 =>
      simp only [hbody] at hs
      obtain ⟨h1, hb1, hi1⟩ := scan_body_nonpos h hb hi hbody
      exact ih _ _ h1 hb1 hi1 hs

theorem update_nonpos (P : Platform) (s : Scanner) (capture : List Nat) (h : s._epsilon ≤ 0) :
    ∃ s2 : Scanner, s.update P capture = some s2 ∧ s2._sub_lines = [] ∧
      s2._iterations_count = 0 := by
  obtain ⟨s2, hup⟩ := update_returns P s capture
  refine ⟨s2, hup, ?_⟩
  simp only [Scanner.update, Scanner.scan_sub_lines] at hup
  split at hup
  · simp at hup
  · rename_i st hl
    obtain ⟨hb, hi⟩ := scan_loop_nonpos _ _ _ h rfl rfl hl
    rw [← Option.some.inj hup]
    exact ⟨hb, hi⟩

theorem get_near_point_loop_isSome (points : List (List point)) :
    ∀ acc : point × point × ℚ × ℚ, (∀ sl ∈ points, 2 ≤ sl.length) →
      (get_near_point_loop points acc).isSome = true := by
  induction points with
  | nil =>
    intro acc _
    rfl
  | cons sl rest ih =>
    intro acc h
    obtain ⟨pointa, pointb, dista, distb⟩ := acc
    have hsl := h sl (List.mem_cons_self _ _)
    have hrest : ∀ l ∈ rest, 2 ≤ l.length := fun l hl => h l (List.mem_cons_of_mem _ hl)
    match sl, hsl with
    | p :: q :: tl, _ =>
      simp only [get_near_point_loop, List.head?_cons, List.getElem?_cons_succ,
        List.getElem?_cons_zero]
      split
      · exact ih _ hrest
      · split
        · exact ih _ hrest
        · exact ih _ hrest

theorem get_near_point_isSome (points : List (List point)) (h : ∀ sl ∈ points, 2 ≤ sl.length) :
    (get_near_point points).isSome = true := by
  simp only [get_near_point]
  have := get_near_point_loop_isSome points
    (⟨0, 0, ClusterTag.unbound⟩, ⟨0, 0, ClusterTag.unbound⟩, 4000, 4000) h
  cases hl : get_near_point_loop points
    (⟨0, 0, ClusterTag.unbound⟩, ⟨0, 0, ClusterTag.unbound⟩, 4000, 4000) with
  | none => simp [hl] at this
  | some r => rfl

theorem adjust_spec (a : Algorithm) (oz : Oz) (h : ∀ sl ∈ a._scanner._sub_lines, 2 ≤ sl.length) :
    ∃ effects, a.adjust oz = some (a, effects) := by
  simp only [Algorithm.adjust]
  have := get_near_point_isSome a._scanner.get_sub_lines h
  cases hn : get_near_point a._scanner.get_sub_lines with
  | none => simp [hn] at this
  | some nearpoint => exact ⟨_, rfl⟩

theorem adjust_frame (a : Algorithm) (oz : Oz) (r : Algorithm × List Effect)
    (h : a.adjust oz = some r) : r.1 = a := by
  simp only [Algorithm.adjust] at h
  split at h
  · simp at h
  · rw [← Option.some.inj h]

theorem handlers_frame (a : Algorithm) (oz : Oz) (r : Algorithm × List Effect)
    (h : a.wait oz = some r ∨ a.goStraightForPlow oz = some r ∨ a.endPlow oz = some r ∨
      a.turnOnNextLigne oz = some r ∨ a.adjust oz = some r) :
    r.1._run_distance = a._run_distance ∧ r.1._scanner = a._scanner := by
  rcases h with h | h | h | h | h
  · simp only [Algorithm.wait] at h
    split at h <;> (rw [← Option.some.inj h]; exact ⟨rfl, rfl⟩)
  · simp only [Algorithm.goStraightForPlow] at h
    rw [← Option.some.inj h]
    exact ⟨rfl, rfl⟩
  · simp only [Algorithm.endPlow] at h
    split at h
    · split at h <;> (rw [← Option.some.inj h]; exact ⟨rfl, rfl⟩)
    · rw [adjust_frame a oz r h]
      exact ⟨rfl, rfl⟩
  · simp only [Algorithm.turnOnNextLigne] at h
    repeat' split at h
    all_goals (rw [← Option.some.inj h]; exact ⟨rfl, rfl⟩)
  · rw [adjust_frame a oz r h]
    exact ⟨rfl, rfl⟩

theorem dispatch_run_distance (a : Algorithm) (oz : Oz) (r : Algorithm × List Effect)
    (h : a.dispatch oz = some r) :
    r.1._run_distance = a._run_distance ∧ r.1._scanner = a._scanner := by
  simp only [Algorithm.dispatch] at h
  split at h
  · simp at h
  · exact handlers_frame a oz r (Or.inl h)
  · exact handlers_frame a oz r (Or.inr (Or.inl h))
  · exact handlers_frame a oz r (Or.inr (Or.inr (Or.inl h)))
  · exact handlers_frame a oz r (Or.inr (Or.inr (Or.inr (Or.inl h))))

theorem dispatch_returns (a : Algorithm) (oz : Oz) (hn : a._next ≠ none)
    (h : ∀ sl ∈ a._scanner._sub_lines, 2 ≤ sl.length) :
    ∃ r, a.dispatch oz = some r ∧ r.1._next ≠ none := by
  simp only [Algorithm.dispatch]
  split
  · rename_i h0
    exact absurd h0 hn
  · simp only [Algorithm.wait]
    split
    · exact ⟨_, rfl, by simp⟩
    · exact ⟨_, rfl, hn⟩
  · exact ⟨_, rfl, by simp⟩
  · simp only [Algorithm.endPlow]
    split
    · split
      · exact ⟨_, rfl, by simp⟩
      · exact ⟨_, rfl, hn⟩
    · obtain ⟨effects, hadj⟩ := adjust_spec a oz h
      exact ⟨_, hadj, hn⟩
  · simp only [Algorithm.turnOnNextLigne]
    repeat' split
    all_goals first
      | exact ⟨_, rfl, hn⟩
      | exact ⟨_, rfl, by simp⟩

theorem update_tick_spec (P : Platform) (a : Algorithm) (oz : Oz) (delta_time : Int)
    (hn : a._next ≠ none) :
    ∃ r, a.update P oz delta_time = some r ∧ r.1._next ≠ none ∧
      r.1._run_distance =
        binary64.add a._run_distance
          (binary64.mul oz.odo_speed (binary64.div (binary64.of_int delta_time) 1000.0)) := by
  obtain ⟨st, hup, hinv, _⟩ := update_spec P a._scanner oz.lidar_distances
  simp only [Algorithm.update, hup]
  have hlen : ∀ sl ∈ st.sub_lines_buffer, 2 ≤ sl.length := fun sl hsl =>
    le_trans (by decide) (hinv.long sl hsl)
  obtain ⟨r, hd, hr⟩ := dispatch_returns
    (Algorithm.update_run_distance
      { a with _scanner := { st.self with _sub_lines := st.sub_lines_buffer } } oz.odo_speed delta_time)
    oz hn hlen
  exact ⟨r, hd, hr, (dispatch_run_distance _ _ _ hd).1⟩

theorem accumulated_append (start : ℚ) (l1 l2 : List (ℚ × Int)) :
    accumulated start (l1 ++ l2) = accumulated (accumulated start l1) l2 := by
  simp only [accumulated, List.foldl_append]

theorem run_spec (P : Platform) (ticks : List (Oz × Int)) : ∀ a : Algorithm, a._next ≠ none →
    ∃ r, a.run P ticks = some r ∧ r.1._next ≠ none ∧
      r.1.get_run_distance =
        accumulated a.get_run_distance (ticks.map fun t => (t.1.odo_speed, t.2)) := by
  induction ticks with
  | nil =>
    intro a hn
    exact ⟨(a, []), rfl, hn, rfl⟩
  | cons t rest ih =>
    intro a hn
    obtain ⟨oz, delta_time⟩ := t
    obtain ⟨r1, h1, hn1, hd1⟩ := update_tick_spec P a oz delta_time hn
    obtain ⟨r2, h2, hn2, hd2⟩ := ih r1.1 hn1
    obtain ⟨a1, e1⟩ := r1
    obtain ⟨a2, e2⟩ := r2
    refine ⟨(a2, e1 ++ e2), ?_, hn2, ?_⟩
    · simp only [Algorithm.run, h1]
      simp only at h2
      simp only [h2]
    · simp only [Algorithm.get_run_distance] at hd2 ⊢
      simp only at hd1 hd2
      rw [hd2, hd1]
      simp only [List.map_cons, accumulated, List.foldl_cons]

theorem run_wait (P : Platform) (ticks : List (Oz × Int)) : ∀ a : Algorithm,
    a._next = some Handler.wait → (∀ t ∈ ticks, t.1.lidar_detect ≤ 1) →
    ∃ a2 : Algorithm, a.run P ticks = some (a2, []) ∧ a2._next = some Handler.wait ∧
      a2._startTurn = a._startTurn := by
  induction ticks with
  | nil =>
    intro a h _
    exact ⟨a, rfl, h, rfl⟩
  | cons t rest ih =>
    intro a h hd
    obtain ⟨oz, delta_time⟩ := t
    have hoz : ¬ oz.lidar_detect > 1 := not_lt.mpr (hd (oz, delta_time) (List.mem_cons_self _ _))
    obtain ⟨s1, hs1⟩ := update_returns P a._scanner oz.lidar_distances
    obtain ⟨a2, h2, hn2, hst2⟩ := ih
      (Algorithm.update_run_distance { a with _scanner := s1 } oz.odo_speed delta_time) h
      (fun t ht => hd t (List.mem_cons_of_mem _ ht))
    refine ⟨a2, ?_, hn2, hst2⟩
    simp only [Algorithm.run, Algorithm.update, hs1, Algorithm.dispatch,
      Algorithm.update_run_distance, h, Algorithm.wait, hoz, if_false]
    simp only [Algorithm.update_run_distance, h] at h2
    simp only [h2, List.nil_append]

theorem expand_loop_budget_succ (budget : Nat) : ∀ (s : Scanner) (cluster : cluster_info)
    (wl : List Nat) (r : Scanner × cluster_info),
    Scanner.expand_loop budget s cluster wl = some r →
    Scanner.expand_loop (budget + 1) s cluster wl = some r := by
  induction budget with
  | zero =>
    intro s cluster wl r h
    cases wl with
    | nil => simpa [Scanner.expand_loop] using h
    | cons it rest => simp [Scanner.expand_loop] at h
  | succ budget ih =>
    intro s cluster wl r h
    cases wl with
    | nil => simpa [Scanner.expand_loop] using h
    | cons it rest =>
      rw [Scanner.expand_loop] at h ⊢
      cases hpt : s._world[it]? with
      | none => simp [hpt] at h
      | some pt_n =>
        simp only [hpt] at h ⊢
        split
        · rename_i hb
          rw [if_pos hb] at h
          exact ih _ _ _ _ h
        · rename_i hb
          rw [if_neg hb] at h
          split
          · rename_i hnone
            simp [hnone] at h
          · rename_i last hlast
            simp only [hlast] at h
            exact ih _ _ _ _ h

theorem expand_loop_budget_le {budget budget2 : Nat} (hle : budget ≤ budget2) (s : Scanner)
    (cluster : cluster_info) (wl : List Nat) (r : Scanner × cluster_info)
    (h : Scanner.expand_loop budget s cluster wl = some r) :
    Scanner.expand_loop budget2 s cluster wl = some r := by
  induction hle with
  | refl => exact h
  | step _ ih => exact expand_loop_budget_succ _ _ _ _ _ ih

theorem tags_written_forall₂ {lo hi : Nat} : ∀ {w1 w2 : List point}, tags_written lo hi w1 w2 →
    List.Forall₂ (fun p q => q = p ∨ p.cluster = ClusterTag.unbound) w1 w2 := by
  intro w1
  induction w1 with
  | nil =>
    intro w2 h
    have : w2 = [] := List.length_eq_zero.mp (by simpa using h.1)
    subst this
    exact List.Forall₂.nil
  | cons a w1 ih =>
    intro w2 h
    cases w2 with
    | nil => exact absurd h.1 (by simp)
    | cons b w2 =>
      refine List.Forall₂.cons ?_ (ih ⟨by simpa using h.1, fun i p hp => ?_⟩)
      · rcases h.2 0 a (by simp) with h0 | ⟨hu, _⟩
        · left
          simpa using h0
        · exact Or.inr hu
      · have := h.2 (i + 1) p (by simpa using hp)
        simpa using this

theorem sublist_of_tags_written {w1 w2 : List point}
    (h : List.Forall₂ (fun p q => q = p ∨ p.cluster = ClusterTag.unbound) w1 w2) :
    ∀ {l : List point}, l.Sublist w1 → (∀ p ∈ l, p.bound = true) → l.Sublist w2 := by
  induction h with
  | nil =>
    intro l hl _
    exact hl
  | @cons a b w1 w2 hab _ ih =>
    intro l hl hb
    rcases List.sublist_cons_iff.mp hl with hl2 | ⟨r, rfl, hl2⟩
    · exact (ih hl2 hb).cons _
    · have ha : a.bound = true := hb a (List.mem_cons_self _ _)
      rcases hab with rfl | hu
      · exact (ih hl2 (fun p hp => hb p (List.mem_cons_of_mem _ hp))).cons₂ _
      · simp [point.bound, hu] at ha

theorem forall₂_take {R : point → point → Prop} {w1 w2 : List point} (n : Nat)
    (h : List.Forall₂ R w1 w2) : List.Forall₂ R (w1.take n) (w2.take n) := by
  induction h generalizing n with
  | nil => simp
  | cons hab _ ih =>
    cases n with
    | zero => simp
    | succ n => exact List.Forall₂.cons hab (ih n)

theorem open_cluster_seed {s s2 : Scanner} {i : Nat} {pt : point} {k : Nat} {c : cluster_info}
    (hpt : s._world[i]? = some pt)
    (h : s.open_cluster i pt k = some (s2, c)) :
    s2._world[i]? = some { pt with cluster := ClusterTag.id k } := by
  simp only [Scanner.open_cluster, Scanner.expand] at h
  obtain ⟨added, _, hr⟩ := expand_loop_rel _ _ _ _ _ _ h
  have hlt : i < s._world.length := (List.getElem?_eq_some_iff.mp hpt).1
  have h1 : (s._world.set i { pt with cluster := ClusterTag.id k })[i]? =
      some { pt with cluster := ClusterTag.id k } := by
    simp [List.getElem?_set, hlt]
  rcases hr.world.2 i _ h1 with h2 | ⟨hu, _⟩
  · exact h2
  · simp at hu

theorem scan_body_seeds {st st2 : scan_state} {i : Nat}
    (h : Scanner.scan_body st i = some st2)
    (hs : (st.sub_lines_buffer.filterMap List.head?).Sublist (st.self._world.take i))
    (hb : ∀ p ∈ st.sub_lines_buffer.filterMap List.head?, p.bound = true) :
    (st2.sub_lines_buffer.filterMap List.head?).Sublist (st2.self._world.take (i + 1)) ∧
    ∀ p ∈ st2.sub_lines_buffer.filterMap List.head?, p.bound = true := by
  have hrel := scan_body_rel h
  have hf := forall₂_take i (tags_written_forall₂ hrel.world)
  have hs2 : (st.sub_lines_buffer.filterMap List.head?).Sublist (st2.self._world.take i) :=
    sublist_of_tags_written hf hs hb
  have hs3 : (st.sub_lines_buffer.filterMap List.head?).Sublist (st2.self._world.take (i + 1)) :=
    hs2.trans (List.take_sublist_take_left _ (Nat.le_succ i))
  simp only [Scanner.scan_body] at h
  cases hpt : st.self._world[i]? with
  | none => simp [hpt] at h
  | some pt =>
    simp only [hpt] at h
    split at h
    · obtain rfl := Option.some.inj h
      exact ⟨hs3, hb⟩
    · rename_i hcond
      have hu : pt.cluster = ClusterTag.unbound := by
        by_contra hne
        exact hcond (Or.inl hne)
      cases hoc : st.self.open_cluster i pt st.current_id with
      | none => simp [hoc] at h
      | some r =>
        obtain ⟨s2, c⟩ := r
        simp only [hoc, Option.some.injEq] at h
        obtain ⟨added, hc, _⟩ := open_cluster_rel hpt hu hoc
        have hseed := open_cluster_seed hpt hoc
        subst hc
        subst h
        simp only at hs2 hs3 ⊢
        split
        · exact ⟨hs3, hb⟩
        · have hlt : i < s2._world.length := (List.getElem?_eq_some_iff.mp hseed).1
          have htake : s2._world.take (i + 1) =
              s2._world.take i ++ [{ pt with cluster := ClusterTag.id st.current_id }] := by
            rw [List.take_succ, hseed]
            rfl
          simp only [List.filterMap_append, List.filterMap_cons, List.head?_cons,
            List.filterMap_nil]
          refine ⟨?_, ?_⟩
          · rw [htake]
            exact List.Sublist.append hs2 (List.Sublist.refl _)
          · intro p hp
            rcases List.mem_append.mp hp with hp | hp
            · exact hb p hp
            · rw [List.mem_singleton.mp hp]
              simp [point.bound]

theorem scan_loop_seeds (len : Nat) : ∀ (lo : Nat) (st st2 : scan_state),
    Scanner.scan_loop (List.range' lo len) st = some st2 →
    (st.sub_lines_buffer.filterMap List.head?).Sublist (st.self._world.take lo) →
    (∀ p ∈ st.sub_lines_buffer.filterMap List.head?, p.bound = true) →
    (st2.sub_lines_buffer.filterMap List.head?).Sublist (st2.self._world.take (lo + len)) := by
  induction len with
  | zero =>
    intro lo st st2 h hs _
    simp only [List.range'_zero, Scanner.scan_loop, Option.some.injEq] at h
    subst h
    exact hs
  | succ len ih =>
    intro lo st st2 h hs hb
    simp only [List.range'_succ, Scanner.scan_loop] at h
    cases hbody : Scanner.scan_body st lo with
    | none => simp [hbody] at h
    | some st1 =>
      simp only [hbody] at h
      obtain ⟨hs1, hb1⟩ := scan_body_seeds hbody hs hb
      have := ih (lo + 1) st1 st2 h hs1 hb1
      rw [show lo + (len + 1) = lo + 1 + len by omega]
      exact this

theorem update_seeds (P : Platform) (s s2 : Scanner) (capture : List Nat)
    (h : s.update P capture = some s2) :
    (s2._sub_lines.filterMap List.head?).Sublist s2._world := by
  simp only [Scanner.update, Scanner.scan_sub_lines] at h
  split at h
  · simp at h
  · rename_i st hl
    rw [List.range_eq_range'] at hl
    have hlen := (scan_loop_rel _ _ _ hl).world.1
    have := scan_loop_seeds _ 0 _ _ hl (by simp) (by simp)
    rw [← Option.some.inj h]
    simp only at hlen this ⊢
    rw [Nat.zero_add, ← hlen, List.take_length] at this
    exact this

theorem expand_returns (s : Scanner) (cluster : cluster_info) (neighbors : List Nat)
    (h : ∀ i ∈ neighbors, i < s._world.length) :
    ∃ r : Scanner × cluster_info, s.expand cluster neighbors = some r ∧
      ∀ budget, s.expand_budget neighbors ≤ budget →
        Scanner.expand_loop budget s cluster neighbors = some r := by
  have hs := expand_loop_isSome (s.expand_budget neighbors) s cluster neighbors h (le_refl _)
  cases hr : Scanner.expand_loop (s.expand_budget neighbors) s cluster neighbors with
  | none => simp [hr] at hs
  | some r =>
    exact ⟨r, hr, fun budget hle => expand_loop_budget_le hle s cluster neighbors r hr⟩

theorem point_lt_iff (p q : point) :
    p.lt q = true ↔ (|p.y| < |q.y| ∨ (|p.y| = |q.y| ∧ |p.x| < |q.x|)) := by
  simp only [point.lt, decide_eq_true_eq]
  constructor
  · rintro (h | ⟨h1, h2⟩)
    · exact Or.inl h
    · rcases lt_or_eq_of_le (not_lt.mp h1) with h | h
      · exact Or.inl h
      · exact Or.inr ⟨h, h2⟩
  · rintro (h | ⟨h1, h2⟩)
    · exact Or.inl h
    · exact Or.inr ⟨by rw [h1]; exact lt_irrefl _, h2⟩

theorem point_unordered_iff (p q : point) :
    (p.lt q = false ∧ q.lt p = false) ↔ (|p.y| = |q.y| ∧ |p.x| = |q.x|) := by
  simp only [← Bool.not_eq_true, point_lt_iff]
  constructor
  · rintro ⟨h1, h2⟩
    push_neg at h1 h2
    have hy : |p.y| = |q.y| := le_antisymm h2.1 h1.1
    exact ⟨hy, le_antisymm (h2.2 hy.symm) (h1.2 hy)⟩
  · rintro ⟨hy, hx⟩
    rw [hy, hx]
    simp

theorem adjust_effects (a : Algorithm) (oz : Oz) (r : Algorithm × List Effect)
    (h : a.adjust oz = some r) :
    r.1 = a ∧ (∀ e ∈ r.2, ∃ v, e = Effect.motor_setAngle v) ∧
      (r.2.getLast? = some (Effect.motor_setAngle (-60)) ∨
        r.2.getLast? = some (Effect.motor_setAngle 0)) := by
  simp only [Algorithm.adjust] at h
  split at h
  · simp at h
  · rw [← Option.some.inj h]
    refine ⟨rfl, ?_, ?_⟩
    · intro e he
      simp only [List.mem_append] at he
      rcases he with ((he | he) | he) | he
      all_goals
        split at he
        all_goals
          first
            | exact ⟨_, List.mem_singleton.mp he⟩
            | simp at he
    · simp only
      split <;> split <;> split <;> split <;> simp

theorem turn_in_band (a : Algorithm) (oz : Oz) (h : a._next = some Handler.turnOnNextLigne)
    (hs : a._startTurn ≠ -1)
    (hb : binary64.sub oz.odo_distance a._startTurn < binary64.mul (binary64.round 6.465) 16.0) :
    ∃ effects : List Effect, a.dispatch oz = some (a, effects) ∧
      Effect.gyro_reset ∉ effects := by
  simp only [Algorithm.dispatch, h, Algorithm.turnOnNextLigne, hs, if_false]
  simp only [hb, if_true]
  split
  · exact ⟨_, rfl, by simp⟩
  · split
    · exact ⟨_, rfl, by simp⟩
    · split
      · exact ⟨_, rfl, by simp⟩
      · exact ⟨_, rfl, by simp⟩

theorem turn_stay (later : List Oz) (a : Algorithm) (h : a._next = some Handler.turnOnNextLigne)
    (hs : a._startTurn ≠ -1)
    (hb : ∀ o ∈ later,
      binary64.sub o.odo_distance a._startTurn < binary64.mul (binary64.round 6.465) 16.0) :
    ∃ effects : List (List Effect), a.dispatch_all later = some (a, effects) ∧
      Effect.gyro_reset ∉ effects.flatten := by
  induction later with
  | nil => exact ⟨[], rfl, by simp⟩
  | cons o rest ih =>
    obtain ⟨e1, h1, hg1⟩ := turn_in_band a o h hs (hb o (List.mem_cons_self _ _))
    obtain ⟨e2, h2, hg2⟩ := ih (fun o2 ho2 => hb o2 (List.mem_cons_of_mem _ ho2))
    refine ⟨e1 :: e2, ?_, ?_⟩
    · simp only [Algorithm.dispatch_all, h1, h2]
    · simp only [List.flatten_cons, List.mem_append, not_or]
      exact ⟨hg1, hg2⟩

theorem dispatch_next (a : Algorithm) (oz : Oz) (r : Algorithm × List Effect)
    (h : a.dispatch oz = some r) :
    (a._next = some Handler.wait →
      r.1._next = some Handler.wait ∨ r.1._next = some Handler.goStraightForPlow) ∧
    (a._next = some Handler.goStraightForPlow → r.1._next = some Handler.endPlow) ∧
    (a._next = some Handler.endPlow ∨ a._next = some Handler.turnOnNextLigne →
      r.1._next = some Handler.endPlow ∨ r.1._next = some Handler.turnOnNextLigne) := by
  simp only [Algorithm.dispatch] at h
  split at h
  · simp at h
  · rename_i hn
    simp only [Algorithm.wait] at h
    split at h <;> (rw [← Option.some.inj h]; simp [hn])
  · rename_i hn
    simp only [Algorithm.goStraightForPlow] at h
    rw [← Option.some.inj h]
    simp [hn]
  · rename_i hn
    simp only [Algorithm.endPlow] at h
    split at h
    · split at h <;> (rw [← Option.some.inj h]; simp [hn])
    · rw [(adjust_effects a oz r h).1]
      simp [hn]
  · rename_i hn
    simp only [Algorithm.turnOnNextLigne] at h
    repeat' split at h
    all_goals (rw [← Option.some.inj h]; simp [hn])

theorem update_next (P : Platform) (a : Algorithm) (oz : Oz) (delta_time : Int)
    (hn : a._next ≠ none) :
    ∃ r : Algorithm × List Effect, a.update P oz delta_time = some r ∧
      (a._next = some Handler.wait →
        r.1._next = some Handler.wait ∨ r.1._next = some Handler.goStraightForPlow) ∧
      (a._next = some Handler.goStraightForPlow → r.1._next = some Handler.endPlow) ∧
      (a._next = some Handler.endPlow ∨ a._next = some Handler.turnOnNextLigne →
        r.1._next = some Handler.endPlow ∨ r.1._next = some Handler.turnOnNextLigne) := by
  obtain ⟨r, hr, _, _⟩ := update_tick_spec P a oz delta_time hn
  refine ⟨r, hr, ?_⟩
  simp only [Algorithm.update] at hr
  split at hr
  · simp at hr
  · have key := dispatch_next _ oz r hr
    exact key

theorem run_late (P : Platform) (ticks : List (Oz × Int)) : ∀ a : Algorithm,
    (a._next = some Handler.endPlow ∨ a._next = some Handler.turnOnNextLigne) →
    ∃ r : Algorithm × List Effect, a.run P ticks = some r ∧
      (r.1._next = some Handler.endPlow ∨ r.1._next = some Handler.turnOnNextLigne) := by
  induction ticks with
  | nil =>
    intro a h
    exact ⟨(a, []), rfl, h⟩
  | cons t rest ih =>
    intro a h
    obtain ⟨oz, delta_time⟩ := t
    have hn : a._next ≠ none := by rcases h with h | h <;> simp [h]
    obtain ⟨r1, h1, _, _, hlate⟩ := update_next P a oz delta_time hn
    obtain ⟨r2, h2, hn2⟩ := ih r1.1 (hlate h)
    obtain ⟨a1, e1⟩ := r1
    obtain ⟨a2, e2⟩ := r2
    refine ⟨(a2, e1 ++ e2), ?_, hn2⟩
    simp only [Algorithm.run, h1]
    simp only at h2
    simp only [h2]

theorem run_append (P : Platform) (pre post : List (Oz × Int)) : ∀ (a : Algorithm)
    (r1 r2 : Algorithm × List Effect), a.run P pre = some r1 → r1.1.run P post = some r2 →
    a.run P (pre ++ post) = some (r2.1, r1.2 ++ r2.2) := by
  induction pre with
  | nil =>
    intro a r1 r2 h1 h2
    simp only [Algorithm.run, Option.some.injEq] at h1
    subst h1
    simpa using h2
  | cons t rest ih =>
    intro a r1 r2 h1 h2
    obtain ⟨oz, delta_time⟩ := t
    simp only [Algorithm.run, List.cons_append] at h1 ⊢
    cases hu : a.update P oz delta_time with
    | none => simp [hu] at h1
    | some u =>
      obtain ⟨a1, e1⟩ := u
      simp only [hu] at h1 ⊢
      cases hr : Algorithm.run P a1 rest with
      | none => simp [hr] at h1
      | some v =>
        obtain ⟨a2, e2⟩ := v
        simp only [hr, Option.some.injEq] at h1
        subst h1
        have := ih a1 (a2, e2) r2 hr h2
        simp only [List.append_eq, this, List.append_assoc]

theorem run_from_wait (P : Platform) (ticks : List (Oz × Int)) : ∀ a : Algorithm,
    a._next ≠ none → a._next ≠ some Handler.wait → ticks ≠ [] →
    ∃ r : Algorithm × List Effect, a.run P ticks = some r ∧
      (r.1._next = some Handler.endPlow ∨ r.1._next = some Handler.turnOnNextLigne) := by
  intro a hn hw ht
  cases ticks with
  | nil => exact absurd rfl ht
  | cons t rest =>
    obtain ⟨oz, delta_time⟩ := t
    obtain ⟨r1, h1, _, hgo, hlate⟩ := update_next P a oz delta_time hn
    have hr1 : r1.1._next = some Handler.endPlow ∨ r1.1._next = some Handler.turnOnNextLigne := by
      cases hnext : a._next with
      | none => exact absurd hnext hn
      | some hd =>
        cases hd with
        | wait => exact absurd hnext hw
        | goStraightForPlow => exact Or.inl (hgo hnext)
        | endPlow => exact hlate (Or.inl hnext)
        | turnOnNextLigne => exact hlate (Or.inr hnext)
    obtain ⟨r2, h2, hn2⟩ := run_late P rest r1.1 hr1
    obtain ⟨a1, e1⟩ := r1
    obtain ⟨a2, e2⟩ := r2
    refine ⟨(a2, e1 ++ e2), ?_, hn2⟩
    simp only [Algorithm.run, h1]
    simp only at h2
    simp only [h2]

theorem getNextFunctionName_known (a : Algorithm) (h : a._next ≠ none) :
    a.getNextFunctionName ≠ "unknown" ∧
    (a.getNextFunctionName = "wait" ∨ a.getNextFunctionName = "goStraightForPlow" ∨
      a.getNextFunctionName = "endPlow" ∨ a.getNextFunctionName = "turnOnNextLigne") := by
  cases hnext : a._next with
  | none => exact absurd hnext h
  | some hd =>
    cases hd <;> simp [Algorithm.getNextFunctionName, hnext]

theorem scan_body_seed_near {st st2 : scan_state} {i : Nat}
    (h : Scanner.scan_body st i = some st2)
    (hs : ∀ sl ∈ st.sub_lines_buffer, ∃ seed : point, sl.head? = some seed ∧
      euclidean_distance ⟨0, 0, ClusterTag.unbound⟩ seed ≤ 1000) :
    ∀ sl ∈ st2.sub_lines_buffer, ∃ seed : point, sl.head? = some seed ∧
      euclidean_distance ⟨0, 0, ClusterTag.unbound⟩ seed ≤ 1000 := by
  simp only [Scanner.scan_body] at h
  cases hpt : st.self._world[i]? with
  | none => simp [hpt] at h
  | some pt =>
    simp only [hpt] at h
    split at h
    · obtain rfl := Option.some.inj h
      exact hs
    · rename_i hcond
      have hu : pt.cluster = ClusterTag.unbound := by
        by_contra hne
        exact hcond (Or.inl hne)
      have hnear : euclidean_distance ⟨0, 0, ClusterTag.unbound⟩ pt ≤ 1000 :=
        not_lt.mp (fun hg => hcond (Or.inr hg))
      cases hoc : st.self.open_cluster i pt st.current_id with
      | none => simp [hoc] at h
      | some r =>
        obtain ⟨s2, c⟩ := r
        simp only [hoc, Option.some.injEq] at h
        obtain ⟨added, hc, _⟩ := open_cluster_rel hpt hu hoc
        subst hc
        subst h
        intro sl hsl
        simp only at hsl
        split at hsl
        · exact hs sl hsl
        · rcases List.mem_append.mp hsl with hsl | hsl
          · exact hs sl hsl
          · rw [List.mem_singleton.mp hsl]
            exact ⟨_, rfl, hnear⟩

theorem scan_loop_seed_near (idxs : List Nat) : ∀ (st st2 : scan_state),
    Scanner.scan_loop idxs st = some st2 →
    (∀ sl ∈ st.sub_lines_buffer, ∃ seed : point, sl.head? = some seed ∧
      euclidean_distance ⟨0, 0, ClusterTag.unbound⟩ seed ≤ 1000) →
    ∀ sl ∈ st2.sub_lines_buffer, ∃ seed : point, sl.head? = some seed ∧
      euclidean_distance ⟨0, 0, ClusterTag.unbound⟩ seed ≤ 1000 := by
  induction idxs with
  | nil =>
    intro st st2 h hs
    simp only [Scanner.scan_loop, Option.some.injEq] at h
    subst h
    exact hs
  | cons i rest ih =>
    intro st st2 h hs
    simp only [Scanner.scan_loop] at h
    cases hb : Scanner.scan_body st i with
    | none => simp [hb] at h
    | some st1 =>
      simp only [hb] at h
      exact ih _ _ h (scan_body_seed_near hb hs)

theorem update_seed_near (P : Platform) (s s2 : Scanner) (capture : List Nat)
    (h : s.update P capture = some s2) :
    ∀ sl ∈ s2._sub_lines, ∃ seed : point, sl.head? = some seed ∧
      euclidean_distance ⟨0, 0, ClusterTag.unbound⟩ seed ≤ 1000 := by
  simp only [Scanner.update, Scanner.scan_sub_lines] at h
  split at h
  · simp at h
  · rename_i st hl
    rw [← Option.some.inj h]
    exact scan_loop_seed_near _ _ _ hl (by simp)

theorem expand_loop_succ (budget : Nat) (s : Scanner) (cluster : cluster_info) (it : Nat)
    (rest : List Nat) :
    Scanner.expand_loop (budget + 1) s cluster (it :: rest) =
      match s.expand_next cluster it rest with
      | none => none
      | some (s2, c2, wl2) => Scanner.expand_loop budget s2 c2 wl2 := by
  simp only [Scanner.expand_loop, Scanner.expand_next]
  cases hpt : s._world[it]? with
  | none => rfl
  | some pt_n =>
    simp only []
    split
    · rfl
    · split
      · rename_i hnone
        simp only [hnone]
      · rename_i last hlast
        simp only [hlast]

theorem expand_loop_invariant (Inv : Scanner → cluster_info → List Nat → Prop)
    (hstep : ∀ (s : Scanner) (c : cluster_info) (it : Nat) (rest : List Nat) (s2 : Scanner)
      (c2 : cluster_info) (wl2 : List Nat), Inv s c (it :: rest) →
      s.expand_next c it rest = some (s2, c2, wl2) → Inv s2 c2 wl2)
    (budget : Nat) : ∀ (s : Scanner) (c : cluster_info) (wl : List Nat) (s2 : Scanner)
      (c2 : cluster_info), Inv s c wl → Scanner.expand_loop budget s c wl = some (s2, c2) →
      Inv s2 c2 [] := by
  induction budget with
  | zero =>
    intro s c wl s2 c2 hinv h
    cases wl with
    | nil =>
      simp only [Scanner.expand_loop, Option.some.injEq, Prod.mk.injEq] at h
      obtain ⟨rfl, rfl⟩ := h
      exact hinv
    | cons it rest => simp [Scanner.expand_loop] at h
  | succ budget ih =>
    intro s c wl s2 c2 hinv h
    cases wl with
    | nil =>
      simp only [Scanner.expand_loop, Option.some.injEq, Prod.mk.injEq] at h
      obtain ⟨rfl, rfl⟩ := h
      exact hinv
    | cons it rest =>
      rw [expand_loop_succ] at h
      cases hn : s.expand_next c it rest with
      | none => simp [hn] at h
      | some r =>
        obtain ⟨s1, c1, wl1⟩ := r
        simp only [hn] at h
        exact ih s1 c1 wl1 s2 c2 (hstep s c it rest s1 c1 wl1 hinv hn) h

theorem chained_append_singleton {epsilon : ℚ} {l : List point} {p q : point}
    (hl : chained epsilon l) (hp : p ∈ l)
    (hnear : euclidean_distance p q < epsilon) : chained epsilon (l ++ [q]) := by
  intro i r hi hr
  by_cases hlt : i < l.length
  · rw [List.getElem?_append_left hlt] at hr
    obtain ⟨j, p2, hj, hp2, hn⟩ := hl i r hi hr
    exact ⟨j, p2, hj, by rw [List.getElem?_append_left (by omega)]; exact hp2, hn⟩
  · have hlen : i = l.length := by
      have h1 := (List.getElem?_eq_some_iff.mp hr).1
      simp only [List.length_append, List.length_singleton] at h1
      omega
    subst hlen
    have hrq : r = q := by
      rw [List.getElem?_append_right (le_refl _)] at hr
      simpa using hr.symm
    subst hrq
    obtain ⟨j, hj⟩ := List.mem_iff_getElem?.mp hp
    have hjl : j < l.length := (List.getElem?_eq_some_iff.mp hj).1
    exact ⟨j, p, hjl, by rw [List.getElem?_append_left hjl]; exact hj, hnear⟩

theorem chained_singleton (epsilon : ℚ) (p : point) : chained epsilon [p] := by
  intro i q hi hq
  have := (List.getElem?_eq_some_iff.mp hq).1
  simp only [List.length_singleton] at this
  omega

theorem neighbors_of_near (s : Scanner) (origin : point) {i : Nat}
    (h : i ∈ s.neighbors_of origin) :
    ∃ q : point, s._world[i]? = some q ∧ q.cluster = ClusterTag.unbound ∧
      euclidean_distance origin q < s._epsilon := by
  have h2 := (List.mem_filter.mp h).2
  cases hq : s._world[i]? with
  | none => simp [hq] at h2
  | some q =>
    simp only [hq] at h2
    by_cases hu : q.cluster = ClusterTag.unbound
    · simp only [hu, ne_eq, not_true_eq_false, if_false] at h2
      exact ⟨q, rfl, hu, of_decide_eq_true h2⟩
    · simp [hu] at h2

theorem expand_next_chained (s : Scanner) (c : cluster_info) (it : Nat) (rest : List Nat)
    (s2 : Scanner) (c2 : cluster_info) (wl2 : List Nat)
    (hinv : chained s._epsilon c.points ∧ ∀ i ∈ it :: rest, ∀ q, s._world[i]? = some q →
      ∃ p ∈ c.points, euclidean_distance p q < s._epsilon)
    (h : s.expand_next c it rest = some (s2, c2, wl2)) :
    chained s2._epsilon c2.points ∧ ∀ i ∈ wl2, ∀ q, s2._world[i]? = some q →
      ∃ p ∈ c2.points, euclidean_distance p q < s2._epsilon := by
  obtain ⟨hch, hwl⟩ := hinv
  simp only [Scanner.expand_next] at h
  cases hpt : s._world[it]? with
  | none => simp [hpt] at h
  | some pt_n =>
    simp only [hpt] at h
    split at h
    · simp only [Option.some.injEq, Prod.mk.injEq] at h
      obtain ⟨rfl, rfl, rfl⟩ := h
      exact ⟨hch, fun i hi q hq => hwl i (List.mem_cons_of_mem _ hi) q hq⟩
    · split at h
      · simp at h
      · simp only [Option.some.injEq, Prod.mk.injEq] at h
        obtain ⟨rfl, rfl, rfl⟩ := h
        obtain ⟨p0, hp0, hnear0⟩ := hwl it (List.mem_cons_self _ _) pt_n hpt
        refine ⟨chained_append_singleton hch hp0 hnear0, ?_⟩
        intro i hi q hq
        simp only at hq ⊢
        rcases List.mem_append.mp hi with hi | hi
        · by_cases hii : it = i
          · subst hii
            have hlt : it < s._world.length := (List.getElem?_eq_some_iff.mp hpt).1
            rw [List.getElem?_set_self hlt] at hq
            rw [← Option.some.inj hq]
            exact ⟨p0, List.mem_append_left _ hp0, hnear0⟩
          · rw [List.getElem?_set_ne hii] at hq
            obtain ⟨p, hp, hn⟩ := hwl i (List.mem_cons_of_mem _ hi) q hq
            exact ⟨p, List.mem_append_left _ hp, hn⟩
        · have hi2 := (List.dropWhile_sublist _).subset hi
          obtain ⟨q2, hq2, _, hn⟩ := neighbors_of_near _ _ hi2
          simp only at hq2 hn
          rw [hq2] at hq
          rw [← Option.some.inj hq]
          exact ⟨_, List.mem_append_right _ (List.mem_singleton_self _), hn⟩

theorem open_cluster_chained {s s2 : Scanner} {i : Nat} {pt : point} {k : Nat}
    {c : cluster_info} (hpt : s._world[i]? = some pt)
    (h : s.open_cluster i pt k = some (s2, c)) : chained s2._epsilon c.points := by
  simp only [Scanner.open_cluster, Scanner.expand] at h
  refine (expand_loop_invariant
    (fun s c wl => chained s._epsilon c.points ∧ ∀ i ∈ wl, ∀ q, s._world[i]? = some q →
      ∃ p ∈ c.points, euclidean_distance p q < s._epsilon)
    expand_next_chained _ _ _ _ _ _ ?_ h).1
  refine ⟨chained_singleton _ _, ?_⟩
  intro j hj q hq
  obtain ⟨q0, hq0, _, hn⟩ := neighbors_of_near s pt hj
  simp only at hq
  refine ⟨_, List.mem_singleton_self _, ?_⟩
  by_cases hij : i = j
  · subst hij
    have hlt : i < s._world.length := (List.getElem?_eq_some_iff.mp hpt).1
    rw [List.getElem?_set_self hlt] at hq
    rw [← Option.some.inj hq]
    rw [hpt] at hq0
    rw [← Option.some.inj hq0] at hn
    exact hn
  · rw [List.getElem?_set_ne hij, hq0] at hq
    rw [← Option.some.inj hq]
    exact hn

theorem scan_body_chained {st st2 : scan_state} {i : Nat}
    (h : Scanner.scan_body st i = some st2)
    (hs : ∀ sl ∈ st.sub_lines_buffer, chained st.self._epsilon sl) :
    ∀ sl ∈ st2.sub_lines_buffer, chained st2.self._epsilon sl := by
  have heps := (scan_body_rel h).epsilon
  rw [heps]
  simp only [Scanner.scan_body] at h
  cases hpt : st.self._world[i]? with
  | none => simp [hpt] at h
  | some pt =>
    simp only [hpt] at h
    split at h
    · obtain rfl := Option.some.inj h
      exact hs
    · cases hoc : st.self.open_cluster i pt st.current_id with
      | none => simp [hoc] at h
      | some r =>
        obtain ⟨s2, c⟩ := r
        simp only [hoc, Option.some.injEq] at h
        have hch := open_cluster_chained hpt hoc
        subst h
        simp only at heps
        rw [heps] at hch
        intro sl hsl
        simp only at hsl
        split at hsl
        · exact hs sl hsl
        · rcases List.mem_append.mp hsl with hsl | hsl
          · exact hs sl hsl
          · rw [List.mem_singleton.mp hsl]
            exact hch

theorem scan_loop_chained (idxs : List Nat) : ∀ (st st2 : scan_state),
    Scanner.scan_loop idxs st = some st2 →
    (∀ sl ∈ st.sub_lines_buffer, chained st.self._epsilon sl) →
    ∀ sl ∈ st2.sub_lines_buffer, chained st2.self._epsilon sl := by
  induction idxs with
  | nil =>
    intro st st2 h hs
    simp only [Scanner.scan_loop, Option.some.injEq] at h
    subst h
    exact hs
  | cons i rest ih =>
    intro st st2 h hs
    simp only [Scanner.scan_loop] at h
    cases hb : Scanner.scan_body st i with
    | none => simp [hb] at h
    | some st1 =>
      simp only [hb] at h
      exact ih _ _ h (scan_body_chained hb hs)

theorem update_chained (P : Platform) (s s2 : Scanner) (capture : List Nat)
    (h : s.update P capture = some s2) :
    ∀ sl ∈ s2._sub_lines, chained s2._epsilon sl := by
  simp only [Scanner.update, Scanner.scan_sub_lines] at h
  split at h
  · simp at h
  · rename_i st hl
    rw [← Option.some.inj h]
    exact scan_loop_chained _ _ _ hl (by simp)

theorem sorted_set {w : List point} {i : Nat} {p : point} (t : ClusterTag)
    (hp : w[i]? = some p) (hs : w.Pairwise (fun a b => point.lt b a = false)) :
    (w.set i { p with cluster := t }).Pairwise (fun a b => point.lt b a = false) := by
  have hmap : (w.set i { p with cluster := t }).map point.coords = w.map point.coords := by
    apply List.ext_getElem?
    intro j
    simp only [List.getElem?_map]
    by_cases hij : i = j
    · subst hij
      have hlt : i < w.length := (List.getElem?_eq_some_iff.mp hp).1
      rw [List.getElem?_set_self hlt, hp]
      rfl
    · rw [List.getElem?_set_ne hij]
  have key : ∀ l : List point, l.Pairwise (fun a b => point.lt b a = false) ↔
      (l.map point.coords).Pairwise
        (fun c d => point.lt ⟨d.1, d.2, ClusterTag.unbound⟩ ⟨c.1, c.2, ClusterTag.unbound⟩ = false) := by
    intro l
    rw [List.pairwise_map]
    exact Iff.rfl
  rw [key, hmap, ← key]
  exact hs

theorem sorted_lt_index {w : List point} (hs : w.Pairwise (fun a b => point.lt b a = false))
    {a j : Nat} {p q : point} (hp : w[a]? = some p) (hq : w[j]? = some q)
    (hlt : point.lt p q = true) : a < j := by
  by_contra hn
  have hja : j ≤ a := not_lt.mp hn
  obtain ⟨ha, hpa⟩ := List.getElem?_eq_some_iff.mp hp
  obtain ⟨hj, hqj⟩ := List.getElem?_eq_some_iff.mp hq
  rcases Nat.lt_or_eq_of_le hja with h | h
  · have := (List.pairwise_iff_getElem.mp hs) j a hj ha h
    rw [hpa, hqj] at this
    rw [this] at hlt
    exact Bool.false_ne_true hlt
  · subst h
    rw [hp] at hq
    have hpq : p = q := Option.some.inj hq
    subst hpq
    simp [point.lt] at hlt

theorem le_getLast_of_increasing : ∀ (l : List Nat) (hne : l ≠ []),
    l.Pairwise (fun a b => a < b) → ∀ a ∈ l, a ≤ l.getLast hne := by
  intro l
  induction l with
  | nil => intro hne; exact absurd rfl hne
  | cons x rest ih =>
    intro hne hp a ha
    cases rest with
    | nil =>
      simp only [List.mem_singleton] at ha
      simp [ha]
    | cons y tl =>
      rw [List.getLast_cons (List.cons_ne_nil y tl)]
      have hp2 := List.Pairwise.of_cons hp
      rcases List.mem_cons.mp ha with rfl | ha
      · have hay : a < y := List.rel_of_pairwise_cons hp (List.mem_cons_self _ _)
        have := ih (List.cons_ne_nil y tl) hp2 y (List.mem_cons_self _ _)
        omega
      · exact ih (List.cons_ne_nil y tl) hp2 a ha

theorem neighbors_of_increasing (s : Scanner) (origin : point) :
    (s.neighbors_of origin).Pairwise (fun a b => a < b) := by
  simp only [Scanner.neighbors_of]
  exact List.Pairwise.filter _ (List.pairwise_lt_range _)

theorem point_lt_iff_key (p q : point) : p.lt q = true ↔ p.key < q.key := by
  rw [point_lt_iff]
  simp only [point.key, Prod.Lex.lt_iff]

theorem point_lt_of_lt_of_not_lt {p c q : point} (h1 : p.lt c = true) (h2 : q.lt c = false) :
    p.lt q = true := by
  rw [point_lt_iff_key] at h1 ⊢
  have h3 : ¬ q.key < c.key := by
    rw [← point_lt_iff_key, h2]
    exact Bool.false_ne_true
  exact lt_of_lt_of_le h1 (not_lt.mp h3)

theorem dropWhile_gt {w : List point} (hs : w.Pairwise (fun a b => point.lt b a = false))
    {a : Nat} {last : point} (hlast : w[a]? = some last) (l : List Nat)
    (hl : l.Pairwise (fun x y => x < y)) (hv : ∀ j ∈ l, j < w.length) :
    ∀ j ∈ l.dropWhile (fun current =>
        match w[current]? with
        | none => true
        | some c => !(point.lt last c)),
      a < j ∧ ∃ q, w[j]? = some q ∧ point.lt last q = true := by
  induction l with
  | nil => simp
  | cons x rest ih =>
    intro j hj
    rw [List.dropWhile_cons] at hj
    split at hj
    · exact ih (List.Pairwise.of_cons hl) (fun j hj => hv j (List.mem_cons_of_mem _ hj)) j hj
    · rename_i hx
      cases hwx : w[x]? with
      | none => simp [hwx] at hx
      | some c =>
        simp only [hwx, Bool.not_eq_true', Bool.not_eq_false] at hx
        have hax : a < x := sorted_lt_index hs hlast hwx hx
        rcases List.mem_cons.mp hj with rfl | hj2
        · exact ⟨hax, c, hwx, hx⟩
        · have hxj : x < j := List.rel_of_pairwise_cons hl hj2
          have hjl : j < w.length := hv j (List.mem_cons_of_mem _ hj2)
          have hxl : x < w.length := (List.getElem?_eq_some_iff.mp hwx).1
          have hq : w[j]? = some (w.get ⟨j, hjl⟩) := List.getElem?_eq_getElem hjl
          refine ⟨by omega, _, hq, ?_⟩
          have hsorted := (List.pairwise_iff_getElem.mp hs) x j hxl hjl hxj
          have hc : w[x] = c := (List.getElem?_eq_some_iff.mp hwx).2
          rw [hc] at hsorted
          exact point_lt_of_lt_of_not_lt hx hsorted

theorem bound_refs_cons (w : List point) (i : Nat) (rest : List Nat) :
    bound_refs w (i :: rest) =
      (match w[i]? with
        | none => 0
        | some p => if p.bound = true then 1 else 0) + bound_refs w rest := by
  simp only [bound_refs, List.filter_cons]
  cases hw : w[i]? with
  | none => simp
  | some p =>
    simp only []
    split
    · simp only [List.length_cons]
      omega
    · simp

theorem bound_refs_append (w : List point) (l1 l2 : List Nat) :
    bound_refs w (l1 ++ l2) = bound_refs w l1 + bound_refs w l2 := by
  simp [bound_refs, List.filter_append]

theorem bound_refs_set (w : List point) (i : Nat) (q : point) (l : List Nat) (hi : i ∉ l) :
    bound_refs (w.set i q) l = bound_refs w l := by
  simp only [bound_refs]
  congr 1
  apply List.filter_congr
  intro j hj
  have hij : i ≠ j := fun h => hi (h ▸ hj)
  rw [List.getElem?_set_ne hij]

theorem bound_refs_neighbors (s : Scanner) (origin : point) (l : List Nat)
    (hl : ∀ j ∈ l, j ∈ s.neighbors_of origin) : bound_refs s._world l = 0 := by
  simp only [bound_refs, List.length_eq_zero]
  apply List.filter_eq_nil_iff.mpr
  intro j hj
  obtain ⟨q, hq, hu, _⟩ := neighbors_of_near s origin (hl j hj)
  simp [hq, point.bound, hu]

theorem expand_next_worklist (K : Nat) (s : Scanner) (c : cluster_info) (it : Nat)
    (rest : List Nat) (s2 : Scanner) (c2 : cluster_info) (wl2 : List Nat)
    (hinv : worklist_inv K s (it :: rest))
    (h : s.expand_next c it rest = some (s2, c2, wl2)) :
    worklist_inv K s2 wl2 ∧
    ∃ appended : List Nat, wl2 = rest ++ appended ∧
      ∀ j ∈ appended, (it :: rest).getLast (List.cons_ne_nil it rest) < j ∧
        ∃ last q : point,
          s2._world[(it :: rest).getLast (List.cons_ne_nil it rest)]? = some last ∧
          s2._world[j]? = some q ∧ point.lt last q = true := by
  have hitrest : it ∉ rest := fun hmem =>
    lt_irrefl it (List.rel_of_pairwise_cons hinv.increasing hmem)
  have hrest := List.Pairwise.of_cons hinv.increasing
  have hcount := hinv.count
  rw [bound_refs_cons] at hcount
  simp only [Scanner.expand_next] at h
  cases hpt : s._world[it]? with
  | none => simp [hpt] at h
  | some pt_n =>
    simp only [hpt] at h hcount
    split at h
    · rename_i hb
      simp only [Option.some.injEq, Prod.mk.injEq] at h
      obtain ⟨rfl, rfl, rfl⟩ := h
      refine ⟨⟨hinv.sorted, hrest, fun i hi => hinv.valid i (List.mem_cons_of_mem _ hi), ?_⟩,
        [], by simp, by simp⟩
      have hbb : pt_n.bound = true := by simpa [point.bound] using hb
      simp only [hbb, if_true] at hcount
      simp only
      omega
    · rename_i hb
      have hu : pt_n.cluster = ClusterTag.unbound := by
        by_contra hne
        exact hb hne
      split at h
      · simp at h
      · rename_i last hlast
        simp only [Option.some.injEq, Prod.mk.injEq] at h
        obtain ⟨rfl, rfl, rfl⟩ := h
        have hsorted2 := sorted_set (ClusterTag.id c.id) hpt hinv.sorted
        have hlen : (s._world.set it { pt_n with cluster := ClusterTag.id c.id }).length =
            s._world.length := List.length_set _ _ _
        have hnew := dropWhile_gt hsorted2 hlast
          (Scanner.neighbors_of
            { s with _iterations_count := s._iterations_count + 1,
                     _world := s._world.set it { pt_n with cluster := ClusterTag.id c.id } }
            { pt_n with cluster := ClusterTag.id c.id })
          (neighbors_of_increasing _ _) (fun j hj => neighbors_of_lt _ _ hj)
        refine ⟨⟨hsorted2, ?_, ?_, ?_⟩, _, rfl, ?_⟩
        · rw [List.pairwise_append]
          refine ⟨hrest, (neighbors_of_increasing _ _).sublist (List.dropWhile_sublist _), ?_⟩
          intro a ha b hb2
          have h1 := le_getLast_of_increasing (it :: rest) (List.cons_ne_nil it rest)
            hinv.increasing a (List.mem_cons_of_mem _ ha)
          have h2 := (hnew b hb2).1
          omega
        · intro i hi
          simp only at hi ⊢
          rw [hlen]
          rcases List.mem_append.mp hi with hi | hi
          · exact hinv.valid i (List.mem_cons_of_mem _ hi)
          · have := neighbors_of_lt _ _ ((List.dropWhile_sublist _).subset hi)
            simpa using this
        · simp only
          rw [bound_refs_append, bound_refs_set _ _ _ _ hitrest,
            bound_refs_neighbors
              { s with _iterations_count := s._iterations_count + 1,
                       _world := s._world.set it { pt_n with cluster := ClusterTag.id c.id } }
              { pt_n with cluster := ClusterTag.id c.id } _
              (fun j hj => (List.dropWhile_sublist _).subset hj)]
          have hbb : pt_n.bound = false := by simp [point.bound, hu]
          simp only [hbb, Bool.false_eq_true, if_false] at hcount
          have hc := unbound_count_set (q := { pt_n with cluster := ClusterTag.id c.id })
            hpt hu (by simp)
          omega
        · intro j hj
          obtain ⟨h1, q, hq, hlt⟩ := hnew j hj
          exact ⟨h1, last, q, hlast, hq, hlt⟩

theorem bound_refs_seed {w : List point} {i : Nat} {q : point} {l : List Nat}
    (hq : q.bound = true) (hi : i < w.length) (hmem : i ∈ l)
    (hl : l.Pairwise (fun a b => a < b))
    (hu : ∀ j ∈ l, ∃ p, w[j]? = some p ∧ p.cluster = ClusterTag.unbound) :
    bound_refs (w.set i q) l = 1 := by
  have hnd : l.Nodup := hl.imp (fun h => Nat.ne_of_lt h)
  have hb : bound_refs (w.set i q) l = (l.filter (fun j => j == i)).length := by
    unfold bound_refs
    congr 1
    apply List.filter_congr
    intro j hj
    by_cases hij : i = j
    · subst hij
      rw [List.getElem?_set_self hi]
      simp [hq]
    · rw [List.getElem?_set_ne hij]
      obtain ⟨p, hp, hpu⟩ := hu j hj
      have hji : (j == i) = false := by simpa using fun h => hij h.symm
      simp [hp, point.bound, hpu, hji]
  rw [hb, ← List.countP_eq_length_filter]
  exact List.count_eq_one_of_mem hnd hmem

theorem seed_mem_neighbors_of {s : Scanner} {i : Nat} {pt : point}
    (hpt : s._world[i]? = some pt) (hu : pt.cluster = ClusterTag.unbound)
    (heps : 0 < s._epsilon) : i ∈ s.neighbors_of pt := by
  simp only [Scanner.neighbors_of, List.mem_filter, List.mem_range]
  refine ⟨(List.getElem?_eq_some_iff.mp hpt).1, ?_⟩
  simp only [hpt, hu, ne_eq, not_true_eq_false, if_false, decide_eq_true_eq,
    euclidean_distance_self]
  exact heps

theorem open_cluster_count {s s2 : Scanner} {i : Nat} {pt : point} {k : Nat}
    {c : cluster_info} (hs : s._world.Pairwise (fun a b => point.lt b a = false))
    (hpt : s._world[i]? = some pt) (hu : pt.cluster = ClusterTag.unbound)
    (h : s.open_cluster i pt k = some (s2, c)) :
    s2._world.Pairwise (fun a b => point.lt b a = false) ∧
    (0 < s._epsilon →
      s2._iterations_count + unbound_count s2._world =
        s._iterations_count + unbound_count s._world) := by
  simp only [Scanner.open_cluster, Scanner.expand] at h
  have hlt : i < s._world.length := (List.getElem?_eq_some_iff.mp hpt).1
  have hsorted := sorted_set (ClusterTag.id k) hpt hs
  have hinv0 : worklist_inv
      (s._iterations_count +
        unbound_count (s._world.set i { pt with cluster := ClusterTag.id k }) +
        bound_refs (s._world.set i { pt with cluster := ClusterTag.id k }) (s.neighbors_of pt))
      { s with _world := s._world.set i { pt with cluster := ClusterTag.id k } }
      (s.neighbors_of pt) :=
    ⟨hsorted, neighbors_of_increasing s pt,
      fun j hj => by simpa using neighbors_of_lt s pt hj, rfl⟩
  have hfin := expand_loop_invariant
    (fun s c wl => worklist_inv
      (_ + unbound_count _ + bound_refs _ _) s wl)
    (fun s c it rest s2 c2 wl2 hinv hn =>
      (expand_next_worklist _ s c it rest s2 c2 wl2 hinv hn).1) _ _ _ _ _ _ hinv0 h
  refine ⟨hfin.sorted, fun heps => ?_⟩
  have hcount := hfin.count
  have hseed := bound_refs_seed (w := s._world) (i := i)
    (q := { pt with cluster := ClusterTag.id k }) (l := s.neighbors_of pt)
    (by simp [point.bound]) hlt (seed_mem_neighbors_of hpt hu heps)
    (neighbors_of_increasing s pt)
    (fun j hj => by
      obtain ⟨q, hq, hqu, _⟩ := neighbors_of_near s pt hj
      exact ⟨q, hq, hqu⟩)
  have hc := unbound_count_set (q := { pt with cluster := ClusterTag.id k }) hpt hu (by simp)
  rw [hseed] at hcount
  simp only [bound_refs, List.filter_nil, List.length_nil] at hcount
  omega

theorem bound_add_unbound (w : List point) :
    (w.filter point.bound).length + unbound_count w = w.length := by
  induction w with
  | nil => rfl
  | cons p w ih =>
    simp only [unbound_count, List.filter_cons, point.bound] at ih ⊢
    by_cases hu : p.cluster = ClusterTag.unbound
    · simp only [hu, ne_eq, not_true_eq_false, decide_False, decide_True, if_true,
        List.length_cons]
      simp only [Bool.false_eq_true, if_false]
      omega
    · simp only [hu, ne_eq, not_false_eq_true, decide_True, decide_False, if_true,
        List.length_cons]
      simp only [Bool.false_eq_true, if_false]
      omega

theorem unbound_count_of_unbound (w : List point)
    (h : ∀ p ∈ w, p.cluster = ClusterTag.unbound) : unbound_count w = w.length := by
  simp only [unbound_count]
  rw [List.filter_eq_self.mpr]
  intro p hp
  simp [h p hp]

theorem scan_body_count {st st2 : scan_state} {i : Nat}
    (h : Scanner.scan_body st i = some st2) (heps : 0 < st.self._epsilon)
    (hs : st.self._world.Pairwise (fun a b => point.lt b a = false)) :
    st2.self._world.Pairwise (fun a b => point.lt b a = false) ∧
    st2.self._iterations_count + unbound_count st2.self._world =
      st.self._iterations_count + unbound_count st.self._world := by
  simp only [Scanner.scan_body] at h
  cases hpt : st.self._world[i]? with
  | none => simp [hpt] at h
  | some pt =>
    simp only [hpt] at h
    split at h
    · obtain rfl := Option.some.inj h
      exact ⟨hs, rfl⟩
    · rename_i hcond
      have hu : pt.cluster = ClusterTag.unbound := by
        by_contra hne
        exact hcond (Or.inl hne)
      cases hoc : st.self.open_cluster i pt st.current_id with
      | none => simp [hoc] at h
      | some r =>
        obtain ⟨s2, c⟩ := r
        simp only [hoc, Option.some.injEq] at h
        obtain ⟨hs2, hc⟩ := open_cluster_count hs hpt hu hoc
        subst h
        exact ⟨hs2, hc heps⟩

theorem scan_loop_count (idxs : List Nat) : ∀ (st st2 : scan_state),
    Scanner.scan_loop idxs st = some st2 → 0 < st.self._epsilon →
    st.self._world.Pairwise (fun a b => point.lt b a = false) →
    st2.self._iterations_count + unbound_count st2.self._world =
      st.self._iterations_count + unbound_count st.self._world := by
  induction idxs with
  | nil =>
    intro st st2 h _ _
    simp only [Scanner.scan_loop, Option.some.injEq] at h
    subst h
    rfl
  | cons i rest ih =>
    intro st st2 h heps hs
    simp only [Scanner.scan_loop] at h
    cases hb : Scanner.scan_body st i with
    | none => simp [hb] at h
    | some st1 =>
      simp only [hb] at h
      obtain ⟨hs1, hc1⟩ := scan_body_count hb heps hs
      have heps1 : 0 < st1.self._epsilon := by
        rw [(scan_body_rel hb).epsilon]
        exact heps
      rw [ih _ _ h heps1 hs1, hc1]

theorem update_count (P : Platform) (s s2 : Scanner) (capture : List Nat)
    (h : s.update P capture = some s2) (heps : 0 < s._epsilon) :
    s2._iterations_count = (s2._world.filter point.bound).length := by
  have hlen : s2._world.length = (s.agglomerate P capture)._world.length := by
    obtain ⟨st, hup, _, hrel⟩ := update_spec P s capture
    rw [hup] at h
    rw [← Option.some.inj h]
    exact hrel.world.1
  simp only [Scanner.update, Scanner.scan_sub_lines] at h
  split at h
  · simp at h
  · rename_i st hl
    have hsorted : (s.agglomerate P capture)._world.Pairwise
        (fun a b => point.lt b a = false) := by
      simp only [Scanner.agglomerate]
      exact P.sort_sorted _
    have hc := scan_loop_count _ _ _ hl heps hsorted
    simp only [Nat.zero_add] at hc
    rw [unbound_count_of_unbound _ (agglomerate_unbound P s capture)] at hc
    rw [← Option.some.inj h] at hlen ⊢
    simp only at hlen ⊢
    have := bound_add_unbound st.self._world
    omega

theorem turn_thresholds :
    binary64.mul (binary64.round 6.645) 2.0 < binary64.mul (binary64.round 6.645) 4.0 ∧
    binary64.mul (binary64.round 6.645) 4.0 < binary64.mul (binary64.round 6.465) 11.0 ∧
    binary64.mul (binary64.round 6.465) 11.0 < binary64.mul (binary64.round 6.465) 16.0 := by
  decide!

theorem turn_bands (a : Algorithm) (oz : Oz) (h : a._next = some Handler.turnOnNextLigne)
    (hr : a._startTurn ≠ -1) :
    (binary64.sub oz.odo_distance a._startTurn < binary64.mul (binary64.round 6.645) 2.0 →
      a.dispatch oz = some (a, [Effect.motor_setSpeed 125])) ∧
    (¬ binary64.sub oz.odo_distance a._startTurn < binary64.mul (binary64.round 6.645) 2.0 →
      binary64.sub oz.odo_distance a._startTurn < binary64.mul (binary64.round 6.645) 4.0 →
      a.dispatch oz = some (a, [Effect.motor_setAngle 125, Effect.motor_setSpeed 125])) ∧
    (¬ binary64.sub oz.odo_distance a._startTurn < binary64.mul (binary64.round 6.645) 4.0 →
      binary64.sub oz.odo_distance a._startTurn < binary64.mul (binary64.round 6.465) 11.0 →
      a.dispatch oz =
        some (a, [Effect.motor_setAngle (-125), Effect.motor_setSpeed (-125)])) ∧
    (¬ binary64.sub oz.odo_distance a._startTurn < binary64.mul (binary64.round 6.465) 11.0 →
      binary64.sub oz.odo_distance a._startTurn < binary64.mul (binary64.round 6.465) 16.0 →
      a.dispatch oz = some (a, [Effect.motor_setAngle 125, Effect.motor_setSpeed 125])) ∧
    (¬ binary64.sub oz.odo_distance a._startTurn < binary64.mul (binary64.round 6.465) 16.0 →
      a.dispatch oz = some ({ a with _next := some Handler.endPlow }, [])) := by
  obtain ⟨t12, t23, t34⟩ := turn_thresholds
  simp only [Algorithm.dispatch, h, Algorithm.turnOnNextLigne, hr, if_false]
  refine ⟨?_, ?_, ?_, ?_, ?_⟩
  · intro h1
    simp only [h1, if_true]
  · intro h1 h2
    simp only [h1, h2, if_true, if_false]
  · intro h2 h3
    have h1 : ¬ binary64.sub oz.odo_distance a._startTurn <
        binary64.mul (binary64.round 6.645) 2.0 := fun hlt => h2 (lt_trans hlt t12)
    simp only [h1, h2, h3, if_true, if_false]
  · intro h3 h4
    have h2 : ¬ binary64.sub oz.odo_distance a._startTurn <
        binary64.mul (binary64.round 6.645) 4.0 := fun hlt => h3 (lt_trans hlt t23)
    have h1 : ¬ binary64.sub oz.odo_distance a._startTurn <
        binary64.mul (binary64.round 6.645) 2.0 := fun hlt => h2 (lt_trans hlt t12)
    simp only [h1, h2, h3, h4, if_true, if_false]
  · intro h4
    have h3 : ¬ binary64.sub oz.odo_distance a._startTurn <
        binary64.mul (binary64.round 6.465) 11.0 := fun hlt => h4 (lt_trans hlt t34)
    have h2 : ¬ binary64.sub oz.odo_distance a._startTurn <
        binary64.mul (binary64.round 6.645) 4.0 := fun hlt => h3 (lt_trans hlt t23)
    have h1 : ¬ binary64.sub oz.odo_distance a._startTurn <
        binary64.mul (binary64.round 6.645) 2.0 := fun hlt => h2 (lt_trans hlt t12)
    simp only [h1, h2, h3, h4, if_false]

/-- C1: for every sweep and every epsilon, `Scanner::update` returns, and afterwards every
sub-line returned by `get_sub_lines` has at least 3 points. -/
theorem C1_sub_lines_have_three_points (P : Platform) (s : Scanner) (capture : List Nat) :
    ∃ s2 : Scanner, s.update P capture = some s2 ∧
      ∀ sl ∈ s2.get_sub_lines, 3 ≤ sl.length := by
  obtain ⟨st, hup, hinv, _⟩ := update_spec P s capture
  exact ⟨_, hup, fun sl hsl => hinv.long sl hsl⟩

/-- C2: for every sweep and every epsilon, a clustering pass writes the tag of a world
point at most once. From any state of the loop of `expand` and of the loop of
`scan_sub_lines`, any further iterations leave a position of the world as it is, unless
it holds an unbound point, which may receive one id; over the whole pass every position
ends with the agglomerated (unbound) point or with that point under one id. The points of
the sub-lines, taken all together, are then copies of distinct positions of the world: no
world point is copied into two sub-lines, nor twice into one. -/
theorem C2_tag_written_once (P : Platform) (s : Scanner) (capture : List Nat) :
    (∃ s2 : Scanner, s.update P capture = some s2 ∧
      s2._world.length = (s.agglomerate P capture)._world.length ∧
      (∀ (i : Nat) (p : point), (s.agglomerate P capture)._world[i]? = some p →
        p.cluster = ClusterTag.unbound ∧
        (s2._world[i]? = some p ∨
          ∃ k, s2._world[i]? = some { p with cluster := ClusterTag.id k })) ∧
      s2.get_sub_lines.flatten.Subperm s2._world ∧
      (s2._world.Nodup → s2.get_sub_lines.flatten.Nodup)) ∧
    (∀ (idxs : List Nat) (st st2 : scan_state), Scanner.scan_loop idxs st = some st2 →
      ∀ (i : Nat) (p : point), st.self._world[i]? = some p →
        st2.self._world[i]? = some p ∨
          (p.cluster = ClusterTag.unbound ∧
            ∃ k, st2.self._world[i]? = some { p with cluster := ClusterTag.id k })) ∧
    (∀ (budget : Nat) (t : Scanner) (c : cluster_info) (wl : List Nat) (t2 : Scanner)
      (c2 : cluster_info), Scanner.expand_loop budget t c wl = some (t2, c2) →
      ∀ (i : Nat) (p : point), t._world[i]? = some p →
        t2._world[i]? = some p ∨
          (p.cluster = ClusterTag.unbound ∧
            t2._world[i]? = some { p with cluster := ClusterTag.id c.id })) := by
  refine ⟨?_, ?_, ?_⟩
  · obtain ⟨st, hup, hinv, hrel⟩ := update_spec P s capture
    have hsub : st.sub_lines_buffer.flatten.Subperm st.self._world :=
      hinv.copies.trans (List.filter_sublist _).subperm
    refine ⟨_, hup, hrel.world.1, ?_, hsub, ?_⟩
    · intro i p hp
      have hu : p.cluster = ClusterTag.unbound :=
        agglomerate_unbound P s capture p (List.mem_iff_getElem?.mpr ⟨i, hp⟩)
      refine ⟨hu, ?_⟩
      rcases hrel.world.2 i p hp with h | ⟨_, k, _, _, h⟩
      · exact Or.inl h
      · exact Or.inr ⟨k, h⟩
    · intro hnd
      obtain ⟨l, hperm, hsl⟩ := hsub
      exact hperm.nodup_iff.mp (hnd.sublist hsl)
  · intro idxs st st2 h i p hp
    rcases (scan_loop_rel idxs st st2 h).world.2 i p hp with h | ⟨hu, k, _, _, h⟩
    · exact Or.inl h
    · exact Or.inr ⟨hu, k, h⟩
  · intro budget t c wl t2 c2 h i p hp
    obtain ⟨added, _, hr⟩ := expand_loop_rel budget t c wl t2 c2 h
    rcases hr.world.2 i p hp with h | ⟨hu, k, hk1, hk2, h⟩
    · exact Or.inl h
    · have : k = c.id := by omega
      subst this
      exact Or.inr ⟨hu, h⟩

/-- C3: for every sweep, all points of one output sub-line carry the same cluster id, and
the ids of the sub-lines of `get_sub_lines` are strictly increasing in sequence order. Ids
are handed out in traversal order: the first points of the sub-lines, their seeds, stand
in the world in the order of the sub-lines. The sub-line of id `k` holds every world point
tagged `k`, so that the id of a discarded cluster, whose points keep their tag, is the id
of no sub-line. -/
theorem C3_sub_line_ids_increase (P : Platform) (s : Scanner) (capture : List Nat) :
    ∃ s2 : Scanner, s.update P capture = some s2 ∧
      (∃ ids : List Nat, ids.Pairwise (fun a b => a < b) ∧
        List.Forall₂ (fun sl k => (∀ p ∈ sl, p.cluster = ClusterTag.id k) ∧
          sl.Perm (s2._world.filter (point.tagged k))) s2.get_sub_lines ids) ∧
      (s2.get_sub_lines.filterMap List.head?).Sublist s2._world := by
  obtain ⟨st, hup, hinv, _⟩ := update_spec P s capture
  obtain ⟨ids, hsorted, _, hforall⟩ := hinv.ids
  refine ⟨_, hup, ⟨ids, hsorted, hforall.imp ?_⟩, update_seeds P s _ capture hup⟩
  rintro sl k ⟨_, hperm⟩
  refine ⟨fun p hp => ?_, hperm⟩
  have := (List.mem_filter.mp (hperm.subset hp)).2
  simpa [point.tagged] using this

/-- C4: `Scanner::update` is idempotent on its input. For every scanner state, epsilon and
sweep, a second call with the same sweep returns and leaves `get_sub_lines` (sub-lines and
points, in order), `get_iterations_count`, the world and epsilon as the first call left
them; and a scanner in any other state with the same epsilon produces the same sub-lines,
counter and world from that sweep: nothing of a previous sweep carries over. -/
theorem C4_update_idempotent (P : Platform) (s : Scanner) (capture : List Nat) :
    ∃ s1 s2 : Scanner, s.update P capture = some s1 ∧ s1.update P capture = some s2 ∧
      s2.get_sub_lines = s1.get_sub_lines ∧
      s2.get_iterations_count = s1.get_iterations_count ∧
      s2._world = s1._world ∧
      s2.get_epsilon = s1.get_epsilon ∧
      ∀ t : Scanner, ∃ t1 : Scanner,
        (t.set_epsilon s.get_epsilon).update P capture = some t1 ∧
        t1.get_sub_lines = s1.get_sub_lines ∧
        t1.get_iterations_count = s1.get_iterations_count ∧
        t1._world = s1._world := by
  obtain ⟨s1, h1⟩ := update_returns P s capture
  have he := update_epsilon P s s1 capture h1
  have h2 := update_congr P s s1 capture he.symm
  rw [h1] at h2
  refine ⟨s1, _, h1, h2, rfl, rfl, rfl, rfl, fun t => ?_⟩
  have h3 := update_congr P s (t.set_epsilon s.get_epsilon) capture rfl
  rw [h1] at h3
  exact ⟨_, h3, rfl, rfl, rfl⟩

/-- C5: when epsilon is at most 0 (in particular 0, the value the constructor of the
scanner sets), `neighbors_of` returns the empty list for every point of every world, every
cluster that is opened ends with exactly one point, its seed, and for every sweep
`Scanner::update` returns with `get_sub_lines` empty. -/
theorem C5_nonpositive_epsilon (P : Platform) (s : Scanner) (capture : List Nat)
    (h : s.get_epsilon ≤ 0) :
    (∀ (t : Scanner) (origin : point), t.get_epsilon ≤ 0 → t.neighbors_of origin = []) ∧
    (∀ (t : Scanner) (i : Nat) (pt : point) (k : Nat), t.get_epsilon ≤ 0 →
      ∃ (t2 : Scanner) (c : cluster_info), t.open_cluster i pt k = some (t2, c) ∧
        c.points = [{ pt with cluster := ClusterTag.id k }] ∧ c.points.length = 1) ∧
    (∃ s2 : Scanner, s.update P capture = some s2 ∧ s2.get_sub_lines = []) ∧
    Scanner.new.get_epsilon = 0 ∧
    (∃ s2 : Scanner, Scanner.new.update P capture = some s2 ∧ s2.get_sub_lines = []) := by
  refine ⟨fun t origin ht => neighbors_of_nonpos t origin ht, ?_, ?_, rfl, ?_⟩
  · intro t i pt k ht
    exact ⟨_, _, open_cluster_nonpos t i pt k ht, rfl, rfl⟩
  · obtain ⟨s2, hup, hsl, _⟩ := update_nonpos P s capture h
    exact ⟨s2, hup, hsl⟩
  · obtain ⟨s2, hup, hsl, _⟩ := update_nonpos P Scanner.new capture (le_refl _)
    exact ⟨s2, hup, hsl⟩

theorem C5_nonpositive_epsilon_witness :
    (Scanner.new.set_epsilon (-1)).get_epsilon ≤ 0 ∧
    ∃ s2 : Scanner, (Scanner.new.set_epsilon (-1)).update sample_platform sample_sweep = some s2 ∧
      s2.get_sub_lines = [] :=
  ⟨by norm_num [Scanner.new, Scanner.set_epsilon, Scanner.get_epsilon],
    (C5_nonpositive_epsilon sample_platform (Scanner.new.set_epsilon (-1)) sample_sweep
      (by norm_num [Scanner.new, Scanner.set_epsilon, Scanner.get_epsilon])).2.2.1⟩

/-- C6: for a sweep whose samples are all zero, for every epsilon and every previous
state of the scanner, `Scanner::update` returns and leaves the world empty,
`get_sub_lines` empty and `get_iterations_count` equal to 0; for every sweep the world
built by `agglomerate`, and the world after `update`, have exactly as many points as the
sweep has non-zero samples. -/
theorem C6_zero_sweep (P : Platform) (s : Scanner) (capture : List Nat) :
    ((∀ dist ∈ capture, dist = 0) →
      ∃ s2 : Scanner, s.update P capture = some s2 ∧ s2._world = [] ∧
        s2.get_sub_lines = [] ∧ s2.get_iterations_count = 0) ∧
    (s.agglomerate P capture)._world.length =
      (capture.filter fun dist => decide (dist > 0)).length ∧
    ∃ s2 : Scanner, s.update P capture = some s2 ∧
      s2._world.length = (capture.filter fun dist => decide (dist > 0)).length := by
  refine ⟨?_, agglomerate_length P s capture, ?_⟩
  · intro hz
    have hlen : (s.agglomerate P capture)._world.length = 0 := by
      rw [agglomerate_length]
      apply List.length_eq_zero.mpr
      apply List.filter_eq_nil_iff.mpr
      intro d hd
      simp [hz d hd]
    have hw : (s.agglomerate P capture)._world = [] := List.length_eq_zero.mp hlen
    refine ⟨{ s.agglomerate P capture with _iterations_count := 0, _sub_lines := [] }, ?_, hw, rfl, rfl⟩
    simp only [Scanner.update, Scanner.scan_sub_lines, hw, List.length_nil, List.range_zero,
      Scanner.scan_loop]
  · obtain ⟨st, hup, _, hrel⟩ := update_spec P s capture
    refine ⟨_, hup, ?_⟩
    rw [← agglomerate_length P s capture]
    exact hrel.world.1

/-- C8: in the Wait state, a tick with obstacle-detection count at most 1 (in particular
0) returns, leaves the state Wait and issues no command, and so does any number of such
ticks; a tick with count greater than 1 (in particular 2) returns with Approach
(`goStraightForPlow`) as next state and issues no command: the Approach handler, which
would command the motor and move on to `endPlow`, is not run in that tick. -/
theorem C8_wait_state (P : Platform) (a : Algorithm) (oz : Oz) (delta_time : Int)
    (h : a._next = some Handler.wait) :
    (oz.lidar_detect ≤ 1 →
      ∃ a2 : Algorithm, a.update P oz delta_time = some (a2, []) ∧
        a2._next = some Handler.wait) ∧
    (oz.lidar_detect > 1 →
      ∃ a2 : Algorithm, a.update P oz delta_time = some (a2, []) ∧
        a2._next = some Handler.goStraightForPlow ∧ a2._startTurn = a._startTurn) ∧
    (a.wait { oz with lidar_detect := 0 } = some (a, []) ∧
      a.wait { oz with lidar_detect := 2 } =
        some ({ a with _next := some Handler.goStraightForPlow }, [])) ∧
    (∀ ticks : List (Oz × Int), (∀ t ∈ ticks, t.1.lidar_detect ≤ 1) →
      ∃ a2 : Algorithm, a.run P ticks = some (a2, []) ∧ a2._next = some Handler.wait) := by
  obtain ⟨s1, hs1⟩ := update_returns P a._scanner oz.lidar_distances
  refine ⟨?_, ?_, ⟨?_, ?_⟩, ?_⟩
  · intro hd
    have hoz : ¬ oz.lidar_detect > 1 := not_lt.mpr hd
    refine ⟨Algorithm.update_run_distance { a with _scanner := s1 } oz.odo_speed delta_time,
      ?_, h⟩
    simp only [Algorithm.update, hs1, Algorithm.dispatch, Algorithm.update_run_distance, h,
      Algorithm.wait, hoz, if_false]
  · intro hd
    refine ⟨{ Algorithm.update_run_distance { a with _scanner := s1 } oz.odo_speed delta_time with
      _next := some Handler.goStraightForPlow }, ?_, rfl, rfl⟩
    simp only [Algorithm.update, hs1, Algorithm.dispatch, Algorithm.update_run_distance, h,
      Algorithm.wait, hd, if_true]
  · simp [Algorithm.wait]
  · simp [Algorithm.wait]
  · intro ticks hd
    obtain ⟨a2, h2, hn2, _⟩ := run_wait P ticks a h hd
    exact ⟨a2, h2, hn2⟩

theorem C8_wait_state_witness :
    (Algorithm.new 0).init.1._next = some Handler.wait ∧
    (sample_oz 2 0).lidar_detect > 1 ∧
    ∃ a2 : Algorithm,
      (Algorithm.new 0).init.1.update sample_platform (sample_oz 2 0) 20 = some (a2, []) ∧
        a2._next = some Handler.goStraightForPlow ∧
        a2._startTurn = (Algorithm.new 0).init.1._startTurn :=
  ⟨rfl, by decide,
    (C8_wait_state sample_platform (Algorithm.new 0).init.1 (sample_oz 2 0) 20 rfl).2.1
      (by decide)⟩

/-- C9, as stated, fails: in the Turn state with reference 0, at the odometer distance
`d` that is the double nearest to 13.29, the elapsed distance `d - 0` is below
`2 * 6.645` in exact arithmetic, yet one dispatch commands angle 125 and then speed 125,
not speed 125 only: the program compares with the double `6.645 * 2.0`, which is `d`. -/
theorem C9_exact_bands_refuted :
    (sample_turning 0)._next = some Handler.turnOnNextLigne ∧
    (sample_turning 0)._startTurn ≠ -1 ∧
    (sample_oz 0 (binary64.round 13.29)).odo_distance - (sample_turning 0)._startTurn <
      2 * 6.645 ∧
    (sample_turning 0).dispatch (sample_oz 0 (binary64.round 13.29)) =
      some (sample_turning 0, [Effect.motor_setAngle 125, Effect.motor_setSpeed 125]) ∧
    (sample_turning 0).dispatch (sample_oz 0 (binary64.round 13.29)) ≠
      some (sample_turning 0, [Effect.motor_setSpeed 125]) := by
  have hd : (sample_turning 0).dispatch (sample_oz 0 (binary64.round 13.29)) =
      some (sample_turning 0, [Effect.motor_setAngle 125, Effect.motor_setSpeed 125]) :=
    (turn_bands (sample_turning 0) (sample_oz 0 (binary64.round 13.29)) rfl
      (by decide!)).2.1 (by decide!) (by decide!)
  refine ⟨rfl, by decide!, by decide!, hd, ?_⟩
  rw [hd]
  simp

/-- C9, amended: in the Turn state with a captured reference `r` (other than -1) and
odometer distance `d`, one dispatch does, with `elapsed` the difference `d - r` rounded to
binary64 and the thresholds the doubles `6.645 * 2.0`, `6.645 * 4.0`, `6.465 * 11.0` and
`6.465 * 16.0`: below the first, speed 125 only; else below the second, angle 125 then
speed 125; else below the third, angle -125 then speed -125; else below the fourth, angle
125 then speed 125, the state and the reference staying as they are in these four cases;
and from the fourth on, no command and `endPlow` as next state, the reference staying as
it is. The four thresholds are the doubles nearest to 13.29, 26.58, 71.115 and 103.44,
each below its decimal. -/
theorem C9_turn_bands_computed (a : Algorithm) (oz : Oz)
    (h : a._next = some Handler.turnOnNextLigne) (hr : a._startTurn ≠ -1) :
    (binary64.sub oz.odo_distance a._startTurn < binary64.mul (binary64.round 6.645) 2.0 →
      a.dispatch oz = some (a, [Effect.motor_setSpeed 125])) ∧
    (¬ binary64.sub oz.odo_distance a._startTurn < binary64.mul (binary64.round 6.645) 2.0 →
      binary64.sub oz.odo_distance a._startTurn < binary64.mul (binary64.round 6.645) 4.0 →
      a.dispatch oz = some (a, [Effect.motor_setAngle 125, Effect.motor_setSpeed 125])) ∧
    (¬ binary64.sub oz.odo_distance a._startTurn < binary64.mul (binary64.round 6.645) 4.0 →
      binary64.sub oz.odo_distance a._startTurn < binary64.mul (binary64.round 6.465) 11.0 →
      a.dispatch oz =
        some (a, [Effect.motor_setAngle (-125), Effect.motor_setSpeed (-125)])) ∧
    (¬ binary64.sub oz.odo_distance a._startTurn < binary64.mul (binary64.round 6.465) 11.0 →
      binary64.sub oz.odo_distance a._startTurn < binary64.mul (binary64.round 6.465) 16.0 →
      a.dispatch oz = some (a, [Effect.motor_setAngle 125, Effect.motor_setSpeed 125])) ∧
    (¬ binary64.sub oz.odo_distance a._startTurn < binary64.mul (binary64.round 6.465) 16.0 →
      a.dispatch oz = some ({ a with _next := some Handler.endPlow }, []) ∧
      ({ a with _next := some Handler.endPlow } : Algorithm)._startTurn = a._startTurn) ∧
    (binary64.mul (binary64.round 6.645) 2.0 = binary64.round 13.29 ∧
      binary64.mul (binary64.round 6.645) 4.0 = binary64.round 26.58 ∧
      binary64.mul (binary64.round 6.465) 11.0 = binary64.round 71.115 ∧
      binary64.mul (binary64.round 6.465) 16.0 = binary64.round 103.44 ∧
      binary64.round 13.29 < 13.29 ∧ binary64.round 26.58 < 26.58 ∧
      binary64.round 71.115 < 71.115 ∧ binary64.round 103.44 < 103.44) := by
  obtain ⟨b1, b2, b3, b4, b5⟩ := turn_bands a oz h hr
  exact ⟨b1, b2, b3, b4, fun h5 => ⟨b5 h5, rfl⟩, by decide!⟩

theorem C9_turn_bands_computed_witness :
    (sample_turning 100)._next = some Handler.turnOnNextLigne ∧
    (sample_turning 100)._startTurn ≠ -1 ∧
    binary64.sub (sample_oz 0 113).odo_distance (sample_turning 100)._startTurn <
      binary64.mul (binary64.round 6.645) 2.0 ∧
    (sample_turning 100).dispatch (sample_oz 0 113) =
      some (sample_turning 100, [Effect.motor_setSpeed 125]) :=
  ⟨rfl, by decide!, by decide!,
    (C9_turn_bands_computed (sample_turning 100) (sample_oz 0 113) rfl (by decide!)).1
      (by decide!)⟩

/-- C10, as stated, fails: in the Turn state with turn reference distance 100, the five
dispatches at the odometer distances 100, 113, 126.58, 171.3, 203.5, each the double
nearest to its decimal, do not select the first, second, third and fourth bands in order
before leaving for `endPlow`. -/
theorem C10_bands_in_order_refuted :
    ¬ (((sample_turning 100).dispatch_all
        ([100, 113, 126.58, 171.3, 203.5].map fun d => sample_oz 0 (binary64.round d))).map
          (fun r => (r.1._next, r.2)) =
      some (some Handler.endPlow,
        [[Effect.motor_setSpeed 125],
         [Effect.motor_setAngle 125, Effect.motor_setSpeed 125],
         [Effect.motor_setAngle (-125), Effect.motor_setSpeed (-125)],
         [Effect.motor_setAngle 125, Effect.motor_setSpeed 125],
         []])) := by
  decide!

/-- C10, amended: in the Turn state with turn reference distance 100, the five dispatches
at the odometer distances 100, 113, 126.58, 171.3, 203.5, each the double nearest to its
decimal, select the first band (speed 125) twice, as 113 - 100 is still below
`2 * 6.645`, then the third band (angle -125, speed -125) and the fourth band (angle 125,
speed 125), and the fifth dispatch leaves Turn for `endPlow` without a command; the
reference stays 100. -/
theorem C10_bands_of_test_vector (a : Algorithm) (o1 o2 o3 o4 o5 : Oz)
    (h : a._next = some Handler.turnOnNextLigne) (hr : a._startTurn = 100)
    (h1 : o1.odo_distance = binary64.round 100) (h2 : o2.odo_distance = binary64.round 113)
    (h3 : o3.odo_distance = binary64.round 126.58) (h4 : o4.odo_distance = binary64.round 171.3)
    (h5 : o5.odo_distance = binary64.round 203.5) :
    a.dispatch_all [o1, o2, o3, o4, o5] =
      some ({ a with _next := some Handler.endPlow },
        [[Effect.motor_setSpeed 125],
         [Effect.motor_setSpeed 125],
         [Effect.motor_setAngle (-125), Effect.motor_setSpeed (-125)],
         [Effect.motor_setAngle 125, Effect.motor_setSpeed 125],
         []]) := by
  have hs : a._startTurn ≠ -1 := by
    rw [hr]
    norm_num
  have d1 : a.dispatch o1 = some (a, [Effect.motor_setSpeed 125]) :=
    (turn_bands a o1 h hs).1 (by rw [h1, hr]; decide!)
  have d2 : a.dispatch o2 = some (a, [Effect.motor_setSpeed 125]) :=
    (turn_bands a o2 h hs).1 (by rw [h2, hr]; decide!)
  have d3 : a.dispatch o3 =
      some (a, [Effect.motor_setAngle (-125), Effect.motor_setSpeed (-125)]) :=
    (turn_bands a o3 h hs).2.2.1 (by rw [h3, hr]; decide!) (by rw [h3, hr]; decide!)
  have d4 : a.dispatch o4 =
      some (a, [Effect.motor_setAngle 125, Effect.motor_setSpeed 125]) :=
    (turn_bands a o4 h hs).2.2.2.1 (by rw [h4, hr]; decide!) (by rw [h4, hr]; decide!)
  have d5 : a.dispatch o5 = some ({ a with _next := some Handler.endPlow }, []) :=
    (turn_bands a o5 h hs).2.2.2.2 (by rw [h5, hr]; decide!)
  simp only [Algorithm.dispatch_all, d1, d2, d3, d4, d5]

theorem C10_bands_of_test_vector_witness :
    (sample_turning 100)._next = some Handler.turnOnNextLigne ∧
    (sample_turning 100)._startTurn = 100 ∧
    (sample_turning 100).dispatch_all
        ([100, 113, 126.58, 171.3, 203.5].map fun d => sample_oz 0 (binary64.round d)) =
      some ({ sample_turning 100 with _next := some Handler.endPlow },
        [[Effect.motor_setSpeed 125],
         [Effect.motor_setSpeed 125],
         [Effect.motor_setAngle (-125), Effect.motor_setSpeed (-125)],
         [Effect.motor_setAngle 125, Effect.motor_setSpeed 125],
         []]) :=
  ⟨rfl, rfl,
    C10_bands_of_test_vector (sample_turning 100) (sample_oz 0 (binary64.round 100))
      (sample_oz 0 (binary64.round 113)) (sample_oz 0 (binary64.round 126.58))
      (sample_oz 0 (binary64.round 171.3)) (sample_oz 0 (binary64.round 203.5))
      rfl rfl rfl rfl rfl rfl rfl⟩

/-- C11: `get_near_point` loses the second-nearest sub-line when a nearer one comes later
in the collection. On two sub-lines starting at distance 300 and then at distance 200,
both within 4000, it returns the second point of the nearer one in the first slot and
leaves the second slot at the origin (0,0), where the second point of the sub-line
starting at distance 300 is due. The scanner produces such a collection from the sweep
`sample_sweep_rows` with epsilon 100, and from the sweep `sample_sweep_rows_far` with
epsilon 500, the value the navigation core sets. -/
theorem C11_second_nearest_is_lost :
    get_near_point
        [[⟨300, 0, ClusterTag.id 0⟩, ⟨300, 5, ClusterTag.id 0⟩, ⟨300, 10, ClusterTag.id 0⟩],
          [⟨0, 200, ClusterTag.id 1⟩, ⟨4, 200, ClusterTag.id 1⟩, ⟨-4, 200, ClusterTag.id 1⟩]] =
      some (⟨4, 200, ClusterTag.id 1⟩, ⟨0, 0, ClusterTag.unbound⟩) ∧
    (((Scanner.new.set_epsilon 100).update sample_platform sample_sweep_rows).map fun s2 =>
        (s2.get_sub_lines.map fun sl =>
            (sl.length, sl.head?.map fun p =>
              decide (euclidean_distance ⟨0, 0, ClusterTag.unbound⟩ p < 4000)),
          (get_near_point s2.get_sub_lines).map fun r =>
            (decide (some r.1 = (s2.get_sub_lines[1]?).bind (fun sl => sl[1]?)), r.2))) =
      some ([(3, some true), (3, some true)],
        some (true, ⟨0, 0, ClusterTag.unbound⟩)) ∧
    (((Algorithm.new 0).get_scanner.update sample_platform sample_sweep_rows_far).map fun s2 =>
        (s2.get_sub_lines.map fun sl =>
            (sl.length, sl.head?.map fun p =>
              decide (euclidean_distance ⟨0, 0, ClusterTag.unbound⟩ p < 4000)),
          (get_near_point s2.get_sub_lines).map fun r =>
            (decide (some r.1 = (s2.get_sub_lines[1]?).bind (fun sl => sl[1]?)), r.2))) =
      some ([(3, some true), (3, some true)],
        some (true, ⟨0, 0, ClusterTag.unbound⟩)) := by
  refine ⟨?_, ?_, ?_⟩
  · decide!
  · decide!
  · decide!

/-- C12, as stated, fails: the points (1, 0) and (-1, 0) have the same `(|y|, |x|)` and
neither is below the other, yet `operator==` does not hold of them. -/
theorem C12_equality_is_not_on_magnitudes :
    point.eq ⟨1, 0, ClusterTag.unbound⟩ ⟨-1, 0, ClusterTag.unbound⟩ = false ∧
    (|(⟨1, 0, ClusterTag.unbound⟩ : point).y| = |(⟨-1, 0, ClusterTag.unbound⟩ : point).y| ∧
      |(⟨1, 0, ClusterTag.unbound⟩ : point).x| = |(⟨-1, 0, ClusterTag.unbound⟩ : point).x|) ∧
    point.lt ⟨1, 0, ClusterTag.unbound⟩ ⟨-1, 0, ClusterTag.unbound⟩ = false ∧
    point.lt ⟨-1, 0, ClusterTag.unbound⟩ ⟨1, 0, ClusterTag.unbound⟩ = false := by
  refine ⟨?_, ⟨?_, ?_⟩, ?_, ?_⟩
  · norm_num [point.eq, point.tie]
  · simp
  · simp
  · simp [point.lt]
  · simp [point.lt]

/-- C12, amended: point equality compares the pair `(y, x)` of the coordinates themselves,
while the ordering compares `(|y|, |x|)`. For all points `p` and `q`, `p == q` holds
exactly when `p.y = q.y` and `p.x = q.x`; neither `p < q` nor `q < p` holds exactly when
`|p.y| = |q.y|` and `|p.x| = |q.x|`; so equal points are unordered, not conversely. The
cluster tag is ignored by both. -/
theorem C12_equality_and_order (p q : point) :
    (p.eq q = true ↔ (p.y = q.y ∧ p.x = q.x)) ∧
    ((p.lt q = false ∧ q.lt p = false) ↔ (|p.y| = |q.y| ∧ |p.x| = |q.x|)) ∧
    (p.eq q = true → p.lt q = false ∧ q.lt p = false) ∧
    (∀ t u : ClusterTag,
      point.eq { p with cluster := t } { q with cluster := u } = p.eq q ∧
      point.lt { p with cluster := t } { q with cluster := u } = p.lt q) := by
  have heq : p.eq q = true ↔ (p.y = q.y ∧ p.x = q.x) := by
    simp [point.eq, point.tie, Prod.ext_iff]
  refine ⟨heq, point_unordered_iff p q, ?_, fun t u => ⟨rfl, rfl⟩⟩
  intro h
  obtain ⟨hy, hx⟩ := heq.mp h
  exact (point_unordered_iff p q).mpr ⟨by rw [hy], by rw [hx]⟩

/-- C13, as stated, fails: when the odometer reads -1 on the first Turn dispatch of a
stay, the reference is set to -1, the sentinel, and the second dispatch of the same stay
resets the gyro and writes the reference again. -/
theorem C13_sentinel_reading_is_written_twice :
    (sample_turning (-1)).dispatch (sample_oz 0 (-1)) =
      some (sample_turning (-1), [Effect.gyro_reset]) ∧
    (sample_turning (-1)).dispatch_all [sample_oz 0 (-1), sample_oz 0 5] =
      some ({ sample_turning (-1) with _startTurn := 5 },
        [[Effect.gyro_reset], [Effect.gyro_reset]]) := by
  constructor
  · norm_num [Algorithm.dispatch, Algorithm.turnOnNextLigne, sample_turning, Algorithm.new,
      sample_oz]
  · norm_num [Algorithm.dispatch_all, Algorithm.dispatch, Algorithm.turnOnNextLigne,
      sample_turning, Algorithm.new, sample_oz]

/-- C13, amended: during one stay in the Turn state, entered from `endPlow` with the
reference at the sentinel -1, and for every sequence of odometer readings whose first one
is not -1, the turn reference distance is assigned exactly once. The first Turn dispatch
sets it to that tick's odometer distance, with a gyro reset, no motor command and the
state staying Turn; the later dispatches of the stay, as long as the elapsed distance the
program computes is below its threshold `6.465 * 16.0`, leave the whole state as it is and
reset no gyro; the dispatch that leaves Turn changes the next state only; and whatever
the later reading, one dispatch returns, leaves the reference as it is and resets no
gyro. -/
theorem C13_turn_reference_written_once (a : Algorithm) (oz : Oz)
    (h : a._next = some Handler.turnOnNextLigne) (hs : a._startTurn = -1)
    (hd : oz.odo_distance ≠ -1) :
    (∀ (b : Algorithm) (o : Oz) (r : Algorithm × List Effect),
      b._next = some Handler.endPlow → b.dispatch o = some r →
      r.1._next = some Handler.turnOnNextLigne → r.1._startTurn = -1) ∧
    a.dispatch oz = some ({ a with _startTurn := oz.odo_distance }, [Effect.gyro_reset]) ∧
    (∀ later : List Oz,
      (∀ o ∈ later, binary64.sub o.odo_distance oz.odo_distance <
        binary64.mul (binary64.round 6.465) 16.0) →
      ∃ effects : List (List Effect),
        Algorithm.dispatch_all { a with _startTurn := oz.odo_distance } later =
          some ({ a with _startTurn := oz.odo_distance }, effects) ∧
        Effect.gyro_reset ∉ effects.flatten) ∧
    (∀ o : Oz,
      ¬ binary64.sub o.odo_distance oz.odo_distance < binary64.mul (binary64.round 6.465) 16.0 →
      Algorithm.dispatch { a with _startTurn := oz.odo_distance } o =
        some ({ a with _startTurn := oz.odo_distance, _next := some Handler.endPlow }, [])) ∧
    (∀ o : Oz, ∃ r : Algorithm × List Effect,
      Algorithm.dispatch { a with _startTurn := oz.odo_distance } o = some r ∧
      r.1._startTurn = oz.odo_distance ∧ Effect.gyro_reset ∉ r.2) := by
  refine ⟨?_, ?_, ?_, ?_, ?_⟩
  · intro b o r hb hr hn
    simp only [Algorithm.dispatch, hb, Algorithm.endPlow] at hr
    split at hr
    · split at hr
      · rw [← Option.some.inj hr]
      · rw [← Option.some.inj hr] at hn
        rw [hb] at hn
        simp at hn
    · rw [(adjust_effects b o r hr).1] at hn
      rw [hb] at hn
      simp at hn
  · simp only [Algorithm.dispatch, h, Algorithm.turnOnNextLigne, hs, if_true]
  · intro later hl
    exact turn_stay later { a with _startTurn := oz.odo_distance } h hd hl
  · intro o ho
    exact (turn_bands { a with _startTurn := oz.odo_distance } o h hd).2.2.2.2 ho
  · intro o
    by_cases h4 : binary64.sub o.odo_distance oz.odo_distance <
        binary64.mul (binary64.round 6.465) 16.0
    · obtain ⟨effects, he, hg⟩ := turn_in_band { a with _startTurn := oz.odo_distance } o h hd h4
      exact ⟨_, he, rfl, hg⟩
    · exact ⟨_, (turn_bands { a with _startTurn := oz.odo_distance } o h hd).2.2.2.2 h4, rfl,
        by simp⟩

theorem C13_turn_reference_written_once_witness :
    (sample_turning (-1))._next = some Handler.turnOnNextLigne ∧
    (sample_turning (-1))._startTurn = -1 ∧
    (sample_oz 0 100).odo_distance ≠ -1 ∧
    (sample_turning (-1)).dispatch (sample_oz 0 100) =
      some ({ sample_turning (-1) with _startTurn := (sample_oz 0 100).odo_distance },
        [Effect.gyro_reset]) :=
  ⟨rfl, rfl, by norm_num [sample_oz],
    (C13_turn_reference_written_once (sample_turning (-1)) (sample_oz 0 100) rfl rfl
      (by norm_num [sample_oz])).2.1⟩

/-- C14: in the StopAndEvaluate state (`endPlow`), one dispatch moves to Turn if and only
if the obstacle-detection count is 0 and the speed the motor reports, read after speed 0
and angle 0 were commanded, is at most 0; on that transition the turn reference distance
is set to the sentinel -1. With count 0 and a positive reported speed the two commands are
issued and nothing else changes. With a non-zero count the handler runs the
steering-adjustment heuristic alone: only angle commands, the state and the turn reference
distance as they were. Every tick of `update` in this state returns. -/
theorem C14_stop_and_evaluate (a : Algorithm) (oz : Oz) (h : a._next = some Handler.endPlow) :
    (oz.lidar_detect = 0 → oz.motor_speed ≤ 0 →
      a.dispatch oz =
        some ({ a with _startTurn := -1, _next := some Handler.turnOnNextLigne },
          [Effect.motor_setSpeed 0, Effect.motor_setAngle 0])) ∧
    (oz.lidar_detect = 0 → ¬ oz.motor_speed ≤ 0 →
      a.dispatch oz = some (a, [Effect.motor_setSpeed 0, Effect.motor_setAngle 0])) ∧
    (oz.lidar_detect ≠ 0 →
      a.dispatch oz = a.adjust oz ∧
      (∀ r : Algorithm × List Effect, a.dispatch oz = some r →
        r.1 = a ∧ ∀ e ∈ r.2, ∃ v, e = Effect.motor_setAngle v) ∧
      ((∀ sl ∈ a._scanner.get_sub_lines, 2 ≤ sl.length) →
        ∃ effects, a.dispatch oz = some (a, effects))) ∧
    (∀ r : Algorithm × List Effect, a.dispatch oz = some r →
      (r.1._next = some Handler.turnOnNextLigne ↔
        (oz.lidar_detect = 0 ∧ oz.motor_speed ≤ 0))) ∧
    (∀ (P : Platform) (delta_time : Int), ∃ r : Algorithm × List Effect,
      a.update P oz delta_time = some r ∧
      (r.1._next = some Handler.turnOnNextLigne ↔
        (oz.lidar_detect = 0 ∧ oz.motor_speed ≤ 0))) := by
  have hd : a.dispatch oz = a.endPlow oz := by simp only [Algorithm.dispatch, h]
  have key : ∀ (b : Algorithm), b._next = some Handler.endPlow →
      ∀ r : Algorithm × List Effect, b.endPlow oz = some r →
      (r.1._next = some Handler.turnOnNextLigne ↔
        (oz.lidar_detect = 0 ∧ oz.motor_speed ≤ 0)) := by
    intro b hb r hr
    simp only [Algorithm.endPlow] at hr
    split at hr
    · rename_i h0
      split at hr
      · rename_i hs
        rw [← Option.some.inj hr]
        simp [h0, hs]
      · rename_i hs
        rw [← Option.some.inj hr]
        simp [hb, hs]
    · rename_i h0
      rw [(adjust_effects b oz r hr).1]
      simp [hb, h0]
  refine ⟨?_, ?_, ?_, ?_, ?_⟩
  · intro h0 hs
    simp only [hd, Algorithm.endPlow, h0, hs, if_true]
  · intro h0 hs
    simp only [hd, Algorithm.endPlow, h0, hs, if_true, if_false]
  · intro h0
    have he : a.dispatch oz = a.adjust oz := by
      simp only [hd, Algorithm.endPlow, h0, if_false]
    refine ⟨he, ?_, ?_⟩
    · intro r hr
      rw [he] at hr
      exact ⟨(adjust_effects a oz r hr).1, (adjust_effects a oz r hr).2.1⟩
    · intro hsl
      rw [he]
      exact adjust_spec a oz hsl
  · intro r hr
    rw [hd] at hr
    exact key a h r hr
  · intro P delta_time
    obtain ⟨r, hr, _, _⟩ := update_tick_spec P a oz delta_time (by simp [h])
    refine ⟨r, hr, ?_⟩
    simp only [Algorithm.update] at hr
    split at hr
    · simp at hr
    · rename_i scanner _
      simp only [Algorithm.dispatch, Algorithm.update_run_distance, h] at hr
      exact key _ rfl r hr

theorem C14_stop_and_evaluate_witness :
    sample_evaluating._next = some Handler.endPlow ∧
    (sample_oz 0 0).lidar_detect = 0 ∧ (sample_oz 0 0).motor_speed ≤ 0 ∧
    sample_evaluating.dispatch (sample_oz 0 0) =
      some ({ sample_evaluating with _startTurn := -1, _next := some Handler.turnOnNextLigne },
        [Effect.motor_setSpeed 0, Effect.motor_setAngle 0]) :=
  ⟨rfl, rfl, by norm_num [sample_oz],
    (C14_stop_and_evaluate sample_evaluating (sample_oz 0 0) rfl).1 rfl
      (by norm_num [sample_oz])⟩

/-- C16, as stated, fails: with epsilon 500, the sweep `sample_sweep_edge` gives one
sub-line of three points whose seed is the return 1000 at 90 degrees, the point
(6.123233995736766e-14, 1000): its Euclidean distance from the origin is greater than
1000, while the distance the program computes for it is the double 1000, which is not
greater than 1000. -/
theorem C16_seed_beyond_1000 :
    (((Scanner.new.set_epsilon 500).update sample_platform sample_sweep_edge).map fun s2 =>
        s2.get_sub_lines.map fun sl => (sl.length, sl.head?.map point.coords)) =
      some [(3, some (binary64.round 6.123233995736766e-14, 1000))] ∧
    (1000 : ℝ) <
      Real.sqrt ((((binary64.round 6.123233995736766e-14) ^ 2 + 1000 ^ 2 : ℚ)) : ℝ) ∧
    euclidean_distance ⟨0, 0, ClusterTag.unbound⟩
      ⟨binary64.round 6.123233995736766e-14, 1000, ClusterTag.unbound⟩ = 1000 := by
  refine ⟨by decide!, ?_, by decide!⟩
  rw [Real.lt_sqrt (by norm_num)]
  exact_mod_cast (by decide! :
    (1000 : ℚ) ^ 2 < (binary64.round 6.123233995736766e-14) ^ 2 + 1000 ^ 2)

/-- C16, amended: for every sweep and epsilon, the first point of every output sub-line,
the seed of its cluster, lies at a distance from the origin that, as the program computes
it (differences, squares, sum and square root rounded to binary64), is at most 1000: at a
point whose computed distance is greater than 1000 the loop of `scan_sub_lines` opens no
cluster and changes nothing. Such a point can still be absorbed as a later member: with
epsilon 500, the sweep `sample_sweep_far` gives one sub-line whose second and third points
are farther than 1000. -/
theorem C16_seed_within_1000 (P : Platform) (s : Scanner) (capture : List Nat) :
    (∃ s2 : Scanner, s.update P capture = some s2 ∧
      ∀ sl ∈ s2.get_sub_lines, ∃ seed : point, sl.head? = some seed ∧
        euclidean_distance ⟨0, 0, ClusterTag.unbound⟩ seed ≤ 1000) ∧
    (∀ (st : scan_state) (i : Nat) (pt : point), st.self._world[i]? = some pt →
      euclidean_distance ⟨0, 0, ClusterTag.unbound⟩ pt > 1000 →
      Scanner.scan_body st i = some st) ∧
    (((Scanner.new.set_epsilon 500).update sample_platform sample_sweep_far).map fun s2 =>
        s2.get_sub_lines.map fun sl =>
          sl.map fun p => decide (euclidean_distance ⟨0, 0, ClusterTag.unbound⟩ p > 1000)) =
      some [[false, true, true]] := by
  refine ⟨?_, ?_, ?_⟩
  · obtain ⟨s2, hup⟩ := update_returns P s capture
    exact ⟨s2, hup, fun sl hsl => update_seed_near P s s2 capture hup sl hsl⟩
  · intro st i pt hpt hfar
    simp only [Scanner.scan_body, hpt, hfar, or_true, if_true]
  · decide!

/-- C17: `Scanner::expand` terminates on every world: its loop never exhausts the budget.
On a world sorted by the `(|y|, |x|)` order, as `agglomerate` leaves it, the list the loop
iterates stays in strictly increasing world position, hence sorted and without the same
world point twice: `neighbors_of` returns such a list, and every iteration keeps the rest
of the list and appends only references whose points sort strictly after the point of
the list's last element. Consequently the iteration count of one clustering pass is at
most the number of world points, which is the number of non-zero samples, and for
epsilon > 0 it equals the number of points tagged in that pass, the bound points of the
world, which starts all unbound. -/
theorem C17_expand_terminates_and_counts (P : Platform) (s : Scanner) (capture : List Nat) :
    (∀ (t : Scanner) (c : cluster_info) (neighbors : List Nat),
      (∀ i ∈ neighbors, i < t._world.length) →
      ∃ r : Scanner × cluster_info, t.expand c neighbors = some r) ∧
    (∀ (budget : Nat) (t : Scanner) (c : cluster_info) (it : Nat) (rest : List Nat),
      Scanner.expand_loop (budget + 1) t c (it :: rest) =
        match t.expand_next c it rest with
        | none => none
        | some (t2, c2, wl2) => Scanner.expand_loop budget t2 c2 wl2) ∧
    (∀ (t : Scanner) (origin : point),
      (t.neighbors_of origin).Pairwise (fun a b => a < b)) ∧
    (∀ (t : Scanner) (c : cluster_info) (it : Nat) (rest : List Nat) (t2 : Scanner)
      (c2 : cluster_info) (wl2 : List Nat),
      t._world.Pairwise (fun a b => point.lt b a = false) →
      (it :: rest).Pairwise (fun a b => a < b) →
      (∀ i ∈ it :: rest, i < t._world.length) →
      t.expand_next c it rest = some (t2, c2, wl2) →
      t2._world.Pairwise (fun a b => point.lt b a = false) ∧
      wl2.Pairwise (fun a b => a < b) ∧ wl2.Nodup ∧
      (∀ i ∈ wl2, i < t2._world.length) ∧
      ∃ appended : List Nat, wl2 = rest ++ appended ∧
        ∀ j ∈ appended, ∃ last q : point,
          t2._world[(it :: rest).getLast (List.cons_ne_nil it rest)]? = some last ∧
          t2._world[j]? = some q ∧ point.lt last q = true) ∧
    (s.agglomerate P capture)._world.Pairwise (fun a b => point.lt b a = false) ∧
    (∀ p ∈ (s.agglomerate P capture)._world, p.cluster = ClusterTag.unbound) ∧
    (∃ s2 : Scanner, s.update P capture = some s2 ∧
      s2.get_iterations_count ≤ s2._world.length ∧
      s2._world.length = (capture.filter fun dist => decide (dist > 0)).length ∧
      (0 < s.get_epsilon →
        s2.get_iterations_count = (s2._world.filter point.bound).length)) := by
  refine ⟨?_, expand_loop_succ, neighbors_of_increasing, ?_, ?_,
    agglomerate_unbound P s capture, ?_⟩
  · intro t c neighbors hv
    obtain ⟨r, hr, _⟩ := expand_returns t c neighbors hv
    exact ⟨r, hr⟩
  · intro t c it rest t2 c2 wl2 hs hinc hv h
    obtain ⟨hinv, appended, happ, hlast⟩ := expand_next_worklist _ t c it rest t2 c2 wl2
      ⟨hs, hinc, hv, rfl⟩ h
    refine ⟨hinv.sorted, hinv.increasing, hinv.increasing.imp (fun hab => Nat.ne_of_lt hab),
      hinv.valid, appended, happ, ?_⟩
    intro j hj
    obtain ⟨_, last, q, h1, h2, h3⟩ := hlast j hj
    exact ⟨last, q, h1, h2, h3⟩
  · simp only [Scanner.agglomerate]
    exact P.sort_sorted _
  · obtain ⟨s2, hup⟩ := update_returns P s capture
    have hlen : s2._world.length = (capture.filter fun dist => decide (dist > 0)).length := by
      obtain ⟨st, hup2, _, hrel⟩ := update_spec P s capture
      rw [hup] at hup2
      rw [Option.some.inj hup2, ← agglomerate_length P s capture]
      exact hrel.world.1
    refine ⟨s2, hup, ?_, hlen, fun heps => update_count P s s2 capture hup heps⟩
    rcases lt_or_le 0 s._epsilon with heps | heps
    · have hc := update_count P s s2 capture hup heps
      show s2._iterations_count ≤ s2._world.length
      rw [hc]
      exact List.length_filter_le _ _
    · obtain ⟨s3, hup3, _, hi3⟩ := update_nonpos P s capture heps
      rw [hup] at hup3
      have h23 : s2 = s3 := Option.some.inj hup3
      subst h23
      show s2._iterations_count ≤ s2._world.length
      rw [hi3]
      exact Nat.zero_le _

/-- C18, as stated, fails: with epsilon 500, the sweep `sample_sweep_chain` gives one
sub-line of three points, the returns 250 at -45 degrees, 300 at -37 degrees and 400 at
53 degrees in this order, whose third point lies at Euclidean distance at least 500 from
the first and from the second: the distance the program computes between the second and
the third is the double below 500 (499.99999999999994). -/
theorem C18_chain_refuted :
    (((Scanner.new.set_epsilon 500).update sample_platform sample_sweep_chain).map fun s2 =>
        s2.get_sub_lines.map fun sl => sl.map point.coords) =
      some [[(binary64.round 176.7766952966369, binary64.round (-176.77669529663686)),
        (binary64.round 239.59065301418784, binary64.round (-180.54450694561447)),
        (binary64.round 240.72600926081935, binary64.round 319.45420401891715)]] ∧
    (500 : ℝ) ≤ Real.sqrt ((exact_distance_sq
      ⟨binary64.round 176.7766952966369, binary64.round (-176.77669529663686),
        ClusterTag.id 0⟩
      ⟨binary64.round 240.72600926081935, binary64.round 319.45420401891715,
        ClusterTag.id 0⟩ : ℚ) : ℝ) ∧
    (500 : ℝ) ≤ Real.sqrt ((exact_distance_sq
      ⟨binary64.round 239.59065301418784, binary64.round (-180.54450694561447),
        ClusterTag.id 0⟩
      ⟨binary64.round 240.72600926081935, binary64.round 319.45420401891715,
        ClusterTag.id 0⟩ : ℚ) : ℝ) ∧
    euclidean_distance
      ⟨binary64.round 239.59065301418784, binary64.round (-180.54450694561447),
        ClusterTag.id 0⟩
      ⟨binary64.round 240.72600926081935, binary64.round 319.45420401891715,
        ClusterTag.id 0⟩ = binary64.round 499.99999999999994 := by
  refine ⟨by decide!, ?_, ?_, by decide!⟩
  · rw [Real.le_sqrt' (by norm_num)]
    exact_mod_cast (by decide! : (500 : ℚ) ^ 2 ≤ exact_distance_sq
      ⟨binary64.round 176.7766952966369, binary64.round (-176.77669529663686),
        ClusterTag.id 0⟩
      ⟨binary64.round 240.72600926081935, binary64.round 319.45420401891715,
        ClusterTag.id 0⟩)
  · rw [Real.le_sqrt' (by norm_num)]
    exact_mod_cast (by decide! : (500 : ℚ) ^ 2 ≤ exact_distance_sq
      ⟨binary64.round 239.59065301418784, binary64.round (-180.54450694561447),
        ClusterTag.id 0⟩
      ⟨binary64.round 240.72600926081935, binary64.round 319.45420401891715,
        ClusterTag.id 0⟩)

/-- C18, amended: for every sweep and every epsilon, in particular every positive one,
each output sub-line is chained for the distance the program computes: every point at an
index `i ≥ 1` of a sub-line is at a computed distance (`euclidean_distance`: differences,
squares, sum and square root rounded to binary64) strictly less than epsilon from some
point at an index `j < i` of the same sub-line. -/
theorem C18_sub_lines_are_chained (P : Platform) (s : Scanner) (capture : List Nat) :
    ∃ s2 : Scanner, s.update P capture = some s2 ∧ s2.get_epsilon = s.get_epsilon ∧
      ∀ sl ∈ s2.get_sub_lines, ∀ (i : Nat) (q : point), 1 ≤ i → sl[i]? = some q →
        ∃ (j : Nat) (p : point), j < i ∧ sl[j]? = some p ∧
          euclidean_distance p q < s.get_epsilon := by
  obtain ⟨s2, hup⟩ := update_returns P s capture
  have heps := update_epsilon P s s2 capture hup
  refine ⟨s2, hup, heps, ?_⟩
  intro sl hsl i q hi hq
  obtain ⟨j, p, hj, hp, hn⟩ := update_chained P s s2 capture hup sl hsl i q hi hq
  rw [heps] at hn
  exact ⟨j, p, hj, hp, hn⟩

/-- C19: after `init` the state is Wait, every tick of `update` returns, and the state
only moves forward: a tick in Wait leads to Wait or Approach (`goStraightForPlow`), a tick
in Approach leads to StopAndEvaluate (`endPlow`), so that Approach is active for exactly
one dispatch, and a tick in StopAndEvaluate or Turn leads to one of these two. For every
sequence of sensor inputs after `init`, once the state is no longer Wait it is never Wait
again, after one more tick it is StopAndEvaluate or Turn for ever, and
`getNextFunctionName` never returns "unknown". -/
theorem C19_state_never_goes_back (P : Platform) (startTurn : ℚ) :
    (Algorithm.new startTurn).init.1._next = some Handler.wait ∧
    (∀ (a : Algorithm) (oz : Oz) (delta_time : Int), a._next ≠ none →
      ∃ r : Algorithm × List Effect, a.update P oz delta_time = some r ∧
        (a._next = some Handler.wait →
          r.1._next = some Handler.wait ∨ r.1._next = some Handler.goStraightForPlow) ∧
        (a._next = some Handler.goStraightForPlow → r.1._next = some Handler.endPlow) ∧
        (a._next = some Handler.endPlow ∨ a._next = some Handler.turnOnNextLigne →
          r.1._next = some Handler.endPlow ∨ r.1._next = some Handler.turnOnNextLigne)) ∧
    (∀ pre post : List (Oz × Int), ∃ r1 r2 : Algorithm × List Effect,
      (Algorithm.new startTurn).init.1.run P pre = some r1 ∧
      (Algorithm.new startTurn).init.1.run P (pre ++ post) = some r2 ∧
      r1.1.getNextFunctionName ≠ "unknown" ∧
      (r1.1._next ≠ some Handler.wait → r2.1._next ≠ some Handler.wait) ∧
      (r1.1._next ≠ some Handler.wait → post ≠ [] →
        r2.1._next = some Handler.endPlow ∨ r2.1._next = some Handler.turnOnNextLigne)) := by
  refine ⟨rfl, fun a oz delta_time hn => update_next P a oz delta_time hn, ?_⟩
  intro pre post
  obtain ⟨r1, h1, hn1, _⟩ := run_spec P pre (Algorithm.new startTurn).init.1
    (by simp [Algorithm.init])
  obtain ⟨r2, h2, _, _⟩ := run_spec P post r1.1 hn1
  have h12 := run_append P pre post _ r1 r2 h1 h2
  refine ⟨r1, _, h1, h12, (getNextFunctionName_known r1.1 hn1).1, ?_, ?_⟩
  · intro hw
    cases post with
    | nil =>
      simp only [Algorithm.run, Option.some.injEq] at h2
      rw [← h2]
      exact hw
    | cons t rest =>
      obtain ⟨r3, h3, hlate⟩ := run_from_wait P (t :: rest) r1.1 hn1 hw (by simp)
      rw [h2] at h3
      rw [Option.some.inj h3]
      rcases hlate with hl | hl <;> simp [hl]
  · intro hw hp
    obtain ⟨r3, h3, hlate⟩ := run_from_wait P post r1.1 hn1 hw hp
    rw [h2] at h3
    rw [Option.some.inj h3]
    exact hlate

/-- C20: for the sub-lines `Scanner::update` produces, for any sweep and any epsilon,
every sub-line has a first and a second point, `get_near_point` returns on them, and
`adjust` on a navigation core holding this scanner returns: the reads `line.front()` and
`line[1]` stay inside the sub-lines. On an empty collection `get_near_point` returns the
pair ((0,0),(0,0)). -/
theorem C20_near_point_reads_in_bounds (P : Platform) (s : Scanner) (capture : List Nat) :
    (∃ s2 : Scanner, s.update P capture = some s2 ∧
      (∀ sl ∈ s2.get_sub_lines, ∃ front second : point,
        sl.head? = some front ∧ sl[1]? = some second) ∧
      (∃ nearpoint : point × point, get_near_point s2.get_sub_lines = some nearpoint) ∧
      (∀ (a : Algorithm) (oz : Oz), a._scanner = s2 →
        ∃ effects : List Effect, a.adjust oz = some (a, effects))) ∧
    get_near_point [] = some (⟨0, 0, ClusterTag.unbound⟩, ⟨0, 0, ClusterTag.unbound⟩) := by
  refine ⟨?_, rfl⟩
  obtain ⟨st, hup, hinv, _⟩ := update_spec P s capture
  have hlen : ∀ sl ∈ st.sub_lines_buffer, 2 ≤ sl.length := fun sl hsl =>
    le_trans (by decide) (hinv.long sl hsl)
  refine ⟨_, hup, ?_, ?_, ?_⟩
  · intro sl hsl
    have h3 := hinv.long sl hsl
    match sl, h3 with
    | p :: q :: _, _ => exact ⟨p, q, rfl, by simp⟩
  · have := get_near_point_isSome st.sub_lines_buffer hlen
    cases hn : get_near_point st.sub_lines_buffer with
    | none => simp [hn] at this
    | some np => exact ⟨np, hn⟩
  · intro a oz ha
    exact adjust_spec a oz (by rw [ha]; exact hlen)

end Algorithm
